import Mathlib

/-!
# Verification of `src/mst.js` (Minimum Spanning Tree via Kruskal / Prim)

This file gives a shallow embedding of the algorithmic core of `src/mst.js`:
the `DisjointSet` union-find structure, the `MinHeap` binary heap, `kruskalMST`,
`buildAdj` and `primMST`, and proves the specification claims about them.

Modelling conventions:
* JS arrays of numbers become `List Nat` (all quantities in the program are
  non-negative integers on valid inputs); out-of-range reads `arr[i]` are
  modelled with `List.getD`.
* JS `while` loops and the recursive `find` are not structurally recursive;
  they are modelled with an explicit fuel parameter.  In every case the
  fuel-exhausted branch coincides with a legitimate exit of the loop, and the
  call sites pass enough fuel, so no behaviour is hidden (sufficiency is part
  of the proofs).
* `throw new Error(...)` becomes `Except.error`, normal return `Except.ok`.
* `[...edges].sort((a, b) => a.w - b.w)` is a stable ascending sort by weight,
  modelled with `List.mergeSort` (which is stable).
* The `n - 1` occurring in the JS comparisons `mst.length === n - 1` and
  `mst.length < n - 1` is integer arithmetic without truncation at 0, so it is
  modelled in `Int`.
-/

/-- An edge record `{u, v, w}` of the program: endpoints `u`, `v` and
non-negative weight `w`. -/
structure Edge where
  u : Nat
  v : Nat
  w : Nat
deriving DecidableEq, Repr

instance : Inhabited Edge := ⟨⟨0, 0, 0⟩⟩

/-- The `DisjointSet` class: a `parent` array and a `rank` array. -/
structure DisjointSet where
  parent : List Nat
  rank : List Nat
deriving DecidableEq, Repr

/-- The `DisjointSet` constructor:
`parent = [0, 1, ..., n-1]`, `rank = [0, ..., 0]`. -/
def DisjointSet.init (n : Nat) : DisjointSet :=
  ⟨List.range n, List.replicate n 0⟩

/-- `find(x)` with path compression:
`if (this.parent[x] !== x) this.parent[x] = this.find(this.parent[x]); return this.parent[x]`.
The recursion is fuelled; with fuel `0` it behaves like the `parent[x] === x`
exit (which is the only exit), and the call site passes fuel `parent.length`,
sufficient under the union-by-rank invariant. -/
def findAux : Nat → List Nat → Nat → Nat × List Nat
  | 0, p, x => (x, p)
  | fuel + 1, p, x =>
    let px := p.getD x x
    if px = x then (x, p)
    else
      let rp := findAux fuel p px
      (rp.1, rp.2.set x rp.1)

/-- `DisjointSet.find`: runs `findAux` with fuel `parent.length`, returning the
root and the compressed state (`rank` is untouched by `find`). -/
def DisjointSet.find (s : DisjointSet) (x : Nat) : Nat × DisjointSet :=
  let rp := findAux s.parent.length s.parent x
  (rp.1, ⟨rp.2, s.rank⟩)

/-- `union(a, b)`: merge by rank, returning whether a merge occurred. -/
def DisjointSet.union (s : DisjointSet) (a b : Nat) : Bool × DisjointSet :=
  let fa := s.find a
  let fb := fa.2.find b
  let ra := fa.1
  let rb := fb.1
  let s2 := fb.2
  if ra = rb then (false, s2)
  else if s2.rank.getD ra 0 < s2.rank.getD rb 0 then
    (true, ⟨s2.parent.set ra rb, s2.rank⟩)
  else if s2.rank.getD rb 0 < s2.rank.getD ra 0 then
    (true, ⟨s2.parent.set rb ra, s2.rank⟩)
  else
    (true, ⟨s2.parent.set rb ra, s2.rank.set ra (s2.rank.getD ra 0 + 1)⟩)

/-- The result `{ mst, total }` returned by both algorithms. -/
structure MSTResult where
  mst : List Edge
  total : Nat
deriving DecidableEq, Repr

/-- The error message thrown by both algorithms. -/
def notConnectedMsg : String :=
  "Graph is not connected. MST cannot be formed."

/-- The `for (const {u, v, w} of sorted)` loop of `kruskalMST`, including the
early `break` once `mst.length === n - 1`. -/
def kruskalLoop (n : Nat) : List Edge → DisjointSet → List Edge → Nat → List Edge × Nat
  | [], _, mst, total => (mst, total)
  | e :: rest, ds, mst, total =>
    let ud := ds.union e.u e.v
    if ud.1 then
      let mst' := mst ++ [e]
      let total' := total + e.w
      if (mst'.length : Int) = (n : Int) - 1 then (mst', total')
      else kruskalLoop n rest ud.2 mst' total'
    else kruskalLoop n rest ud.2 mst total

/-- `kruskalMST(n, edges)`: sort a copy of the edges ascending by weight, run
the selection loop, and fail unless exactly `n - 1` edges were selected. -/
def kruskalMST (n : Nat) (edges : List Edge) : Except String MSTResult :=
  let sorted := edges.mergeSort (fun a b => a.w ≤ b.w)
  let mt := kruskalLoop n sorted (DisjointSet.init n) [] 0
  if (mt.1.length : Int) = (n : Int) - 1 then Except.ok ⟨mt.1, mt.2⟩
  else Except.error notConnectedMsg

/-- A heap entry `{w, u, v}` as pushed by `primMST` (weight first). -/
structure HeapItem where
  w : Nat
  u : Nat
  v : Nat
deriving DecidableEq, Repr

instance : Inhabited HeapItem := ⟨⟨0, 0, 0⟩⟩

/-- The `MinHeap` class: its backing array `data`. -/
structure MinHeap where
  data : List HeapItem
deriving DecidableEq, Repr

/-- The JS simultaneous swap `[d[i], d[j]] = [d[j], d[i]]`. -/
def swapIdx (d : List HeapItem) (i j : Nat) : List HeapItem :=
  let a := d.getD i default
  let b := d.getD j default
  (d.set i b).set j a

/-- `bubbleUp(i)`: while `i > 0` and the parent is heavier, swap up.  Fuelled;
the index strictly decreases each iteration, so fuel `i` (passed by
`MinHeap.push`) is always sufficient, and the fuel-exhausted branch coincides
with the `i = 0` exit. -/
def bubbleUpF : Nat → List HeapItem → Nat → List HeapItem
  | 0, d, _ => d
  | fuel + 1, d, i =>
    if i = 0 then d
    else
      let p := (i - 1) / 2
      if (d.getD p default).w ≤ (d.getD i default).w then d
      else bubbleUpF fuel (swapIdx d p i) p

/-- `push(item)`: append then bubble up from the last index. -/
def MinHeap.push (h : MinHeap) (item : HeapItem) : MinHeap :=
  let d := h.data ++ [item]
  ⟨bubbleUpF (d.length - 1) d (d.length - 1)⟩

/-- `bubbleDown(i)`: while a child is lighter, swap with the smaller child.
Fuelled; the index strictly increases and stays below `data.length`, so fuel
`data.length` (passed by `MinHeap.pop`) is always sufficient, and the
fuel-exhausted branch coincides with the `smallest === i` exit. -/
def bubbleDownF : Nat → List HeapItem → Nat → List HeapItem
  | 0, d, _ => d
  | fuel + 1, d, i =>
    let n := d.length
    let l := 2 * i + 1
    let r := 2 * i + 2
    let s1 := if l < n ∧ (d.getD l default).w < (d.getD i default).w then l else i
    let s2 := if r < n ∧ (d.getD r default).w < (d.getD s1 default).w then r else s1
    if s2 = i then d
    else bubbleDownF fuel (swapIdx d i s2) s2

/-- `pop()`: return `null` on empty; otherwise remove the root, move the last
element to the root and bubble it down. -/
def MinHeap.pop (h : MinHeap) : Option HeapItem × MinHeap :=
  match h.data with
  | [] => (none, h)
  | _ :: _ =>
    let top := h.data.getD 0 default
    let last := h.data.getLast!
    let d := h.data.dropLast
    if 0 < d.length then
      (some top, ⟨bubbleDownF ((d.set 0 last).length) (d.set 0 last) 0⟩)
    else (some top, ⟨d⟩)

/-- `get size()`: the current element count. -/
def MinHeap.size (h : MinHeap) : Nat := h.data.length

/-- An adjacency entry `{to, w}` (`to` is a reserved token in Lean, so the
field is named `toV`). -/
structure AdjEntry where
  toV : Nat
  w : Nat
deriving DecidableEq, Repr

/-- `buildAdj(n, edges)`: adjacency lists with one entry per direction per
edge, pushed in input order. -/
def buildAdj (n : Nat) (edges : List Edge) : List (List AdjEntry) :=
  edges.foldl
    (fun adj e =>
      let adj1 := adj.set e.u (adj.getD e.u [] ++ [⟨e.v, e.w⟩])
      adj1.set e.v (adj1.getD e.v [] ++ [⟨e.u, e.w⟩]))
    (List.replicate n [])

/-- The check after the `while` loop of `primMST` (and the fuel-0 fallback,
which is only reachable when the loop guard is false). -/
def primExit (n : Nat) (mst : List Edge) (total : Nat) : Except String MSTResult :=
  if (mst.length : Int) = (n : Int) - 1 then Except.ok ⟨mst, total⟩
  else Except.error notConnectedMsg

/-- The `while (heap.size > 0 && mst.length < n - 1)` loop of `primMST`.
Fuelled; each iteration pops one item and the number of items ever pushed is
bounded, so the fuel passed by `primMST` is sufficient (with fuel `0` the
measure argument forces the heap to be empty, making the fallback coincide
with the loop exit). -/
def primLoop (n : Nat) (adj : List (List AdjEntry)) :
    Nat → List Bool → MinHeap → List Edge → Nat → Except String MSTResult
  | 0, _, _, mst, total => primExit n mst total
  | fuel + 1, visited, heap, mst, total =>
    if 0 < heap.size ∧ (mst.length : Int) < (n : Int) - 1 then
      match heap.pop with
      | (none, _) => primExit n mst total
      | (some it, h') =>
        if visited.getD it.v false then
          primLoop n adj fuel visited h' mst total
        else
          let visited' := visited.set it.v true
          let heap'' := (adj.getD it.v []).foldl
            (fun hp e => if visited'.getD e.toV false then hp else hp.push ⟨e.w, it.v, e.toV⟩) h'
          primLoop n adj fuel visited' heap'' (mst ++ [⟨it.u, it.v, it.w⟩]) (total + it.w)
    else primExit n mst total

/-- `primMST(n, adj, start)`: mark `start` visited, push all of `adj[start]`,
then run the loop.  The fuel bounds the number of pops: at most the initial
heap size plus one push per adjacency entry. -/
def primMST (n : Nat) (adj : List (List AdjEntry)) (start : Nat) : Except String MSTResult :=
  let visited := (List.replicate n false).set start true
  let heap := (adj.getD start []).foldl (fun hp e => hp.push ⟨e.w, start, e.toV⟩) ⟨[]⟩
  primLoop n adj (heap.size + (adj.map List.length).sum + 1) visited heap [] 0

/-- Store-passing variant of `kruskalMST` making the treatment of the caller's
`edges` array explicit: the spread `[...edges]` copies the array and `sort`
mutates only the copy, so the function hands the caller's array back
unchanged.  The second component is the final contents of the caller's
`edges` array. -/
def kruskalMSTMut (n : Nat) (edges : List Edge) :
    Except String MSTResult × List Edge :=
  let copy := edges.foldr (fun e acc => e :: acc) []
  let sorted := copy.mergeSort (fun a b => a.w ≤ b.w)
  let mt := kruskalLoop n sorted (DisjointSet.init n) [] 0
  (if (mt.1.length : Int) = (n : Int) - 1 then Except.ok ⟨mt.1, mt.2⟩
   else Except.error notConnectedMsg, edges)

/-- Store-passing variant of `primMST`: the adjacency array is only ever read
(`adj[start]`, `adj[v]`), so the function hands the caller's array back
unchanged.  The second component is the final contents of the caller's
`adj` array. -/
def primMSTMut (n : Nat) (adj : List (List AdjEntry)) (start : Nat) :
    Except String MSTResult × List (List AdjEntry) :=
  (primMST n adj start, adj)

/-! ## Spec-side graph notions

Graphs are multisets of edges over the vertex set `[0, n)`; parallel edges are
permitted, so multisets (not sets) are the right notion of subgraph. -/

/-- Some edge of `m` joins `x` and `y` (undirected). -/
def EStep (m : Multiset Edge) (x y : Nat) : Prop :=
  ∃ e ∈ m, (e.u = x ∧ e.v = y) ∨ (e.u = y ∧ e.v = x)

/-- `y` is reachable from `x` using only edges of `m`. -/
def Reach (m : Multiset Edge) : Nat → Nat → Prop :=
  Relation.ReflTransGen (EStep m)

/-- `m` contains a cycle: some edge's endpoints stay connected after removing
that edge (this covers self-loops and parallel copies as well). -/
def HasCycle (m : Multiset Edge) : Prop :=
  ∃ e ∈ m, Reach (m.erase e) e.u e.v

/-- All `n` vertices are connected to vertex `0` (hence to each other)
within `m`. -/
def Spans (n : Nat) (m : Multiset Edge) : Prop :=
  ∀ v, v < n → Reach m 0 v

/-- `T` is a spanning tree of the graph `(n, E)`: a sub-multiset of the edge
list with exactly `n - 1` edges connecting all `n` vertices. -/
def IsSpanningTree (n : Nat) (E T : Multiset Edge) : Prop :=
  T ≤ E ∧ Multiset.card T = n - 1 ∧ Spans n T

/-- Total weight of a multiset of edges. -/
def wsum (m : Multiset Edge) : Nat := (m.map Edge.w).sum

/-- All endpoints below `n`. -/
def EdgeBdd (n : Nat) (m : Multiset Edge) : Prop :=
  ∀ e ∈ m, e.u < n ∧ e.v < n

/-- The validated-input precondition of the core: endpoints in `[0, n)` and no
self-loops (weights are `Nat`, hence non-negative). -/
def ValidEdges (n : Nat) (edges : List Edge) : Prop :=
  ∀ e ∈ edges, e.u < n ∧ e.v < n ∧ e.u ≠ e.v

theorem EStep.flip {m : Multiset Edge} {x y : Nat} (h : EStep m x y) : EStep m y x := by
  obtain ⟨e, he, hor⟩ := h
  exact ⟨e, he, hor.symm⟩

theorem Reach.symm {m : Multiset Edge} {x y : Nat} (h : Reach m x y) : Reach m y x := by
  induction h with
  | refl => exact .refl
  | tail _ hbc ih => exact Relation.ReflTransGen.trans (.single hbc.flip) ih

theorem Reach.trans {m : Multiset Edge} {x y z : Nat}
    (h1 : Reach m x y) (h2 : Reach m y z) : Reach m x z :=
  Relation.ReflTransGen.trans h1 h2

theorem EStep.mono_mem {m m' : Multiset Edge} (hm : ∀ e ∈ m, e ∈ m')
    {x y : Nat} (h : EStep m x y) : EStep m' x y := by
  obtain ⟨e, he, hor⟩ := h
  exact ⟨e, hm e he, hor⟩

theorem Reach.mono {m m' : Multiset Edge} (hm : ∀ e ∈ m, e ∈ m')
    {x y : Nat} (h : Reach m x y) : Reach m' x y :=
  Relation.ReflTransGen.mono (fun _ _ hs => hs.mono_mem hm) h

theorem Reach.mono_le {m m' : Multiset Edge} (hm : m ≤ m')
    {x y : Nat} (h : Reach m x y) : Reach m' x y :=
  h.mono (fun _ he => Multiset.mem_of_le hm he)

theorem reach_zero {x y : Nat} (h : Reach 0 x y) : x = y := by
  induction h with
  | refl => rfl
  | tail _ hbc _ => exact absurd hbc (by rintro ⟨e, he, -⟩; simp at he)

theorem reach_single {m : Multiset Edge} {e : Edge} (he : e ∈ m) :
    Reach m e.u e.v :=
  Relation.ReflTransGen.single ⟨e, he, Or.inl ⟨rfl, rfl⟩⟩

/-- Decomposition of reachability after adding one edge `e`. -/
theorem reach_cons {m : Multiset Edge} {e : Edge} {x y : Nat} :
    Reach (e ::ₘ m) x y ↔
      Reach m x y ∨ (Reach m x e.u ∧ Reach m e.v y) ∨
        (Reach m x e.v ∧ Reach m e.u y) := by
  constructor
  · intro h
    induction h with
    | refl => exact Or.inl .refl
    | @tail b c _ hbc ih =>
      obtain ⟨f, hf, hor⟩ := hbc
      rcases Multiset.mem_cons.1 hf with rfl | hfm
      · rcases hor with ⟨hu, hv⟩ | ⟨hu, hv⟩
        · subst hu; subst hv
          rcases ih with h1 | ⟨h1, _⟩ | ⟨h1, _⟩
          · exact Or.inr (Or.inl ⟨h1, .refl⟩)
          · exact Or.inr (Or.inl ⟨h1, .refl⟩)
          · exact Or.inl h1
        · subst hu; subst hv
          rcases ih with h1 | ⟨h1, _⟩ | ⟨h1, _⟩
          · exact Or.inr (Or.inr ⟨h1, .refl⟩)
          · exact Or.inl h1
          · exact Or.inr (Or.inr ⟨h1, .refl⟩)
      · have hstep : EStep m b c := ⟨f, hfm, hor⟩
        rcases ih with h1 | ⟨h1, h2⟩ | ⟨h1, h2⟩
        · exact Or.inl (h1.tail hstep)
        · exact Or.inr (Or.inl ⟨h1, h2.tail hstep⟩)
        · exact Or.inr (Or.inr ⟨h1, h2.tail hstep⟩)
  · have hsub : ∀ f ∈ m, f ∈ e ::ₘ m := fun f hf => Multiset.mem_cons_of_mem hf
    have hestep : Reach (e ::ₘ m) e.u e.v := reach_single (Multiset.mem_cons_self e m)
    rintro (h | ⟨h1, h2⟩ | ⟨h1, h2⟩)
    · exact h.mono hsub
    · exact ((h1.mono hsub).trans hestep).trans (h2.mono hsub)
    · exact ((h1.mono hsub).trans hestep.symm).trans (h2.mono hsub)

/-- If the endpoints of `e` stay connected without `e`, removing `e` does not
change reachability. -/
theorem reach_erase {m : Multiset Edge} {e : Edge}
    (hc : Reach (m.erase e) e.u e.v) {x y : Nat} (h : Reach m x y) :
    Reach (m.erase e) x y := by
  induction h with
  | refl => exact .refl
  | tail _ hbc ih =>
    obtain ⟨f, hf, hor⟩ := hbc
    by_cases hfe : f = e
    · subst hfe
      rcases hor with ⟨hu, hv⟩ | ⟨hu, hv⟩
      · exact ih.trans (hu ▸ hv ▸ hc)
      · exact ih.trans (hu ▸ hv ▸ hc.symm)
    · exact ih.tail ⟨f, Multiset.mem_erase_of_ne hfe |>.2 hf, hor⟩

/-- Simulation: if every edge of `ma` has its endpoints connected in `mb`,
then `mb`-reachability contains `ma`-reachability. -/
theorem reach_of_steps {ma mb : Multiset Edge}
    (hs : ∀ e ∈ ma, Reach mb e.u e.v) {x y : Nat} (h : Reach ma x y) :
    Reach mb x y := by
  induction h with
  | refl => exact .refl
  | tail _ hbc ih =>
    obtain ⟨f, hf, hor⟩ := hbc
    rcases hor with ⟨hu, hv⟩ | ⟨hu, hv⟩
    · exact ih.trans (hu ▸ hv ▸ hs f hf)
    · exact ih.trans (hu ▸ hv ▸ (hs f hf).symm)

theorem hasCycle_mono {m m' : Multiset Edge} (hle : m ≤ m')
    (h : HasCycle m) : HasCycle m' := by
  obtain ⟨e, he, hr⟩ := h
  exact ⟨e, Multiset.mem_of_le hle he,
    hr.mono_le (Multiset.erase_le_erase e hle)⟩

/-! ## Trails: walks using pairwise-distinct edge copies -/

/-- A walk from `x` to `y` that uses exactly the multiset `m` of edges, each
copy once. -/
inductive Trail : Multiset Edge → Nat → Nat → Prop
  | nil (x : Nat) : Trail 0 x x
  | cons {m : Multiset Edge} {x y z : Nat} (e : Edge)
      (hstep : (e.u = x ∧ e.v = y) ∨ (e.u = y ∧ e.v = x))
      (ht : Trail m y z) : Trail (e ::ₘ m) x z

theorem Trail.append {m1 m2 : Multiset Edge} {x y z : Nat}
    (h1 : Trail m1 x y) (h2 : Trail m2 y z) : Trail (m1 + m2) x z := by
  induction h1 with
  | nil => simpa using h2
  | cons e hstep _ ih =>
    rw [Multiset.cons_add]
    exact Trail.cons e hstep (ih h2)

theorem Trail.reverse {m : Multiset Edge} {x y : Nat}
    (h : Trail m x y) : Trail m y x := by
  induction h with
  | nil => exact Trail.nil _
  | @cons m x y z e hstep _ ih =>
    have h2 : Trail (m + (e ::ₘ 0)) z x :=
      ih.append (Trail.cons e hstep.symm (Trail.nil _))
    have hm : m + (e ::ₘ 0) = e ::ₘ m := by
      rw [Multiset.cons_zero, add_comm, Multiset.singleton_add]
    exact hm ▸ h2

theorem Trail.toReach {m : Multiset Edge} {x y : Nat} (h : Trail m x y) :
    Reach m x y := by
  induction h with
  | nil => exact .refl
  | cons e hstep ht ih =>
    refine Relation.ReflTransGen.trans (.single ⟨e, Multiset.mem_cons_self e _, hstep⟩) ?_
    exact ih.mono (fun f hf => Multiset.mem_cons_of_mem hf)

/-- Split a trail at some use of the edge value `f`. -/
theorem Trail.split {m : Multiset Edge} {x y : Nat} (h : Trail m x y)
    (f : Edge) (hf : f ∈ m) :
    ∃ p q m1 m2, m = m1 + (f ::ₘ m2) ∧ Trail m1 x p ∧
      ((f.u = p ∧ f.v = q) ∨ (f.u = q ∧ f.v = p)) ∧ Trail m2 q y := by
  induction h with
  | nil => simp at hf
  | @cons m x y z e hstep ht ih =>
    by_cases hef : e = f
    · subst hef
      exact ⟨x, y, 0, m, by simp, Trail.nil x, hstep, ht⟩
    · have hfm : f ∈ m := by
        rcases Multiset.mem_cons.1 hf with h | h
        · exact absurd h.symm hef
        · exact h
      obtain ⟨p, q, m1, m2, hm, h1, hpq, h2⟩ := ih hfm
      exact ⟨p, q, e ::ₘ m1, m2, by rw [hm, Multiset.cons_add], Trail.cons e hstep h1, hpq, h2⟩

/-! ## Counting connected components -/

/-- `v` is the canonical (least) vertex of its connected component. -/
def CanonicalV (m : Multiset Edge) (v : Nat) : Prop := ∀ u, u < v → ¬ Reach m u v

open Classical in
/-- The canonical vertices among `[0, n)` (proof-side device only). -/
noncomputable def canonSet (n : Nat) (m : Multiset Edge) : Finset Nat :=
  (Finset.range n).filter (fun v => CanonicalV m v)

/-- The number of connected components of the graph `([0, n), m)`, counted as
the number of canonical vertices. -/
noncomputable def comps (n : Nat) (m : Multiset Edge) : Nat := (canonSet n m).card

theorem mem_canonSet {n : Nat} {m : Multiset Edge} {v : Nat} :
    v ∈ canonSet n m ↔ v < n ∧ CanonicalV m v := by
  classical
  simp [canonSet, Finset.mem_filter, Finset.mem_range]

theorem comps_empty (n : Nat) : comps n 0 = n := by
  have h : canonSet n 0 = Finset.range n := by
    ext v
    rw [mem_canonSet, Finset.mem_range]
    constructor
    · exact fun h => h.1
    · intro hv
      exact ⟨hv, fun u hu hr => absurd (reach_zero hr) (Nat.ne_of_lt hu)⟩
  rw [comps, h, Finset.card_range]

theorem comps_mono {n : Nat} {ma mb : Multiset Edge}
    (h : ∀ x y, Reach ma x y → Reach mb x y) : comps n mb ≤ comps n ma := by
  apply Finset.card_le_card
  intro v hv
  rw [mem_canonSet] at hv ⊢
  exact ⟨hv.1, fun u hu hr => hv.2 u hu (h u v hr)⟩

theorem canonical_eq_of_reach {m : Multiset Edge} {a b : Nat}
    (ha : CanonicalV m a) (hb : CanonicalV m b) (h : Reach m a b) : a = b := by
  rcases Nat.lt_trichotomy a b with hab | hab | hab
  · exact absurd h (hb a hab)
  · exact hab
  · exact absurd h.symm (ha b hab)

theorem reach_cons_eq {m : Multiset Edge} {e : Edge} (h : Reach m e.u e.v)
    {x y : Nat} : Reach (e ::ₘ m) x y ↔ Reach m x y := by
  constructor
  · intro hr
    rcases reach_cons.1 hr with h1 | ⟨h1, h2⟩ | ⟨h1, h2⟩
    · exact h1
    · exact (h1.trans h).trans h2
    · exact (h1.trans h.symm).trans h2
  · exact fun hr => hr.mono (fun f hf => Multiset.mem_cons_of_mem hf)

theorem comps_cons_reach {n : Nat} {m : Multiset Edge} {e : Edge}
    (h : Reach m e.u e.v) : comps n (e ::ₘ m) = comps n m := by
  have key : canonSet n (e ::ₘ m) = canonSet n m := by
    ext v
    rw [mem_canonSet, mem_canonSet]
    constructor
    · rintro ⟨h1, h2⟩
      exact ⟨h1, fun u hu hr => h2 u hu ((reach_cons_eq h).2 hr)⟩
    · rintro ⟨h1, h2⟩
      exact ⟨h1, fun u hu hr => h2 u hu ((reach_cons_eq h).1 hr)⟩
  rw [comps, key, comps]

/-- Adding an edge between two distinct components decreases the component
count by exactly one. -/
theorem comps_cons_not_reach {n : Nat} {m : Multiset Edge} {e : Edge}
    (hu : e.u < n) (hv : e.v < n) (hnr : ¬ Reach m e.u e.v) :
    comps n (e ::ₘ m) + 1 = comps n m := by
  classical
  have hexA : ∃ u, Reach m u e.u := ⟨e.u, .refl⟩
  have hexB : ∃ u, Reach m u e.v := ⟨e.v, .refl⟩
  set A := Nat.find hexA with hAdef
  set B := Nat.find hexB with hBdef
  have hAr : Reach m A e.u := Nat.find_spec hexA
  have hBr : Reach m B e.v := Nat.find_spec hexB
  have hAmin : ∀ u, u < A → ¬ Reach m u e.u := fun u h => Nat.find_min hexA h
  have hBmin : ∀ u, u < B → ¬ Reach m u e.v := fun u h => Nat.find_min hexB h
  have hAle : A ≤ e.u := Nat.find_min' hexA .refl
  have hBle : B ≤ e.v := Nat.find_min' hexB .refl
  have hAn : A < n := Nat.lt_of_le_of_lt hAle hu
  have hBn : B < n := Nat.lt_of_le_of_lt hBle hv
  have hAB : A ≠ B := by
    intro h
    exact hnr (hAr.symm.trans (h ▸ hBr))
  have hAcan : CanonicalV m A := by
    intro u h hr
    exact hAmin u h (hr.trans hAr)
  have hBcan : CanonicalV m B := by
    intro u h hr
    exact hBmin u h (hr.trans hBr)
  have hsub : ∀ f ∈ m, f ∈ e ::ₘ m := fun f hf => Multiset.mem_cons_of_mem hf
  have hAB' : Reach (e ::ₘ m) A B :=
    ((hAr.mono hsub).trans (reach_single (Multiset.mem_cons_self e m))).trans
      (hBr.symm.mono hsub)
  have key : canonSet n (e ::ₘ m) = (canonSet n m).erase (max A B) := by
    ext v
    rw [mem_canonSet, Finset.mem_erase, mem_canonSet]
    constructor
    · rintro ⟨hvn, hc⟩
      refine ⟨?_, hvn, fun u h hr => hc u h (hr.mono hsub)⟩
      intro hveq
      rcases Nat.lt_or_ge A B with hlt | hge
      · have hmax : max A B = B := Nat.max_eq_right (Nat.le_of_lt hlt)
        exact hc A (by omega) (by rw [hveq, hmax]; exact hAB')
      · have hlt : B < A := Nat.lt_of_le_of_ne hge (Ne.symm hAB)
        have hmax : max A B = A := Nat.max_eq_left (Nat.le_of_lt hlt)
        exact hc B (by omega) (by rw [hveq, hmax]; exact hAB'.symm)
    · rintro ⟨hvne, hvn, hc⟩
      refine ⟨hvn, ?_⟩
      intro u h hr
      rcases reach_cons.1 hr with h1 | ⟨h1, h2⟩ | ⟨h1, h2⟩
      · exact hc u h h1
      · have hvB : v = B := (canonical_eq_of_reach hBcan hc (hBr.trans h2)).symm
        have huA : A ≤ u := by
          by_contra hcon
          exact hAmin u (by omega) h1
        have hABlt : A < B := by omega
        exact hvne (by rw [hvB]; exact (Nat.max_eq_right (Nat.le_of_lt hABlt)).symm)
      · have hvA : v = A := (canonical_eq_of_reach hAcan hc (hAr.trans h2)).symm
        have huB : B ≤ u := by
          by_contra hcon
          exact hBmin u (by omega) h1
        have hBAlt : B < A := by omega
        exact hvne (by rw [hvA]; exact (Nat.max_eq_left (Nat.le_of_lt hBAlt)).symm)
  have hmem : max A B ∈ canonSet n m := by
    rcases Nat.le_total A B with hle | hle
    · rw [Nat.max_eq_right hle, mem_canonSet]
      exact ⟨hBn, hBcan⟩
    · rw [Nat.max_eq_left hle, mem_canonSet]
      exact ⟨hAn, hAcan⟩
  have hpos : 0 < (canonSet n m).card := Finset.card_pos.2 ⟨_, hmem⟩
  have hcard := Finset.card_erase_of_mem hmem
  rw [comps, key, hcard, comps]
  omega

theorem comps_add_card (n : Nat) (m : Multiset Edge) (hb : EdgeBdd n m) :
    n ≤ comps n m + Multiset.card m := by
  induction m using Multiset.induction_on with
  | empty => simp [comps_empty]
  | cons e m ih =>
    have hbm : EdgeBdd n m := fun f hf => hb f (Multiset.mem_cons_of_mem hf)
    have hbe := hb e (Multiset.mem_cons_self e m)
    by_cases hr : Reach m e.u e.v
    · rw [comps_cons_reach hr]
      have := ih hbm
      simp only [Multiset.card_cons]
      omega
    · have h1 := comps_cons_not_reach hbe.1 hbe.2 hr
      have h2 := ih hbm
      simp only [Multiset.card_cons]
      omega

theorem comps_forest {n : Nat} (m : Multiset Edge) (hb : EdgeBdd n m)
    (hf : ¬ HasCycle m) : comps n m + Multiset.card m = n := by
  induction m using Multiset.induction_on with
  | empty => simp [comps_empty]
  | cons e m ih =>
    have hbm : EdgeBdd n m := fun f hfm => hb f (Multiset.mem_cons_of_mem hfm)
    have hbe := hb e (Multiset.mem_cons_self e m)
    have hfm : ¬ HasCycle m := fun hc => hf (hasCycle_mono (Multiset.le_cons_self m e) hc)
    have hnr : ¬ Reach m e.u e.v := by
      intro hr
      exact hf ⟨e, Multiset.mem_cons_self e m, by rwa [Multiset.erase_cons_head]⟩
    have hdec := comps_cons_not_reach hbe.1 hbe.2 hnr
    have hih := ih hbm hfm
    simp only [Multiset.card_cons]
    omega

theorem comps_spans {n : Nat} {m : Multiset Edge} (hn : 0 < n) (hs : Spans n m) :
    comps n m = 1 := by
  have key : canonSet n m = {0} := by
    ext v
    rw [mem_canonSet, Finset.mem_singleton]
    constructor
    · rintro ⟨hvn, hc⟩
      by_contra hne
      exact hc 0 (Nat.pos_of_ne_zero hne) (hs v hvn)
    · rintro rfl
      exact ⟨hn, fun u hu _ => absurd hu (Nat.not_lt_zero u)⟩
  rw [comps, key, Finset.card_singleton]

/-- A connected graph on `n` vertices with `n - 1` edges is acyclic. -/
theorem spanning_no_cycle {n : Nat} {T : Multiset Edge} (hn : 0 < n)
    (hb : EdgeBdd n T) (hcard : Multiset.card T = n - 1) (hs : Spans n T) :
    ¬ HasCycle T := by
  rintro ⟨e, he, hr⟩
  have hs' : Spans n (T.erase e) := fun v hv => reach_erase hr (hs v hv)
  have hc' : comps n (T.erase e) = 1 := comps_spans hn hs'
  have hb' : EdgeBdd n (T.erase e) := fun f hf => hb f (Multiset.mem_of_mem_erase hf)
  have hlb := comps_add_card n (T.erase e) hb'
  have hce : Multiset.card (T.erase e) = Multiset.card T - 1 :=
    Multiset.card_erase_of_mem he
  have hTpos : 0 < Multiset.card T := Multiset.card_pos_iff_exists_mem.2 ⟨e, he⟩
  omega

/-- Exchange property of the graphic matroid: a larger forest contains an edge
joining two distinct components of a smaller one. -/
theorem forest_exchange {n : Nat} {F T : Multiset Edge} (hbF : EdgeBdd n F)
    (hbT : EdgeBdd n T) (hfF : ¬ HasCycle F) (hfT : ¬ HasCycle T)
    (hcard : Multiset.card F < Multiset.card T) :
    ∃ e ∈ T, ¬ Reach F e.u e.v := by
  by_contra hcon
  push_neg at hcon
  have hsub : ∀ x y, Reach T x y → Reach F x y :=
    fun x y h => reach_of_steps hcon h
  have h1 : comps n F ≤ comps n T := comps_mono hsub
  have h2 := comps_forest F hbF hfF
  have h3 := comps_forest T hbT hfT
  omega

/-! ## DisjointSet verification -/

/-- Parent lookup as the program performs it (`this.parent[x]`). -/
def pGet (p : List Nat) (x : Nat) : Nat := p.getD x x

/-- `x` is a root: `parent[x] === x`. -/
def IsRootP (p : List Nat) (x : Nat) : Prop := pGet p x = x

/-- `k`-fold parent iteration (proof-side, no compression). -/
def pIter (p : List Nat) : Nat → Nat → Nat
  | 0, x => x
  | k + 1, x => pIter p k (pGet p x)

/-- Fuelled walk to the root (proof-side, no compression). -/
def rootD (p : List Nat) : Nat → Nat → Nat
  | 0, x => x
  | f + 1, x => if pGet p x = x then x else rootD p f (pGet p x)

/-- The root of `x`'s tree. -/
def rootOf (p : List Nat) (x : Nat) : Nat := rootD p p.length x

/-- The parent chain from `x` reaches the root `r`. -/
def RootsTo (p : List Nat) (x r : Nat) : Prop :=
  ∃ k, pIter p k x = r ∧ IsRootP p r

/-- The union-by-rank invariant of a parent/rank array pair: entries of
`parent` are in range and ranks strictly increase along parent links. -/
structure PWF (n : Nat) (p rk : List Nat) : Prop where
  plen : p.length = n
  pbound : ∀ x, x < n → pGet p x < n
  rord : ∀ x, x < n → pGet p x ≠ x → rk.getD x 0 < rk.getD (pGet p x) 0

theorem pIter_succ_back (p : List Nat) (k x : Nat) :
    pIter p (k + 1) x = pGet p (pIter p k x) := by
  induction k generalizing x with
  | zero => rfl
  | succ k ih => exact ih (pGet p x)

theorem pIter_lt {n : Nat} {p rk : List Nat} (h : PWF n p rk) {x : Nat}
    (hx : x < n) : ∀ k, pIter p k x < n := by
  intro k
  induction k generalizing x with
  | zero => exact hx
  | succ k ih => exact ih (h.pbound x hx)

theorem pIter_stable {p : List Nat} {k x : Nat}
    (h : IsRootP p (pIter p k x)) : ∀ j, k ≤ j → pIter p j x = pIter p k x := by
  intro j hj
  obtain ⟨d, rfl⟩ := Nat.exists_eq_add_of_le hj
  induction d with
  | zero => rfl
  | succ d ih =>
    have h2 : k + (d + 1) = (k + d) + 1 := by omega
    rw [h2, pIter_succ_back, ih (by omega)]
    exact h

/-- Along a chain of non-roots, ranks strictly increase. -/
theorem rank_chain_lt {n : Nat} {p rk : List Nat} (h : PWF n p rk) {x : Nat}
    (hx : x < n) (d i : Nat) (hd : 0 < d)
    (hnr : ∀ j, j < i + d → ¬ IsRootP p (pIter p j x)) :
    rk.getD (pIter p i x) 0 < rk.getD (pIter p (i + d) x) 0 := by
  induction d with
  | zero => omega
  | succ d ih =>
    have hstep : rk.getD (pIter p (i + d) x) 0 < rk.getD (pIter p (i + d + 1) x) 0 := by
      rw [pIter_succ_back]
      exact h.rord _ (pIter_lt h hx _) (hnr (i + d) (by omega))
    rcases Nat.eq_zero_or_pos d with rfl | hdp
    · simpa using hstep
    · have hih := ih hdp (fun j hj => hnr j (by omega))
      have : i + (d + 1) = (i + d) + 1 := by omega
      rw [this]
      omega

/-- Pigeonhole: under the invariant every chain reaches a root within `n`
steps. -/
theorem exists_isRoot {n : Nat} {p rk : List Nat} (h : PWF n p rk) {x : Nat}
    (hx : x < n) : ∃ k, k ≤ n ∧ IsRootP p (pIter p k x) := by
  by_contra hcon
  push_neg at hcon
  have hnr : ∀ j, j < n + 1 → ¬ IsRootP p (pIter p j x) := by
    intro j hj hroot
    rcases Nat.lt_or_ge j (n + 1) with _ | _
    · exact hcon j (by omega) hroot
    · omega
  have hinj : Function.Injective (fun i : Fin (n + 1) => (⟨pIter p i x, pIter_lt h hx i⟩ : Fin n)) := by
    intro i j hij
    simp only [Fin.mk.injEq] at hij
    by_contra hne
    rcases Nat.lt_or_ge i.val j.val with hlt | hge
    · have := rank_chain_lt h hx (j.val - i.val) i.val (by omega)
        (fun k hk => hnr k (by omega))
      rw [show i.val + (j.val - i.val) = j.val by omega] at this
      rw [hij] at this
      omega
    · have hlt : j.val < i.val := by
        rcases Nat.lt_or_ge j.val i.val with h' | h'
        · exact h'
        · exact absurd (Fin.ext (by omega)) hne
      have := rank_chain_lt h hx (i.val - j.val) j.val (by omega)
        (fun k hk => hnr k (by omega))
      rw [show j.val + (i.val - j.val) = i.val by omega] at this
      rw [hij] at this
      omega
  have := Fintype.card_le_of_injective _ hinj
  simp at this

theorem rootsTo_unique {p : List Nat} {x r1 r2 : Nat}
    (h1 : RootsTo p x r1) (h2 : RootsTo p x r2) : r1 = r2 := by
  obtain ⟨k1, e1, hr1⟩ := h1
  obtain ⟨k2, e2, hr2⟩ := h2
  rcases Nat.le_total k1 k2 with hle | hle
  · rw [← e2, pIter_stable (e1 ▸ hr1) k2 hle, e1]
  · rw [← e1, pIter_stable (e2 ▸ hr2) k1 hle, e2]

theorem rootD_rootsTo {p : List Nat} :
    ∀ fuel x, (∃ k, k ≤ fuel ∧ IsRootP p (pIter p k x)) →
      RootsTo p x (rootD p fuel x) := by
  intro fuel
  induction fuel with
  | zero =>
    intro x hx
    obtain ⟨k, hk, hroot⟩ := hx
    interval_cases k
    exact ⟨0, rfl, hroot⟩
  | succ fuel ih =>
    intro x hx
    rw [rootD]
    by_cases hroot : pGet p x = x
    · rw [if_pos hroot]
      exact ⟨0, rfl, hroot⟩
    · rw [if_neg hroot]
      obtain ⟨k, hk, hkroot⟩ := hx
      have hk0 : k ≠ 0 := by
        rintro rfl
        exact hroot hkroot
      have hrec : ∃ k', k' ≤ fuel ∧ IsRootP p (pIter p k' (pGet p x)) := by
        refine ⟨k - 1, by omega, ?_⟩
        have heq : pIter p k x = pIter p (k - 1) (pGet p x) := by
          conv_lhs => rw [show k = (k - 1) + 1 by omega]
          rfl
        rw [← heq]
        exact hkroot
      obtain ⟨k', e', hr'⟩ := ih (pGet p x) hrec
      exact ⟨k' + 1, e', hr'⟩

theorem rootOf_rootsTo {n : Nat} {p rk : List Nat} (h : PWF n p rk) {x : Nat}
    (hx : x < n) : RootsTo p x (rootOf p x) := by
  obtain ⟨k, hk, hroot⟩ := exists_isRoot h hx
  exact rootD_rootsTo p.length x ⟨k, by rw [h.plen]; exact hk, hroot⟩

theorem rootOf_isRoot {n : Nat} {p rk : List Nat} (h : PWF n p rk) {x : Nat}
    (hx : x < n) : IsRootP p (rootOf p x) :=
  (rootOf_rootsTo h hx).choose_spec.2

theorem rootOf_lt {n : Nat} {p rk : List Nat} (h : PWF n p rk) {x : Nat}
    (hx : x < n) : rootOf p x < n := by
  obtain ⟨k, hk, _⟩ := rootOf_rootsTo h hx
  rw [← hk]
  exact pIter_lt h hx k

theorem rootsTo_self {p : List Nat} {x : Nat} (h : IsRootP p x) : RootsTo p x x :=
  ⟨0, rfl, h⟩

theorem rootOf_of_isRoot {n : Nat} {p rk : List Nat} (h : PWF n p rk) {x : Nat}
    (hx : x < n) (hr : IsRootP p x) : rootOf p x = x :=
  rootsTo_unique (rootOf_rootsTo h hx) (rootsTo_self hr)

theorem rootsTo_step {p : List Nat} {x r : Nat} (h : RootsTo p (pGet p x) r) :
    RootsTo p x r := by
  obtain ⟨k, hk, hr⟩ := h
  exact ⟨k + 1, hk, hr⟩

theorem rootOf_pGet {n : Nat} {p rk : List Nat} (h : PWF n p rk) {x : Nat}
    (hx : x < n) : rootOf p (pGet p x) = rootOf p x := by
  apply rootsTo_unique (rootOf_rootsTo h (h.pbound x hx))
  obtain ⟨k, hk, hroot⟩ := rootOf_rootsTo h hx
  by_cases hr : pGet p x = x
  · rw [hr]
    exact ⟨k, hk, hroot⟩
  · have hk0 : k ≠ 0 := by
      rintro rfl
      have hx' : x = rootOf p x := hk
      rw [← hx'] at hroot
      exact hr hroot
    refine ⟨k - 1, ?_, hroot⟩
    conv_rhs => rw [← hk]
    conv_rhs => rw [show k = (k - 1) + 1 by omega]
    rfl

theorem rank_lt_rootOf_aux {n : Nat} {p rk : List Nat} (h : PWF n p rk) :
    ∀ k x, x < n → IsRootP p (pIter p k x) → ¬ IsRootP p x →
      rk.getD x 0 < rk.getD (pIter p k x) 0 := by
  intro k
  induction k with
  | zero =>
    intro x _ hroot hnr
    exact absurd hroot hnr
  | succ k ih =>
    intro x hx hroot hnr
    have hstep : rk.getD x 0 < rk.getD (pGet p x) 0 := h.rord x hx hnr
    by_cases hr2 : IsRootP p (pGet p x)
    · have heq : pIter p (k + 1) x = pGet p x := by
        have h2 := pIter_stable (show IsRootP p (pIter p 0 (pGet p x)) from hr2) k
          (Nat.zero_le k)
        show pIter p k (pGet p x) = pGet p x
        exact h2
      rw [heq]
      exact hstep
    · have := ih (pGet p x) (h.pbound x hx) hroot hr2
      show rk.getD x 0 < rk.getD (pIter p k (pGet p x)) 0
      omega

theorem rank_lt_rootOf {n : Nat} {p rk : List Nat} (h : PWF n p rk) {x : Nat}
    (hx : x < n) (hnr : ¬ IsRootP p x) :
    rk.getD x 0 < rk.getD (rootOf p x) 0 := by
  obtain ⟨k, hk, hroot⟩ := rootOf_rootsTo h hx
  rw [← hk]
  exact rank_lt_rootOf_aux h k x hx (hk ▸ hroot) hnr

theorem pGet_set_self {p : List Nat} {x v : Nat} (h : x < p.length) :
    pGet (p.set x v) x = v := by
  simp [pGet, List.getD_eq_getElem?_getD, List.getElem?_set, h]

theorem pGet_set_ne {p : List Nat} {x v y : Nat} (h : x ≠ y) :
    pGet (p.set x v) y = pGet p y := by
  simp [pGet, List.getD_eq_getElem?_getD, List.getElem?_set, h]

theorem rootD_congr {p q : List Nat} (hpg : ∀ z, pGet p z = pGet q z) :
    ∀ f x, rootD p f x = rootD q f x := by
  intro f
  induction f with
  | zero => intro x; rfl
  | succ f ih =>
    intro x
    rw [rootD, rootD, hpg x]
    by_cases hx : pGet q x = x
    · rw [if_pos hx, if_pos hx]
    · rw [if_neg hx, if_neg hx]
      exact ih _

theorem PWF.congr {n : Nat} {p q rk : List Nat} (h : PWF n p rk)
    (hl : q.length = n) (hpg : ∀ z, pGet p z = pGet q z) : PWF n q rk where
  plen := hl
  pbound := fun x hx => hpg x ▸ h.pbound x hx
  rord := fun x hx hne => by
    rw [← hpg x] at hne ⊢
    exact h.rord x hx hne

/-- Re-pointing a vertex to its root (path compression step) preserves the
invariant, the set of roots, and the root of every vertex. -/
theorem set_root_spec {n : Nat} {p rk : List Nat} (h : PWF n p rk) {x : Nat}
    (hx : x < n) :
    PWF n (p.set x (rootOf p x)) rk ∧
    (∀ y, IsRootP (p.set x (rootOf p x)) y ↔ IsRootP p y) ∧
    (∀ y, y < n → rootOf (p.set x (rootOf p x)) y = rootOf p y) := by
  have hxlen : x < p.length := by rw [h.plen]; exact hx
  by_cases hroot : IsRootP p x
  · have hrx : rootOf p x = x := rootOf_of_isRoot h hx hroot
    have hpg : ∀ z, pGet p z = pGet (p.set x (rootOf p x)) z := by
      intro z
      by_cases hz : x = z
      · subst hz
        rw [hrx, pGet_set_self hxlen]
        exact hroot
      · rw [pGet_set_ne hz]
    have hlen : (p.set x (rootOf p x)).length = n := by
      rw [List.length_set, h.plen]
    refine ⟨h.congr hlen hpg, fun y => ?_, fun y hy => ?_⟩
    · unfold IsRootP
      rw [hpg y]
    · unfold rootOf
      rw [List.length_set]
      exact (rootD_congr hpg p.length y).symm
  · set rt := rootOf p x with hrtdef
    have hrtroot : IsRootP p rt := rootOf_isRoot h hx
    have hrtn : rt < n := rootOf_lt h hx
    have hrtne : rt ≠ x := by
      intro hcon
      rw [← hcon] at hroot
      exact hroot hrtroot
    have hlen : (p.set x rt).length = n := by rw [List.length_set, h.plen]
    have hpgx : pGet (p.set x rt) x = rt := pGet_set_self hxlen
    have hpgne : ∀ y, y ≠ x → pGet (p.set x rt) y = pGet p y :=
      fun y hy => pGet_set_ne (Ne.symm hy)
    have hwf : PWF n (p.set x rt) rk := by
      refine ⟨hlen, ?_, ?_⟩
      · intro y hy
        by_cases hyx : y = x
        · subst hyx
          rw [hpgx]
          exact hrtn
        · rw [hpgne y hyx]
          exact h.pbound y hy
      · intro y hy hne
        by_cases hyx : y = x
        · subst hyx
          rw [hpgx]
          exact rank_lt_rootOf h hx hroot
        · rw [hpgne y hyx] at hne ⊢
          exact h.rord y hy hne
    have hiff : ∀ y, IsRootP (p.set x rt) y ↔ IsRootP p y := by
      intro y
      by_cases hyx : y = x
      · subst hyx
        unfold IsRootP
        rw [hpgx]
        constructor
        · intro hc
          exact absurd hc hrtne
        · intro hc
          exact absurd hc hroot
      · unfold IsRootP
        rw [hpgne y hyx]
    have aux : ∀ k y, y < n → IsRootP p (pIter p k y) →
        RootsTo (p.set x rt) y (rootOf p y) := by
      intro k
      induction k with
      | zero =>
        intro y hy hr
        have hry : rootOf p y = y := rootOf_of_isRoot h hy hr
        rw [hry]
        exact rootsTo_self ((hiff y).2 hr)
      | succ k ih =>
        intro y hy hr
        by_cases hry : IsRootP p y
        · have hr0 : rootOf p y = y := rootOf_of_isRoot h hy hry
          rw [hr0]
          exact rootsTo_self ((hiff y).2 hry)
        · by_cases hyx : y = x
          · subst hyx
            refine ⟨1, ?_, (hiff rt).2 hrtroot⟩
            show pGet (p.set y rt) y = rootOf p y
            rw [hpgx]
          · have hstep : pIter p k (pGet p y) = pIter p (k + 1) y := rfl
            have hz := ih (pGet p y) (h.pbound y hy) (by rw [hstep]; exact hr)
            rw [rootOf_pGet h hy] at hz
            obtain ⟨j, hj, hjr⟩ := hz
            refine ⟨j + 1, ?_, hjr⟩
            show pIter (p.set x rt) j (pGet (p.set x rt) y) = rootOf p y
            rw [hpgne y hyx]
            exact hj
    refine ⟨hwf, hiff, fun y hy => ?_⟩
    obtain ⟨k, _, hk⟩ := exists_isRoot h hy
    exact rootsTo_unique (rootOf_rootsTo hwf hy) (aux k y hy hk)

theorem findAux_succ (fuel : Nat) (p : List Nat) (x : Nat) :
    findAux (fuel + 1) p x =
      if pGet p x = x then (x, p)
      else ((findAux fuel p (pGet p x)).1,
        (findAux fuel p (pGet p x)).2.set x (findAux fuel p (pGet p x)).1) := rfl

/-- Full specification of a (sufficiently fuelled) `findAux` call. -/
theorem findAux_spec {n : Nat} {p rk : List Nat} (h : PWF n p rk) :
    ∀ fuel x, x < n → (∃ k, k ≤ fuel ∧ IsRootP p (pIter p k x)) →
      (findAux fuel p x).1 = rootOf p x ∧
      PWF n (findAux fuel p x).2 rk ∧
      (∀ y, IsRootP (findAux fuel p x).2 y ↔ IsRootP p y) ∧
      (∀ y, y < n → rootOf (findAux fuel p x).2 y = rootOf p y) := by
  intro fuel
  induction fuel with
  | zero =>
    intro x hx hex
    obtain ⟨k, hk, hroot⟩ := hex
    interval_cases k
    exact ⟨(rootOf_of_isRoot h hx hroot).symm, h, fun y => Iff.rfl, fun y hy => rfl⟩
  | succ fuel ih =>
    intro x hx hex
    by_cases hroot : pGet p x = x
    · rw [findAux_succ, if_pos hroot]
      exact ⟨(rootOf_of_isRoot h hx hroot).symm, h, fun y => Iff.rfl, fun y hy => rfl⟩
    · rw [findAux_succ, if_neg hroot]
      obtain ⟨k, hk, hkroot⟩ := hex
      have hk0 : k ≠ 0 := by
        rintro rfl
        exact hroot hkroot
      have hex' : ∃ k', k' ≤ fuel ∧ IsRootP p (pIter p k' (pGet p x)) := by
        refine ⟨k - 1, by omega, ?_⟩
        have heq : pIter p k x = pIter p (k - 1) (pGet p x) := by
          conv_lhs => rw [show k = (k - 1) + 1 by omega]
          rfl
        rw [← heq]
        exact hkroot
      obtain ⟨ih1, ih2, ih3, ih4⟩ := ih (pGet p x) (h.pbound x hx) hex'
      have hroot1 : (findAux fuel p (pGet p x)).1 = rootOf p x := by
        rw [ih1, rootOf_pGet h hx]
      have hval : (findAux fuel p (pGet p x)).1 =
          rootOf (findAux fuel p (pGet p x)).2 x := by
        rw [hroot1, ih4 x hx]
      obtain ⟨s1, s2, s3⟩ := set_root_spec ih2 hx
      rw [← hval] at s1 s2 s3
      refine ⟨hroot1, s1, ?_, ?_⟩
      · intro y
        rw [s2 y, ih3 y]
      · intro y hy
        rw [s3 y hy, ih4 y hy]

/-- The union-find invariant at the `DisjointSet` level. -/
def DSUWF (n : Nat) (s : DisjointSet) : Prop :=
  PWF n s.parent s.rank ∧ s.rank.length = n

/-- Full specification of `DisjointSet.find`. -/
theorem find_spec {n : Nat} {s : DisjointSet} (h : DSUWF n s) {x : Nat}
    (hx : x < n) :
    (s.find x).1 = rootOf s.parent x ∧
    (s.find x).2.rank = s.rank ∧
    DSUWF n (s.find x).2 ∧
    (∀ y, IsRootP (s.find x).2.parent y ↔ IsRootP s.parent y) ∧
    (∀ y, y < n → rootOf (s.find x).2.parent y = rootOf s.parent y) := by
  obtain ⟨k, hk, hroot⟩ := exists_isRoot h.1 hx
  have hex : ∃ k, k ≤ s.parent.length ∧ IsRootP s.parent (pIter s.parent k x) := by
    refine ⟨k, ?_, hroot⟩
    rw [h.1.plen]
    exact hk
  obtain ⟨h1, h2, h3, h4⟩ := findAux_spec h.1 s.parent.length x hx hex
  exact ⟨h1, rfl, ⟨h2, h.2⟩, h3, h4⟩

/-- Linking one root under another preserves the invariant, provided the rank
array `rk'` orders them and agrees with `rk` on non-roots. -/
theorem link_PWF {n : Nat} {p rk rk' : List Nat} (h : PWF n p rk) {rd rkp : Nat}
    (hrdn : rd < n) (hrkn : rkp < n)
    (hlt : rk'.getD rd 0 < rk'.getD rkp 0)
    (hpres : ∀ y, y < n → ¬ IsRootP p y → rk'.getD y 0 = rk.getD y 0)
    (hmono : ∀ y, y < n → rk.getD y 0 ≤ rk'.getD y 0) :
    PWF n (p.set rd rkp) rk' := by
  have hrdlen : rd < p.length := by rw [h.plen]; exact hrdn
  have hlen : (p.set rd rkp).length = n := by rw [List.length_set, h.plen]
  have hpgx : pGet (p.set rd rkp) rd = rkp := pGet_set_self hrdlen
  have hpgne : ∀ y, y ≠ rd → pGet (p.set rd rkp) y = pGet p y :=
    fun y hy => pGet_set_ne (Ne.symm hy)
  refine ⟨hlen, ?_, ?_⟩
  · intro y hy
    by_cases hyx : y = rd
    · subst hyx
      rw [hpgx]
      exact hrkn
    · rw [hpgne y hyx]
      exact h.pbound y hy
  · intro y hy hne
    by_cases hyx : y = rd
    · subst hyx
      rw [hpgx]
      exact hlt
    · rw [hpgne y hyx] at hne ⊢
      have hnr : ¬ IsRootP p y := hne
      have h1 := h.rord y hy hne
      have h2 := hpres y hy hnr
      have h3 := hmono (pGet p y) (h.pbound y hy)
      omega

/-- Root structure after linking root `rd` under root `rkp`. -/
theorem link_root {n : Nat} {p rk rk' : List Nat} (h : PWF n p rk) {rd rkp : Nat}
    (h' : PWF n (p.set rd rkp) rk') (hrdn : rd < n) (hrkn : rkp < n)
    (hrd : IsRootP p rd) (hrkp : IsRootP p rkp) (hne : rd ≠ rkp) :
    (∀ y, y < n → rootOf (p.set rd rkp) y =
      if rootOf p y = rd then rkp else rootOf p y) ∧
    (∀ y, IsRootP (p.set rd rkp) y ↔ (IsRootP p y ∧ y ≠ rd)) := by
  have hrdlen : rd < p.length := by rw [h.plen]; exact hrdn
  have hpgx : pGet (p.set rd rkp) rd = rkp := pGet_set_self hrdlen
  have hpgne : ∀ y, y ≠ rd → pGet (p.set rd rkp) y = pGet p y :=
    fun y hy => pGet_set_ne (Ne.symm hy)
  have hiff : ∀ y, IsRootP (p.set rd rkp) y ↔ (IsRootP p y ∧ y ≠ rd) := by
    intro y
    by_cases hyx : y = rd
    · subst hyx
      unfold IsRootP
      rw [hpgx]
      constructor
      · intro hc
        exact absurd hc (Ne.symm hne)
      · rintro ⟨-, hc⟩
        exact absurd rfl hc
    · unfold IsRootP
      rw [hpgne y hyx]
      exact ⟨fun hc => ⟨hc, hyx⟩, fun hc => hc.1⟩
  have hrkproot : IsRootP (p.set rd rkp) rkp :=
    (hiff rkp).2 ⟨hrkp, Ne.symm hne⟩
  have aux : ∀ k y, y < n → IsRootP p (pIter p k y) →
      RootsTo (p.set rd rkp) y (if rootOf p y = rd then rkp else rootOf p y) := by
    intro k
    induction k with
    | zero =>
      intro y hy hr
      have hry : rootOf p y = y := rootOf_of_isRoot h hy hr
      rw [hry]
      by_cases hyrd : y = rd
      · subst hyrd
        rw [if_pos rfl]
        refine ⟨1, ?_, hrkproot⟩
        show pGet (p.set y rkp) y = rkp
        exact hpgx
      · rw [if_neg hyrd]
        exact rootsTo_self ((hiff y).2 ⟨hr, hyrd⟩)
    | succ k ih =>
      intro y hy hr
      by_cases hry : IsRootP p y
      · have hry0 : rootOf p y = y := rootOf_of_isRoot h hy hry
        rw [hry0]
        by_cases hyrd : y = rd
        · subst hyrd
          rw [if_pos rfl]
          refine ⟨1, ?_, hrkproot⟩
          show pGet (p.set y rkp) y = rkp
          exact hpgx
        · rw [if_neg hyrd]
          exact rootsTo_self ((hiff y).2 ⟨hry, hyrd⟩)
      · have hyrd : y ≠ rd := by
          rintro rfl
          exact hry hrd
        have hstep : pIter p k (pGet p y) = pIter p (k + 1) y := rfl
        have hz := ih (pGet p y) (h.pbound y hy) (by rw [hstep]; exact hr)
        rw [rootOf_pGet h hy] at hz
        obtain ⟨j, hj, hjr⟩ := hz
        refine ⟨j + 1, ?_, hjr⟩
        show pIter (p.set rd rkp) j (pGet (p.set rd rkp) y) = _
        rw [hpgne y hyrd]
        exact hj
  refine ⟨fun y hy => ?_, hiff⟩
  obtain ⟨k, _, hk⟩ := exists_isRoot h hy
  exact rootsTo_unique (rootOf_rootsTo h' hy) (aux k y hy hk)

theorem DisjointSet.union_def (s : DisjointSet) (a b : Nat) :
    s.union a b =
      (if (s.find a).1 = ((s.find a).2.find b).1 then (false, ((s.find a).2.find b).2)
       else if ((s.find a).2.find b).2.rank.getD (s.find a).1 0 <
           ((s.find a).2.find b).2.rank.getD ((s.find a).2.find b).1 0 then
         (true, ⟨((s.find a).2.find b).2.parent.set (s.find a).1 ((s.find a).2.find b).1,
           ((s.find a).2.find b).2.rank⟩)
       else if ((s.find a).2.find b).2.rank.getD ((s.find a).2.find b).1 0 <
           ((s.find a).2.find b).2.rank.getD (s.find a).1 0 then
         (true, ⟨((s.find a).2.find b).2.parent.set ((s.find a).2.find b).1 (s.find a).1,
           ((s.find a).2.find b).2.rank⟩)
       else
         (true, ⟨((s.find a).2.find b).2.parent.set ((s.find a).2.find b).1 (s.find a).1,
           ((s.find a).2.find b).2.rank.set (s.find a).1
             (((s.find a).2.find b).2.rank.getD (s.find a).1 0 + 1)⟩)) := rfl

/-- Full specification of `DisjointSet.union`. -/
theorem union_spec {n : Nat} {s : DisjointSet} (h : DSUWF n s) {a b : Nat}
    (ha : a < n) (hb : b < n) :
    DSUWF n (s.union a b).2 ∧
    ((s.union a b).1 = true ↔ rootOf s.parent a ≠ rootOf s.parent b) ∧
    (rootOf s.parent a = rootOf s.parent b →
      (∀ y, y < n → rootOf (s.union a b).2.parent y = rootOf s.parent y) ∧
      (∀ y, IsRootP (s.union a b).2.parent y ↔ IsRootP s.parent y)) ∧
    (rootOf s.parent a ≠ rootOf s.parent b →
      ∃ rkeep rdrop,
        ((rkeep = rootOf s.parent a ∧ rdrop = rootOf s.parent b) ∨
         (rkeep = rootOf s.parent b ∧ rdrop = rootOf s.parent a)) ∧
        (∀ y, y < n → rootOf (s.union a b).2.parent y =
          if rootOf s.parent y = rdrop then rkeep else rootOf s.parent y) ∧
        (∀ y, IsRootP (s.union a b).2.parent y ↔
          (IsRootP s.parent y ∧ y ≠ rdrop))) := by
  obtain ⟨fa1, fa2, fa3, fa4, fa5⟩ := find_spec h ha
  obtain ⟨fb1, fb2, fb3, fb4, fb5⟩ := find_spec fa3 hb
  set s2 := ((s.find a).2.find b).2 with hs2
  set ra := rootOf s.parent a with hra
  set rb := rootOf s.parent b with hrb
  have hfa1 : (s.find a).1 = ra := fa1
  have hfb1 : ((s.find a).2.find b).1 = rb := by
    rw [fb1, fa5 b hb]
  have hs2rank : s2.rank = s.rank := by
    rw [hs2, fb2, fa2]
  have hs2wf : DSUWF n s2 := fb3
  have hs2roots : ∀ y, y < n → rootOf s2.parent y = rootOf s.parent y := by
    intro y hy
    rw [fb5 y hy, fa5 y hy]
  have hs2iff : ∀ y, IsRootP s2.parent y ↔ IsRootP s.parent y := by
    intro y
    rw [fb4 y, fa4 y]
  have hra_root : IsRootP s.parent ra := rootOf_isRoot h.1 ha
  have hrb_root : IsRootP s.parent rb := rootOf_isRoot h.1 hb
  have hra_n : ra < n := rootOf_lt h.1 ha
  have hrb_n : rb < n := rootOf_lt h.1 hb
  have hra_root2 : IsRootP s2.parent ra := (hs2iff ra).2 hra_root
  have hrb_root2 : IsRootP s2.parent rb := (hs2iff rb).2 hrb_root
  rw [DisjointSet.union_def, hfa1, hfb1, ← hs2]
  by_cases heq : ra = rb
  · rw [if_pos heq]
    refine ⟨hs2wf, by simp [heq], fun _ => ⟨hs2roots, hs2iff⟩, fun hc => absurd heq hc⟩
  · rw [if_neg heq]
    have hrkl : s.rank.length = n := h.2
    by_cases h1 : s2.rank.getD ra 0 < s2.rank.getD rb 0
    · rw [if_pos h1]
      -- link ra under rb, ranks unchanged
      have hwf' : PWF n (s2.parent.set ra rb) s2.rank :=
        link_PWF hs2wf.1 hra_n hrb_n h1 (fun y _ _ => rfl) (fun y _ => Nat.le_refl _)
      obtain ⟨hroots', hiff'⟩ :=
        link_root hs2wf.1 hwf' hra_n hrb_n hra_root2 hrb_root2 heq
      refine ⟨⟨hwf', by show s2.rank.length = n; rw [hs2rank]; exact hrkl⟩, by simp [heq], fun hc => absurd hc heq, fun _ => ?_⟩
      refine ⟨rb, ra, Or.inr ⟨rfl, rfl⟩, fun y hy => ?_, fun y => ?_⟩
      · rw [hroots' y hy, hs2roots y hy]
      · rw [hiff' y, hs2iff y]
    · rw [if_neg h1]
      by_cases h2 : s2.rank.getD rb 0 < s2.rank.getD ra 0
      · rw [if_pos h2]
        have hwf' : PWF n (s2.parent.set rb ra) s2.rank :=
          link_PWF hs2wf.1 hrb_n hra_n h2 (fun y _ _ => rfl) (fun y _ => Nat.le_refl _)
        obtain ⟨hroots', hiff'⟩ :=
          link_root hs2wf.1 hwf' hrb_n hra_n hrb_root2 hra_root2 (Ne.symm heq)
        refine ⟨⟨hwf', by show s2.rank.length = n; rw [hs2rank]; exact hrkl⟩, by simp [heq], fun hc => absurd hc heq, fun _ => ?_⟩
        refine ⟨ra, rb, Or.inl ⟨rfl, rfl⟩, fun y hy => ?_, fun y => ?_⟩
        · rw [hroots' y hy, hs2roots y hy]
        · rw [hiff' y, hs2iff y]
      · rw [if_neg h2]
        -- equal ranks: link rb under ra, bump ra's rank
        have hreq : s2.rank.getD rb 0 = s2.rank.getD ra 0 := by omega
        set rk' := s2.rank.set ra (s2.rank.getD ra 0 + 1) with hrk'
        have hra_len : ra < s2.rank.length := by
          rw [hs2rank, hrkl]
          exact hra_n
        have hget_ra : rk'.getD ra 0 = s2.rank.getD ra 0 + 1 := by
          rw [hrk']
          simp [List.getD_eq_getElem?_getD, List.getElem?_set, hra_len]
        have hget_ne : ∀ y, y ≠ ra → rk'.getD y 0 = s2.rank.getD y 0 := by
          intro y hy
          rw [hrk']
          simp [List.getD_eq_getElem?_getD, List.getElem?_set, Ne.symm hy]
        have hlt : rk'.getD rb 0 < rk'.getD ra 0 := by
          rw [hget_ra, hget_ne rb (Ne.symm heq)]
          omega
        have hwf' : PWF n (s2.parent.set rb ra) rk' := by
          refine link_PWF hs2wf.1 hrb_n hra_n hlt ?_ ?_
          · intro y hy hnr
            have hyra : y ≠ ra := by
              rintro rfl
              exact hnr hra_root2
            exact hget_ne y hyra
          · intro y hy
            by_cases hyra : y = ra
            · subst hyra
              rw [hget_ra]
              omega
            · rw [hget_ne y hyra]
        obtain ⟨hroots', hiff'⟩ :=
          link_root hs2wf.1 hwf' hrb_n hra_n hrb_root2 hra_root2 (Ne.symm heq)
        have hrklen' : rk'.length = n := by
          rw [hrk', List.length_set, hs2rank, hrkl]
        refine ⟨⟨hwf', hrklen'⟩, by simp [heq], fun hc => absurd hc heq, fun _ => ?_⟩
        refine ⟨ra, rb, Or.inl ⟨rfl, rfl⟩, fun y hy => ?_, fun y => ?_⟩
        · rw [hroots' y hy, hs2roots y hy]
        · rw [hiff' y, hs2iff y]

theorem pGet_init {n : Nat} (x : Nat) : pGet (List.range n) x = x := by
  by_cases h : x < n
  · simp [pGet, List.getD_eq_getElem?_getD, List.getElem?_range, h]
  · have hnone : (List.range n)[x]? = none := by
      rw [List.getElem?_eq_none_iff, List.length_range]
      omega
    simp [pGet, List.getD_eq_getElem?_getD, hnone]

theorem init_DSUWF (n : Nat) : DSUWF n (DisjointSet.init n) := by
  refine ⟨⟨List.length_range n, ?_, ?_⟩, List.length_replicate n 0⟩
  · intro x hx
    rw [show (DisjointSet.init n).parent = List.range n from rfl, pGet_init]
    exact hx
  · intro x hx hne
    rw [show (DisjointSet.init n).parent = List.range n from rfl, pGet_init] at hne
    exact absurd rfl hne

theorem rootOf_init {n : Nat} (x : Nat) : rootOf (List.range n) x = x := by
  unfold rootOf
  rw [List.length_range]
  cases n with
  | zero => rfl
  | succ k =>
    rw [rootD, pGet_init, if_pos rfl]

/-- The roots of a parent array, as a finite set (computable). -/
def rootsFin (n : Nat) (p : List Nat) : Finset Nat :=
  (Finset.range n).filter (fun x => pGet p x = x)

theorem rootsFin_init (n : Nat) : (rootsFin n (List.range n)).card = n := by
  unfold rootsFin
  rw [Finset.filter_true_of_mem, Finset.card_range]
  intro x _
  exact pGet_init x

theorem rootsFin_congr {n : Nat} {p q : List Nat}
    (h : ∀ y, IsRootP p y ↔ IsRootP q y) : rootsFin n p = rootsFin n q := by
  unfold rootsFin
  apply Finset.filter_congr
  intro x _
  exact h x

theorem rootsFin_erase (n : Nat) {p q : List Nat} {rdrop : Nat}
    (h : ∀ y, IsRootP q y ↔ (IsRootP p y ∧ y ≠ rdrop)) :
    rootsFin n q = (rootsFin n p).erase rdrop := by
  unfold rootsFin
  ext x
  rw [Finset.mem_erase]
  simp only [Finset.mem_filter, Finset.mem_range]
  constructor
  · intro ⟨hx, hroot⟩
    obtain ⟨h1, h2⟩ := (h x).1 hroot
    exact ⟨h2, hx, h1⟩
  · intro ⟨h2, hx, h1⟩
    exact ⟨hx, (h x).2 ⟨h1, h2⟩⟩

theorem mem_rootsFin {n : Nat} {p rk : List Nat} (h : PWF n p rk) {x : Nat}
    (hx : x < n) : rootOf p x ∈ rootsFin n p := by
  unfold rootsFin
  rw [Finset.mem_filter, Finset.mem_range]
  exact ⟨rootOf_lt h hx, rootOf_isRoot h hx⟩

theorem all_equiv_of_card_one {n : Nat} {p rk : List Nat} (h : PWF n p rk)
    (hcard : (rootsFin n p).card = 1) {x y : Nat} (hx : x < n) (hy : y < n) :
    rootOf p x = rootOf p y := by
  obtain ⟨a, ha⟩ := Finset.card_eq_one.1 hcard
  have h1 := mem_rootsFin h hx
  have h2 := mem_rootsFin h hy
  rw [ha, Finset.mem_singleton] at h1 h2
  rw [h1, h2]

/-- Equivalence after a merge, in terms of the old equivalence. -/
theorem merge_equiv {n : Nat} {p' p : List Nat} {rkeep rdrop a b : Nat}
    (hform : ∀ y, y < n → rootOf p' y =
      if rootOf p y = rdrop then rkeep else rootOf p y)
    (hor : (rkeep = rootOf p a ∧ rdrop = rootOf p b) ∨
      (rkeep = rootOf p b ∧ rdrop = rootOf p a))
    (hne : rkeep ≠ rdrop)
    {x y : Nat} (hx : x < n) (hy : y < n) :
    rootOf p' x = rootOf p' y ↔
      (rootOf p x = rootOf p y ∨
       (rootOf p x = rootOf p a ∧ rootOf p y = rootOf p b) ∨
       (rootOf p x = rootOf p b ∧ rootOf p y = rootOf p a)) := by
  rw [hform x hx, hform y hy]
  rcases hor with ⟨hk, hd⟩ | ⟨hk, hd⟩ <;> subst hk <;> subst hd <;>
    split_ifs with h1 h2 <;> omega

/-- Appending an edge between two components keeps the graph acyclic. -/
theorem forest_cons {m : Multiset Edge} {e : Edge} (hf : ¬ HasCycle m)
    (hnr : ¬ Reach m e.u e.v) : ¬ HasCycle (e ::ₘ m) := by
  rintro ⟨f, hf2, hr⟩
  by_cases hfe : f = e
  · subst hfe
    rw [Multiset.erase_cons_head] at hr
    exact hnr hr
  · have hfm : f ∈ m := by
      rcases Multiset.mem_cons.1 hf2 with h | h
      · exact absurd h hfe
      · exact h
    rw [Multiset.erase_cons_tail_of_mem hfm] at hr
    have herase : ∀ g ∈ m.erase f, g ∈ m := fun g hg => Multiset.mem_of_mem_erase hg
    rcases reach_cons.1 hr with h1 | ⟨h1, h2⟩ | ⟨h1, h2⟩
    · exact hf ⟨f, hfm, h1⟩
    · exact hnr (((h1.symm.mono herase).trans (reach_single hfm)).trans (h2.symm.mono herase)).symm.symm
    · exact hnr (((h2.mono herase).trans (reach_single hfm).symm).trans (h1.mono herase)).symm.symm
  -- (each case: e.u ~ f.u ~ f.v ~ e.v inside m)

theorem coe_append_single {α : Type} (l : List α) (e : α) :
    ((l ++ [e] : List α) : Multiset α) = e ::ₘ (l : Multiset α) := by
  have h1 : ((l ++ [e] : List α) : Multiset α) =
      (l : Multiset α) + (([e] : List α) : Multiset α) := by
    exact_mod_cast rfl
  rw [h1]
  have h2 : (([e] : List α) : Multiset α) = {e} := rfl
  rw [h2, add_comm, Multiset.singleton_add]

theorem wsum_cons (e : Edge) (m : Multiset Edge) :
    wsum (e ::ₘ m) = e.w + wsum m := by
  unfold wsum
  rw [Multiset.map_cons, Multiset.sum_cons]

/-! ## Kruskal correctness -/

theorem mem_diff_iff_count {s t : Multiset Edge} {f : Edge} :
    f ∈ s - t ↔ Multiset.count f t < Multiset.count f s := by
  rw [← Multiset.count_pos, Multiset.count_sub]
  omega

theorem sublist_coe_le {l1 l2 : List Edge} (h : l1.Sublist l2) :
    (↑l1 : Multiset Edge) ≤ ↑l2 :=
  Multiset.coe_le.2 h.subperm

/-- Loop invariant of `kruskalLoop`: `done` are the edges already iterated
over, `mst`/`total`/`ds` the loop variables. -/
structure KState (n : Nat) (done : List Edge) (ds : DisjointSet)
    (mst : List Edge) (total : Nat) : Prop where
  hwf : DSUWF n ds
  hequiv : ∀ x y, x < n → y < n →
    (rootOf ds.parent x = rootOf ds.parent y ↔ Reach (↑mst) x y)
  hdone : ∀ x y, x < n → y < n → Reach (↑done) x y →
    rootOf ds.parent x = rootOf ds.parent y
  hforest : ¬ HasCycle (↑mst)
  hcount : (rootsFin n ds.parent).card + mst.length = n
  hsub : mst.Sublist done
  htotal : total = wsum (↑mst)
  hrej : ∀ e ∈ ((↑done : Multiset Edge) - (↑mst : Multiset Edge)),
    Reach (↑(mst.filter (fun f => f.w ≤ e.w))) e.u e.v

theorem kruskalLoop_nil (n : Nat) (ds : DisjointSet) (mst : List Edge) (total : Nat) :
    kruskalLoop n [] ds mst total = (mst, total) := rfl

theorem kruskalLoop_cons (n : Nat) (e : Edge) (rest : List Edge) (ds : DisjointSet)
    (mst : List Edge) (total : Nat) :
    kruskalLoop n (e :: rest) ds mst total =
      if (ds.union e.u e.v).1 then
        (if ((mst ++ [e]).length : Int) = (n : Int) - 1 then (mst ++ [e], total + e.w)
         else kruskalLoop n rest (ds.union e.u e.v).2 (mst ++ [e]) (total + e.w))
      else kruskalLoop n rest (ds.union e.u e.v).2 mst total := rfl

/-- Master lemma for `kruskalLoop`. -/
theorem kruskalLoop_spec {n : Nat} (hn : 0 < n) :
    ∀ (rest done : List Edge) (ds : DisjointSet) (mst : List Edge) (total : Nat),
      (∀ e ∈ done ++ rest, e.u < n ∧ e.v < n) →
      List.Pairwise (fun a b => a.w ≤ b.w) (done ++ rest) →
      KState n done ds mst total →
      ∃ dsF doneF restF,
        done ++ rest = doneF ++ restF ∧
        KState n doneF dsF (kruskalLoop n rest ds mst total).1
          (kruskalLoop n rest ds mst total).2 ∧
        (restF = [] ∨ ((kruskalLoop n rest ds mst total).1.length : Int) = (n : Int) - 1) := by
  intro rest
  induction rest with
  | nil =>
    intro done ds mst total hval hsorted hK
    refine ⟨ds, done, [], by simp, ?_, Or.inl rfl⟩
    rw [kruskalLoop_nil]
    exact hK
  | cons e rest ih =>
    intro done ds mst total hval hsorted hK
    have hassoc : (done ++ [e]) ++ rest = done ++ e :: rest := by simp
    have hval' : ∀ f ∈ (done ++ [e]) ++ rest, f.u < n ∧ f.v < n := by
      rw [hassoc]; exact hval
    have hsorted' : List.Pairwise (fun a b => a.w ≤ b.w) ((done ++ [e]) ++ rest) := by
      rw [hassoc]; exact hsorted
    have he : e.u < n ∧ e.v < n := hval e (by simp)
    have hdone_le : ∀ f ∈ done, f.w ≤ e.w := by
      obtain ⟨-, -, hcross⟩ := List.pairwise_append.1 hsorted
      exact fun f hf => hcross f hf e (by simp)
    have hmle : (↑mst : Multiset Edge) ≤ ↑done := sublist_coe_le hK.hsub
    obtain ⟨hu_wf, hu_iff, hu_same, hu_merge⟩ :=
      union_spec hK.hwf he.1 he.2
    rw [kruskalLoop_cons]
    by_cases hb : (ds.union e.u e.v).1 = true
    · -- merge: the edge is selected
      rw [if_pos hb]
      have hrne : rootOf ds.parent e.u ≠ rootOf ds.parent e.v := hu_iff.1 hb
      obtain ⟨rkeep, rdrop, hor, hform, hroots⟩ := hu_merge hrne
      have hnreach : ¬ Reach (↑mst) e.u e.v := fun hr =>
        hrne ((hK.hequiv e.u e.v he.1 he.2).2 hr)
      have hkne : rkeep ≠ rdrop := by
        rcases hor with ⟨h1, h2⟩ | ⟨h1, h2⟩
        · rw [h1, h2]; exact hrne
        · rw [h1, h2]; exact Ne.symm hrne
      have hlift : ∀ x y, x < n → y < n → rootOf ds.parent x = rootOf ds.parent y →
          rootOf (ds.union e.u e.v).2.parent x = rootOf (ds.union e.u e.v).2.parent y := by
        intro x y hx hy hxy
        rw [hform x hx, hform y hy, hxy]
      have hcoe : ((mst ++ [e] : List Edge) : Multiset Edge) = e ::ₘ ↑mst :=
        coe_append_single mst e
      have hKa : KState n (done ++ [e]) (ds.union e.u e.v).2 (mst ++ [e]) (total + e.w) := by
        refine ⟨hu_wf, ?_, ?_, ?_, ?_, ?_, ?_, ?_⟩
        · -- hequiv
          intro x y hx hy
          rw [hcoe, reach_cons,
            merge_equiv hform hor hkne hx hy]
          constructor
          · rintro (h1 | ⟨h1, h2⟩ | ⟨h1, h2⟩)
            · exact Or.inl ((hK.hequiv x y hx hy).1 h1)
            · exact Or.inr (Or.inl ⟨(hK.hequiv x e.u hx he.1).1 h1,
                ((hK.hequiv y e.v hy he.2).1 h2).symm⟩)
            · exact Or.inr (Or.inr ⟨(hK.hequiv x e.v hx he.2).1 h1,
                ((hK.hequiv y e.u hy he.1).1 h2).symm⟩)
          · rintro (h1 | ⟨h1, h2⟩ | ⟨h1, h2⟩)
            · exact Or.inl ((hK.hequiv x y hx hy).2 h1)
            · exact Or.inr (Or.inl ⟨(hK.hequiv x e.u hx he.1).2 h1,
                (hK.hequiv y e.v hy he.2).2 h2.symm⟩)
            · exact Or.inr (Or.inr ⟨(hK.hequiv x e.v hx he.2).2 h1,
                (hK.hequiv y e.u hy he.1).2 h2.symm⟩)
        · -- hdone
          intro x y hx hy hr
          rw [coe_append_single] at hr
          have heuv : rootOf (ds.union e.u e.v).2.parent e.u =
              rootOf (ds.union e.u e.v).2.parent e.v := by
            rw [hform e.u he.1, hform e.v he.2]
            rcases hor with ⟨h1, h2⟩ | ⟨h1, h2⟩ <;> split_ifs <;> omega
          rcases reach_cons.1 hr with h1 | ⟨h1, h2⟩ | ⟨h1, h2⟩
          · exact hlift x y hx hy (hK.hdone x y hx hy h1)
          · exact ((hlift x e.u hx he.1 (hK.hdone x e.u hx he.1 h1)).trans heuv).trans
              (hlift e.v y he.2 hy (hK.hdone e.v y he.2 hy h2))
          · exact ((hlift x e.v hx he.2 (hK.hdone x e.v hx he.2 h1)).trans heuv.symm).trans
              (hlift e.u y he.1 hy (hK.hdone e.u y he.1 hy h2))
        · -- hforest
          rw [hcoe]
          exact forest_cons hK.hforest hnreach
        · -- hcount
          have hdrop_mem : rdrop ∈ rootsFin n ds.parent := by
            rcases hor with ⟨-, h2⟩ | ⟨-, h2⟩
            · rw [h2]; exact mem_rootsFin hK.hwf.1 he.2
            · rw [h2]; exact mem_rootsFin hK.hwf.1 he.1
          have hre := rootsFin_erase n hroots
          rw [hre, Finset.card_erase_of_mem hdrop_mem]
          have hpos : 0 < (rootsFin n ds.parent).card :=
            Finset.card_pos.2 ⟨rdrop, hdrop_mem⟩
          have := hK.hcount
          simp only [List.length_append, List.length_singleton]
          omega
        · exact hK.hsub.append (List.Sublist.refl [e])
        · rw [hcoe, wsum_cons, hK.htotal, Nat.add_comm]
        · -- hrej
          intro f hf
          rw [coe_append_single, coe_append_single] at hf
          have hfd : f ∈ ((↑done : Multiset Edge) - ↑mst) := by
            rw [mem_diff_iff_count] at hf ⊢
            by_cases hfe : f = e
            · subst hfe
              rw [Multiset.count_cons_self, Multiset.count_cons_self] at hf
              omega
            · rw [Multiset.count_cons_of_ne hfe, Multiset.count_cons_of_ne hfe] at hf
              exact hf
          have hold := hK.hrej f hfd
          have hfsub : (mst.filter (fun g => g.w ≤ f.w)).Sublist
              ((mst ++ [e]).filter (fun g => g.w ≤ f.w)) := by
            rw [List.filter_append]
            exact List.sublist_append_left _ _
          exact hold.mono_le (sublist_coe_le hfsub)
      by_cases hbreak : (((mst ++ [e]).length : Int) = (n : Int) - 1)
      · rw [if_pos hbreak]
        exact ⟨(ds.union e.u e.v).2, done ++ [e], rest, hassoc.symm, hKa, Or.inr hbreak⟩
      · rw [if_neg hbreak]
        obtain ⟨dsF, doneF, restF, hdec, hKF, hend⟩ :=
          ih (done ++ [e]) (ds.union e.u e.v).2 (mst ++ [e]) (total + e.w)
            hval' hsorted' hKa
        rw [hassoc] at hdec
        exact ⟨dsF, doneF, restF, hdec, hKF, hend⟩
    · -- skip: the edge closes a cycle
      rw [if_neg hb]
      have hreq : rootOf ds.parent e.u = rootOf ds.parent e.v := by
        by_contra hc
        exact hb (hu_iff.2 hc)
      obtain ⟨hpres, hriff⟩ := hu_same hreq
      have hKa : KState n (done ++ [e]) (ds.union e.u e.v).2 mst total := by
        refine ⟨hu_wf, ?_, ?_, hK.hforest, ?_, ?_, hK.htotal, ?_⟩
        · intro x y hx hy
          rw [hpres x hx, hpres y hy]
          exact hK.hequiv x y hx hy
        · intro x y hx hy hr
          rw [coe_append_single] at hr
          rw [hpres x hx, hpres y hy]
          rcases reach_cons.1 hr with h1 | ⟨h1, h2⟩ | ⟨h1, h2⟩
          · exact hK.hdone x y hx hy h1
          · exact ((hK.hdone x e.u hx he.1 h1).trans hreq).trans
              (hK.hdone e.v y he.2 hy h2)
          · exact ((hK.hdone x e.v hx he.2 h1).trans hreq.symm).trans
              (hK.hdone e.u y he.1 hy h2)
        · have hcg : rootsFin n (ds.union e.u e.v).2.parent = rootsFin n ds.parent :=
            rootsFin_congr hriff
          rw [hcg]
          exact hK.hcount
        · exact hK.hsub.trans (List.sublist_append_left done [e])
        · intro f hf
          rw [coe_append_single] at hf
          by_cases hfe : f = e
          · subst hfe
            have hfilter : mst.filter (fun g => g.w ≤ f.w) = mst := by
              apply List.filter_eq_self.2
              intro g hg
              simpa using hdone_le g (hK.hsub.mem hg)
            rw [hfilter]
            exact (hK.hequiv f.u f.v he.1 he.2).1 hreq
          · have hfd : f ∈ ((↑done : Multiset Edge) - ↑mst) := by
              rw [mem_diff_iff_count] at hf ⊢
              rw [Multiset.count_cons_of_ne hfe] at hf
              exact hf
            exact hK.hrej f hfd
      obtain ⟨dsF, doneF, restF, hdec, hKF, hend⟩ :=
        ih (done ++ [e]) (ds.union e.u e.v).2 mst total hval' hsorted' hKa
      rw [hassoc] at hdec
      exact ⟨dsF, doneF, restF, hdec, hKF, hend⟩

theorem getD_map_w (l : List Edge) (k : Nat) (hk : k < l.length) :
    (l.map Edge.w).getD k 0 = (l.getD k default).w := by
  rw [List.getD_eq_getElem (l.map Edge.w) 0 (by simpa using hk),
    List.getD_eq_getElem l default hk, List.getElem_map]

theorem sum_le_pointwise : ∀ (l1 l2 : List Nat), l1.length = l2.length →
    (∀ k, k < l1.length → l1.getD k 0 ≤ l2.getD k 0) → l1.sum ≤ l2.sum
  | [], [], _, _ => Nat.le_refl 0
  | [], _ :: _, h, _ => by simp at h
  | _ :: _, [], h, _ => by simp at h
  | a :: l1, b :: l2, h, hp => by
    simp only [List.sum_cons]
    have h0 := hp 0 (by simp)
    simp only [List.getD_cons_zero] at h0
    have hrec := sum_le_pointwise l1 l2 (by simpa using h)
      (fun k hk => by
        have hk1 := hp (k + 1) (by simpa using Nat.succ_lt_succ hk)
        simpa only [List.getD_cons_succ] using hk1)
    omega

theorem wsum_coe (l : List Edge) : wsum (↑l : Multiset Edge) = (l.map Edge.w).sum := by
  unfold wsum
  rw [Multiset.map_coe, Multiset.sum_coe]

/-- The sort in `kruskalMST` produces a list pairwise non-decreasing in
weight. -/
theorem mergeSort_wsorted (l : List Edge) :
    List.Pairwise (fun a b => a.w ≤ b.w) (l.mergeSort (fun a b => a.w ≤ b.w)) := by
  have h := @List.sorted_mergeSort Edge (fun a b => decide (a.w ≤ b.w))
    (by intro a b c hab hbc; simp only [decide_eq_true_eq] at *; omega)
    (by intro a b; simpa [Bool.or_eq_true, decide_eq_true_eq] using Nat.le_total a.w b.w)
    l
  exact h.imp (fun hab => by simpa using hab)

theorem KState_init {n : Nat} (hn : 0 < n) :
    KState n [] (DisjointSet.init n) [] 0 := by
  have hinit : (DisjointSet.init n).parent = List.range n := rfl
  refine ⟨init_DSUWF n, ?_, ?_, ?_, ?_, List.Sublist.refl [], rfl, ?_⟩
  · intro x y hx hy
    rw [hinit, rootOf_init, rootOf_init]
    constructor
    · rintro rfl
      exact .refl
    · intro h
      exact reach_zero (by simpa using h)
  · intro x y hx hy hr
    rw [hinit, rootOf_init, rootOf_init]
    exact reach_zero (by simpa using hr)
  · rintro ⟨f, hf, -⟩
    simp at hf
  · rw [hinit, rootsFin_init]
    simp
  · intro f hf
    simp at hf

/-- The greedy-dominance argument: Kruskal's selection has the pointwise
smallest sorted weight sequence, hence minimum total weight, among spanning
trees. -/
theorem kruskal_dominance {n : Nat} (hn : 0 < n)
    {sorted doneF restF mstF : List Edge} {E : Multiset Edge}
    (hE : (↑sorted : Multiset Edge) = E)
    (hsplit : sorted = doneF ++ restF)
    (hsorted : List.Pairwise (fun a b => a.w ≤ b.w) sorted)
    (hbdd : EdgeBdd n E)
    (hsubF : mstF.Sublist doneF)
    (hforest : ¬ HasCycle (↑mstF : Multiset Edge))
    (hlen : mstF.length = n - 1)
    (hrej : ∀ e ∈ ((↑doneF : Multiset Edge) - (↑mstF : Multiset Edge)),
      Reach (↑(mstF.filter (fun f => f.w ≤ e.w))) e.u e.v)
    {T : Multiset Edge} (hT : IsSpanningTree n E T) :
    wsum (↑mstF : Multiset Edge) ≤ wsum T := by
  obtain ⟨hTle, hTcard, hTspans⟩ := hT
  have hTbdd : EdgeBdd n T := fun e he => hbdd e (Multiset.mem_of_le hTle he)
  have hTforest := spanning_no_cycle hn hTbdd hTcard hTspans
  set tl := T.toList.mergeSort (fun a b => a.w ≤ b.w) with htl
  have htlcoe : (↑tl : Multiset Edge) = T := by
    rw [htl, Multiset.coe_eq_coe.2 (List.mergeSort_perm T.toList _), Multiset.coe_toList]
  have htlsorted : List.Pairwise (fun a b => a.w ≤ b.w) tl := mergeSort_wsorted T.toList
  have htllen : tl.length = n - 1 := by
    have h1 : Multiset.card (↑tl : Multiset Edge) = tl.length := rfl
    rw [htlcoe] at h1
    omega
  have hsubSorted : mstF.Sublist sorted := by
    rw [hsplit]
    exact hsubF.trans (List.sublist_append_left doneF restF)
  have hmsorted : List.Pairwise (fun a b => a.w ≤ b.w) mstF :=
    hsorted.sublist hsubSorted
  have hmbdd : EdgeBdd n (↑mstF : Multiset Edge) := by
    intro e he
    refine hbdd e ?_
    rw [← hE]
    exact Multiset.mem_coe.2 (hsubSorted.mem (Multiset.mem_coe.1 he))
  have hcross : ∀ g ∈ restF, ∀ f ∈ mstF, f.w ≤ g.w := by
    obtain ⟨-, -, hc⟩ := List.pairwise_append.1 (hsplit ▸ hsorted)
    exact fun g hg f hf => hc f (hsubF.mem hf) g hg
  have hkey : ∀ k, k < n - 1 → (mstF.getD k default).w ≤ (tl.getD k default).w := by
    intro k hk
    by_contra hcon
    push_neg at hcon
    have hklen : k < mstF.length := by omega
    have hktl : k < tl.length := by omega
    rw [List.getD_eq_getElem mstF default hklen, List.getD_eq_getElem tl default hktl] at hcon
    set Fk := mstF.take k with hFk
    set Tk := tl.take (k + 1) with hTk
    have hFkSub : Fk.Sublist mstF := List.take_sublist k mstF
    have hTkSub : Tk.Sublist tl := List.take_sublist (k + 1) tl
    have hFkforest : ¬ HasCycle (↑Fk : Multiset Edge) :=
      fun hc => hforest (hasCycle_mono (sublist_coe_le hFkSub) hc)
    have hTkforest : ¬ HasCycle (↑Tk : Multiset Edge) := by
      intro hc
      exact hTforest (hasCycle_mono (htlcoe ▸ sublist_coe_le hTkSub) hc)
    have hFkbdd : EdgeBdd n (↑Fk : Multiset Edge) :=
      fun e he => hmbdd e (Multiset.mem_of_le (sublist_coe_le hFkSub) he)
    have hTkbdd : EdgeBdd n (↑Tk : Multiset Edge) := by
      intro e he
      refine hTbdd e ?_
      rw [← htlcoe]
      exact Multiset.mem_of_le (sublist_coe_le hTkSub) he
    have hFkcard : Multiset.card (↑Fk : Multiset Edge) = k := by
      show Fk.length = k
      rw [hFk, List.length_take]
      omega
    have hTkcard : Multiset.card (↑Tk : Multiset Edge) = k + 1 := by
      show Tk.length = k + 1
      rw [hTk, List.length_take]
      omega
    obtain ⟨g, hgTk, hgnr⟩ := forest_exchange hFkbdd hTkbdd hFkforest hTkforest
      (by rw [hFkcard, hTkcard]; omega)
    have hgTkl : g ∈ Tk := Multiset.mem_coe.1 hgTk
    have hgw : g.w ≤ tl[k].w := by
      obtain ⟨i, hi, hieq⟩ := List.mem_iff_getElem.1 hgTkl
      have hilt : i < k + 1 := by
        have := hi
        rw [hTk, List.length_take] at this
        omega
      have hitl : i < tl.length := by omega
      have hgeq : g = tl[i] := by
        rw [← hieq]
        exact List.getElem_take tl
      have hgw2 : g.w = tl[i].w := congrArg Edge.w hgeq
      rcases Nat.lt_or_ge i k with hik | hik
      · have := List.pairwise_iff_getElem.1 htlsorted i k hitl hktl hik
        omega
      · have hik2 : i = k := by omega
        subst hik2
        omega
    have hgmst : g ∉ mstF := by
      intro hgm
      obtain ⟨i, hi, hieq⟩ := List.mem_iff_getElem.1 hgm
      rcases Nat.lt_or_ge i k with hik | hik
      · have hgFk : g ∈ Fk := by
          have hlenFk : i < Fk.length := by
            rw [hFk, List.length_take]
            omega
          have heq2 : Fk[i] = mstF[i] := List.getElem_take mstF
          exact (heq2.trans hieq) ▸ List.getElem_mem hlenFk
        exact hgnr (reach_single (Multiset.mem_coe.2 hgFk))
      · have hwk : mstF[k].w ≤ mstF[i].w := by
          rcases Nat.lt_or_ge k i with hki | hki
          · exact List.pairwise_iff_getElem.1 hmsorted k i hklen hi hki
          · have hik2 : i = k := by omega
            subst hik2
            exact Nat.le_refl _
        have hw2 : mstF[i].w = g.w := congrArg Edge.w hieq
        omega
    have hgT : g ∈ T := by
      rw [← htlcoe]
      exact Multiset.mem_coe.2 (hTkSub.mem hgTkl)
    have hgsorted : g ∈ sorted := by
      have : g ∈ E := Multiset.mem_of_le hTle hgT
      rw [← hE] at this
      exact Multiset.mem_coe.1 this
    rw [hsplit, List.mem_append] at hgsorted
    rcases hgsorted with hgd | hgr
    · -- g was processed and rejected
      have hgdiff : g ∈ ((↑doneF : Multiset Edge) - ↑mstF) := by
        rw [mem_diff_iff_count]
        have h1 : Multiset.count g (↑mstF : Multiset Edge) = 0 := by
          rw [Multiset.count_eq_zero]
          exact fun hc => hgmst (Multiset.mem_coe.1 hc)
        have h2 : 0 < Multiset.count g (↑doneF : Multiset Edge) :=
          Multiset.count_pos.2 (Multiset.mem_coe.2 hgd)
        omega
      have hreach := hrej g hgdiff
      have hdropw : ∀ f ∈ mstF.drop k, ¬ (f.w ≤ g.w) := by
        intro f hf
        obtain ⟨i, hi, hieq⟩ := List.mem_iff_getElem.1 hf
        have hlend : (mstF.drop k).length = mstF.length - k := List.length_drop k mstF
        have hki : k + i < mstF.length := by omega
        have hgd2 : (mstF.drop k)[i] = mstF[k + i] := List.getElem_drop mstF
        have hfeq : f = mstF[k + i] := hieq.symm.trans hgd2
        have hwk : mstF[k].w ≤ mstF[k + i].w := by
          rcases Nat.eq_zero_or_pos i with rfl | hpos
          · simp
          · exact List.pairwise_iff_getElem.1 hmsorted k (k + i) hklen (by omega) (by omega)
        have hfw : f.w = mstF[k + i].w := congrArg Edge.w hfeq
        omega
      have hfilter : mstF.filter (fun f => f.w ≤ g.w) =
          Fk.filter (fun f => f.w ≤ g.w) := by
        have hdropnil : (mstF.drop k).filter (fun f => f.w ≤ g.w) = [] :=
          List.filter_eq_nil_iff.2 (fun f hf => by simpa using hdropw f hf)
        conv_lhs => rw [← List.take_append_drop k mstF]
        rw [List.filter_append, hdropnil, List.append_nil]
      rw [hfilter] at hreach
      exact hgnr (hreach.mono_le (sublist_coe_le (List.filter_sublist Fk)))
    · -- g is unprocessed, so its weight is at least every selected weight
      have := hcross g hgr mstF[k] (List.getElem_mem hklen)
      omega
  have hlensum : (mstF.map Edge.w).length = (tl.map Edge.w).length := by
    simp [hlen, htllen]
  have hsum := sum_le_pointwise (mstF.map Edge.w) (tl.map Edge.w) hlensum
    (fun k hk => by
      have hk' : k < n - 1 := by
        rw [List.length_map, hlen] at hk
        exact hk
      rw [getD_map_w mstF k (by omega), getD_map_w tl k (by omega)]
      exact hkey k hk')
  rw [wsum_coe, ← htlcoe, wsum_coe]
  exact hsum

theorem kruskalMST_def (n : Nat) (edges : List Edge) :
    kruskalMST n edges =
      if (((kruskalLoop n (edges.mergeSort (fun a b => a.w ≤ b.w))
            (DisjointSet.init n) [] 0).1.length : Int) = (n : Int) - 1) then
        Except.ok ⟨(kruskalLoop n (edges.mergeSort (fun a b => a.w ≤ b.w))
            (DisjointSet.init n) [] 0).1,
          (kruskalLoop n (edges.mergeSort (fun a b => a.w ≤ b.w))
            (DisjointSet.init n) [] 0).2⟩
      else Except.error notConnectedMsg := rfl

/-- Main characterization of `kruskalMST` on valid inputs: either it succeeds
with a minimum spanning tree, or it fails and the graph is disconnected. -/
theorem kruskalMST_main {n : Nat} {edges : List Edge} (hn : 0 < n)
    (hval : ∀ e ∈ edges, e.u < n ∧ e.v < n) :
    (∃ r, kruskalMST n edges = Except.ok r ∧
      r.mst.length = n - 1 ∧
      (↑r.mst : Multiset Edge) ≤ ↑edges ∧
      ¬ HasCycle (↑r.mst : Multiset Edge) ∧
      (∀ x y, x < n → y < n → Reach (↑r.mst : Multiset Edge) x y) ∧
      r.total = wsum (↑r.mst : Multiset Edge) ∧
      (∀ T, IsSpanningTree n (↑edges) T → r.total ≤ wsum T)) ∨
    (kruskalMST n edges = Except.error notConnectedMsg ∧
      ¬ (∀ v, v < n → Reach (↑edges : Multiset Edge) 0 v)) := by
  set sorted := edges.mergeSort (fun a b => a.w ≤ b.w) with hsorteddef
  have hperm : sorted.Perm edges := List.mergeSort_perm edges _
  have hE : (↑sorted : Multiset Edge) = ↑edges := Multiset.coe_eq_coe.2 hperm
  have hsorted : List.Pairwise (fun a b => a.w ≤ b.w) sorted := mergeSort_wsorted edges
  have hvalS : ∀ e ∈ ([] : List Edge) ++ sorted, e.u < n ∧ e.v < n := by
    intro e he
    exact hval e (hperm.mem_iff.1 (by simpa using he))
  obtain ⟨dsF, doneF, restF, hdec, hKF, hend⟩ :=
    kruskalLoop_spec hn sorted [] (DisjointSet.init n) [] 0 hvalS
      (by simpa using hsorted) (KState_init hn)
  rw [List.nil_append] at hdec
  set r1 := (kruskalLoop n sorted (DisjointSet.init n) [] 0).1 with hr1
  set r2 := (kruskalLoop n sorted (DisjointSet.init n) [] 0).2 with hr2
  have hsubS : r1.Sublist sorted := by
    rw [hdec]
    exact hKF.hsub.trans (List.sublist_append_left doneF restF)
  have hmle : (↑r1 : Multiset Edge) ≤ ↑edges := hE ▸ sublist_coe_le hsubS
  have hcard1 : 0 < (rootsFin n dsF.parent).card :=
    Finset.card_pos.2 ⟨rootOf dsF.parent 0, mem_rootsFin hKF.hwf.1 hn⟩
  have hlenle : r1.length ≤ n - 1 := by
    have := hKF.hcount
    omega
  by_cases hsucc : r1.length = n - 1
  · left
    have hint : ((r1.length : Int) = (n : Int) - 1) := by omega
    refine ⟨⟨r1, r2⟩, ?_, hsucc, hmle, hKF.hforest, ?_, hKF.htotal, ?_⟩
    · rw [kruskalMST_def, ← hsorteddef, ← hr1, ← hr2, if_pos hint]
    · intro x y hx hy
      have hcard : (rootsFin n dsF.parent).card = 1 := by
        have := hKF.hcount
        omega
      exact (hKF.hequiv x y hx hy).1 (all_equiv_of_card_one hKF.hwf.1 hcard hx hy)
    · intro T hT
      rw [hKF.htotal]
      exact kruskal_dominance hn hE hdec hsorted
        (fun e he => hval e (by rwa [← Multiset.mem_coe])) hKF.hsub hKF.hforest
        hsucc hKF.hrej hT
  · right
    have hint : ¬ ((r1.length : Int) = (n : Int) - 1) := by omega
    constructor
    · rw [kruskalMST_def, ← hsorteddef, ← hr1, if_neg hint]
    · intro hconn
      have hrest : restF = [] := by
        rcases hend with h | h
        · exact h
        · exact absurd (by omega : r1.length = n - 1) hsucc
      have hdoneF : doneF = sorted := by
        rw [hdec, hrest, List.append_nil]
      have hlt : r1.length < n - 1 := by omega
      have hcard2 : 1 < (rootsFin n dsF.parent).card := by
        have := hKF.hcount
        omega
      obtain ⟨a, hamem, b, hbmem, hab⟩ := Finset.one_lt_card.1 hcard2
      have haf : a < n ∧ pGet dsF.parent a = a := by
        have := hamem
        unfold rootsFin at this
        rw [Finset.mem_filter, Finset.mem_range] at this
        exact this
      have hbf : b < n ∧ pGet dsF.parent b = b := by
        have := hbmem
        unfold rootsFin at this
        rw [Finset.mem_filter, Finset.mem_range] at this
        exact this
      have hreach : Reach (↑doneF : Multiset Edge) a b := by
        rw [hdoneF, hE]
        exact (hconn a haf.1).symm.trans (hconn b hbf.1)
      have heq := hKF.hdone a b haf.1 hbf.1 hreach
      rw [rootOf_of_isRoot hKF.hwf.1 haf.1 haf.2,
        rootOf_of_isRoot hKF.hwf.1 hbf.1 hbf.2] at heq
      exact hab heq

/-! ## MinHeap verification -/

/-- The weight stored at index `i` (`this.data[i].w`). -/
def wAt (d : List HeapItem) (i : Nat) : Nat := (d.getD i default).w

/-- The binary-heap order invariant: every non-root entry is at least its
parent. -/
def IsHeap (d : List HeapItem) : Prop :=
  ∀ j, 0 < j → j < d.length → wAt d ((j - 1) / 2) ≤ wAt d j

theorem getD_set_self {α : Type} [Inhabited α] {l : List α} {i : Nat} {v : α}
    (h : i < l.length) : (l.set i v).getD i default = v := by
  simp [List.getD_eq_getElem?_getD, List.getElem?_set, h]

theorem getD_set_ne {α : Type} [Inhabited α] {l : List α} {i j : Nat} {v : α}
    (h : i ≠ j) : (l.set i v).getD j default = l.getD j default := by
  simp [List.getD_eq_getElem?_getD, List.getElem?_set, h]

theorem swapIdx_length (d : List HeapItem) (i j : Nat) :
    (swapIdx d i j).length = d.length := by
  simp [swapIdx]

theorem wAt_swap_left {d : List HeapItem} {i j : Nat} (hi : i < d.length)
    (hj : j < d.length) : wAt (swapIdx d i j) i = wAt d j := by
  unfold wAt swapIdx
  by_cases hij : i = j
  · subst hij
    rw [getD_set_self (by simpa using hi)]
  · rw [getD_set_ne (Ne.symm hij), getD_set_self (by simpa using hi)]

theorem wAt_swap_right {d : List HeapItem} {i j : Nat} (hi : i < d.length)
    (hj : j < d.length) : wAt (swapIdx d i j) j = wAt d i := by
  unfold wAt swapIdx
  rw [getD_set_self (by simpa using hj)]

theorem wAt_swap_other {d : List HeapItem} {i j x : Nat} (hxi : x ≠ i)
    (hxj : x ≠ j) : wAt (swapIdx d i j) x = wAt d x := by
  unfold wAt swapIdx
  rw [getD_set_ne (Ne.symm hxj), getD_set_ne (Ne.symm hxi)]

theorem coe_set_add {α : Type} [Inhabited α] :
    ∀ (l : List α) (i : Nat), i < l.length → ∀ v : α,
      (↑(l.set i v) : Multiset α) + {l.getD i default} = ↑l + {v}
  | [], i, h, v => by simp at h
  | a :: l, 0, _, v => by
    show (v ::ₘ ↑l) + {a} = (a ::ₘ ↑l) + {v}
    rw [← Multiset.singleton_add, ← Multiset.singleton_add]
    rw [add_assoc, add_assoc, add_comm (↑l : Multiset α) {a},
      add_comm (↑l : Multiset α) {v}, ← add_assoc, ← add_assoc,
      add_comm ({v} : Multiset α) {a}]
  | a :: l, i + 1, h, v => by
    show ((a :: l.set i v : List α) : Multiset α) + {l.getD i default} =
      ((a :: l : List α) : Multiset α) + {v}
    rw [← Multiset.cons_coe, ← Multiset.cons_coe, ← Multiset.singleton_add,
      ← Multiset.singleton_add]
    have ih := coe_set_add l i (by simpa using h) v
    rw [add_assoc, add_assoc, ih]

theorem swapIdx_coe {d : List HeapItem} {i j : Nat} (hi : i < d.length)
    (hj : j < d.length) : (↑(swapIdx d i j) : Multiset HeapItem) = ↑d := by
  set a := d.getD i default with ha
  set b := d.getD j default with hb
  have hjb : (d.set i b).getD j default = b := by
    by_cases hij : i = j
    · subst hij
      exact getD_set_self (by simpa using hi)
    · rw [getD_set_ne hij]
  have e1 := coe_set_add (d.set i b) j (by simpa using hj) a
  rw [hjb] at e1
  have e2 := coe_set_add d i hi b
  rw [← ha] at e2
  have : (↑(swapIdx d i j) : Multiset HeapItem) + {b} = ↑d + {b} := by
    show (↑((d.set i b).set j a) : Multiset HeapItem) + {b} = ↑d + {b}
    rw [e1, e2]
  exact add_right_cancel this

/-- Invariant of `bubbleUp`: the heap order holds at every index except
possibly `i`, and the children of `i` are at least `i`'s parent. -/
structure UpInv (d : List HeapItem) (i : Nat) : Prop where
  h1 : ∀ j, 0 < j → j < d.length → j ≠ i → wAt d ((j - 1) / 2) ≤ wAt d j
  h2 : ∀ j, j < d.length → 0 < i → (j - 1) / 2 = i → wAt d ((i - 1) / 2) ≤ wAt d j

theorem bubbleUpF_succ (fuel : Nat) (d : List HeapItem) (i : Nat) :
    bubbleUpF (fuel + 1) d i =
      if i = 0 then d
      else if wAt d ((i - 1) / 2) ≤ wAt d i then d
      else bubbleUpF fuel (swapIdx d ((i - 1) / 2) i) ((i - 1) / 2) := rfl

theorem bubbleUpF_spec : ∀ fuel d i, i ≤ fuel → i < d.length → UpInv d i →
    (bubbleUpF fuel d i).length = d.length ∧
    (↑(bubbleUpF fuel d i) : Multiset HeapItem) = ↑d ∧
    IsHeap (bubbleUpF fuel d i) := by
  intro fuel
  induction fuel with
  | zero =>
    intro d i hif hlen hinv
    have hi0 : i = 0 := by omega
    subst hi0
    exact ⟨rfl, rfl, fun j hj hjlen => hinv.h1 j hj hjlen (by omega)⟩
  | succ fuel ih =>
    intro d i hif hlen hinv
    rw [bubbleUpF_succ]
    by_cases hi0 : i = 0
    · rw [if_pos hi0]
      subst hi0
      exact ⟨rfl, rfl, fun j hj hjlen => hinv.h1 j hj hjlen (by omega)⟩
    · rw [if_neg hi0]
      by_cases hstop : wAt d ((i - 1) / 2) ≤ wAt d i
      · rw [if_pos hstop]
        refine ⟨rfl, rfl, ?_⟩
        intro j hj hjlen
        by_cases hji : j = i
        · subst hji
          exact hstop
        · exact hinv.h1 j hj hjlen hji
      · rw [if_neg hstop]
        set p := (i - 1) / 2 with hp
        have hpi : p < i := by omega
        have hplen : p < d.length := by omega
        have hlt : wAt d i < wAt d p := by omega
        have hlen' : (swapIdx d p i).length = d.length := swapIdx_length d p i
        have hwp : wAt (swapIdx d p i) p = wAt d i := wAt_swap_left hplen hlen
        have hwi : wAt (swapIdx d p i) i = wAt d p := wAt_swap_right hplen hlen
        have hwo : ∀ x, x ≠ p → x ≠ i → wAt (swapIdx d p i) x = wAt d x :=
          fun x hx1 hx2 => wAt_swap_other hx1 hx2
        have hinv' : UpInv (swapIdx d p i) p := by
          constructor
          · intro j hj hjlen hne
            rw [hlen'] at hjlen
            by_cases hji : j = i
            · -- parent of i is p
              subst hji
              rw [hp] at hne ⊢
              rw [hwp, hwi]
              omega
            · by_cases hpj : (j - 1) / 2 = i
              · -- j is a child of i
                have hjne2 : j ≠ p := by omega
                rw [hpj, hwi, hwo j hjne2 hji]
                have h3 := hinv.h2 j hjlen (by omega) hpj
                rw [← hp] at h3
                omega
              · by_cases hpj2 : (j - 1) / 2 = p
                · -- j is the sibling of i
                  rw [hpj2, hwp, hwo j hne hji]
                  have h3 := hinv.h1 j hj hjlen hji
                  rw [hpj2] at h3
                  omega
                · have hparne : (j - 1) / 2 ≠ i := hpj
                  rw [hwo j hne hji, hwo ((j - 1) / 2) hpj2 hpj]
                  exact hinv.h1 j hj hjlen hji
          · intro j hjlen hppos hpar
            rw [hlen'] at hjlen
            have hppne : (p - 1) / 2 ≠ p := by omega
            have hppi : (p - 1) / 2 ≠ i := by omega
            rw [hwo ((p - 1) / 2) hppne hppi]
            have hbase : wAt d ((p - 1) / 2) ≤ wAt d p :=
              hinv.h1 p hppos hplen (by omega)
            by_cases hji : j = i
            · subst hji
              rw [hwi]
              exact hbase
            · have hjp : j ≠ p := by omega
              rw [hwo j hjp hji]
              have hjj : wAt d p ≤ wAt d j := by
                have := hinv.h1 j (by omega) hjlen hji
                rw [hpar] at this
                omega
              omega
        obtain ⟨l1, l2, l3⟩ := ih (swapIdx d p i) p (by omega) (by omega) hinv'
        exact ⟨by rw [l1, hlen'], by rw [l2, swapIdx_coe hplen hlen], l3⟩

theorem MinHeap.push_def (h : MinHeap) (item : HeapItem) :
    (h.push item).data =
      bubbleUpF ((h.data ++ [item]).length - 1) (h.data ++ [item])
        ((h.data ++ [item]).length - 1) := rfl

/-- Full specification of `MinHeap.push`. -/
theorem push_spec {hp : MinHeap} (hh : IsHeap hp.data) (item : HeapItem) :
    (hp.push item).data.length = hp.data.length + 1 ∧
    (↑(hp.push item).data : Multiset HeapItem) = item ::ₘ ↑hp.data ∧
    IsHeap (hp.push item).data := by
  set d := hp.data ++ [item] with hd
  have hdlen : d.length = hp.data.length + 1 := by simp [hd]
  have hi : d.length - 1 < d.length := by omega
  have hgetd : ∀ j, j < hp.data.length → d.getD j default = hp.data.getD j default := by
    intro j hj
    rw [hd, List.getD_eq_getElem?_getD, List.getD_eq_getElem?_getD,
      List.getElem?_append, if_pos hj]
  have hinv : UpInv d (d.length - 1) := by
    constructor
    · intro j hj hjlen hne
      have hjold : j < hp.data.length := by omega
      have hparold : (j - 1) / 2 < hp.data.length := by omega
      unfold wAt
      rw [hgetd j hjold, hgetd _ hparold]
      exact hh j hj hjold
    · intro j hjlen hpos hpar
      omega
  obtain ⟨l1, l2, l3⟩ := bubbleUpF_spec (d.length - 1) d (d.length - 1)
    (Nat.le_refl _) hi hinv
  rw [MinHeap.push_def, ← hd]
  refine ⟨by omega, ?_, l3⟩
  rw [l2, hd, coe_append_single]

/-- The `smallest` index computed by one `bubbleDown` iteration (proof-side
abbreviation for the body of the loop). -/
def dSmall (d : List HeapItem) (i : Nat) : Nat :=
  let n := d.length
  let l := 2 * i + 1
  let r := 2 * i + 2
  let s1 := if l < n ∧ wAt d l < wAt d i then l else i
  if r < n ∧ wAt d r < wAt d s1 then r else s1

theorem bubbleDownF_succ (fuel : Nat) (d : List HeapItem) (i : Nat) :
    bubbleDownF (fuel + 1) d i =
      if dSmall d i = i then d
      else bubbleDownF fuel (swapIdx d i (dSmall d i)) (dSmall d i) := rfl

theorem dSmall_eq (d : List HeapItem) (i : Nat) :
    dSmall d i =
      if 2 * i + 2 < d.length ∧ wAt d (2 * i + 2) <
          wAt d (if 2 * i + 1 < d.length ∧ wAt d (2 * i + 1) < wAt d i then 2 * i + 1 else i)
      then 2 * i + 2
      else if 2 * i + 1 < d.length ∧ wAt d (2 * i + 1) < wAt d i then 2 * i + 1 else i := rfl

/-- Case analysis on `dSmall`: either it stops (no strictly smaller child) or
it selects the minimum child, which is strictly smaller than `i`. -/
theorem dSmall_spec (d : List HeapItem) (i : Nat) :
    (dSmall d i = i →
      ∀ c, c < d.length → (c - 1) / 2 = i → 0 < c → wAt d i ≤ wAt d c) ∧
    (dSmall d i ≠ i →
      i < dSmall d i ∧ dSmall d i < d.length ∧ wAt d (dSmall d i) < wAt d i ∧
      (dSmall d i - 1) / 2 = i ∧
      (∀ c, c < d.length → (c - 1) / 2 = i → 0 < c → wAt d (dSmall d i) ≤ wAt d c)) := by
  have hchild : ∀ c, (c - 1) / 2 = i → 0 < c → c = 2 * i + 1 ∨ c = 2 * i + 2 := by
    intro c h1 h2
    omega
  rw [dSmall_eq]
  by_cases hl : 2 * i + 1 < d.length ∧ wAt d (2 * i + 1) < wAt d i
  · rw [if_pos hl]
    by_cases hr : 2 * i + 2 < d.length ∧ wAt d (2 * i + 2) < wAt d (2 * i + 1)
    · rw [if_pos hr]
      constructor
      · intro hc
        omega
      · intro _
        refine ⟨by omega, hr.1, by omega, by omega, ?_⟩
        intro c hcl hcp hcpos
        rcases hchild c hcp hcpos with rfl | rfl
        · omega
        · omega
    · rw [if_neg hr]
      constructor
      · intro hc
        omega
      · intro _
        refine ⟨by omega, hl.1, by omega, by omega, ?_⟩
        intro c hcl hcp hcpos
        rcases hchild c hcp hcpos with rfl | rfl
        · omega
        · -- the right child is not smaller than the left
          have : ¬ (2 * i + 2 < d.length ∧ wAt d (2 * i + 2) < wAt d (2 * i + 1)) := hr
          omega
  · rw [if_neg hl]
    by_cases hr : 2 * i + 2 < d.length ∧ wAt d (2 * i + 2) < wAt d i
    · rw [if_pos hr]
      constructor
      · intro hc
        omega
      · intro _
        refine ⟨by omega, hr.1, by omega, by omega, ?_⟩
        intro c hcl hcp hcpos
        rcases hchild c hcp hcpos with rfl | rfl
        · have : ¬ (2 * i + 1 < d.length ∧ wAt d (2 * i + 1) < wAt d i) := hl
          omega
        · omega
    · rw [if_neg hr]
      constructor
      · intro _ c hcl hcp hcpos
        rcases hchild c hcp hcpos with rfl | rfl
        · have : ¬ (2 * i + 1 < d.length ∧ wAt d (2 * i + 1) < wAt d i) := hl
          omega
        · have : ¬ (2 * i + 2 < d.length ∧ wAt d (2 * i + 2) < wAt d i) := hr
          omega
      · intro hc
        omega

/-- Invariant of `bubbleDown`: the heap order holds at every index whose
parent is not `i`, and the children of `i` are at least `i`'s parent. -/
structure DownInv (d : List HeapItem) (i : Nat) : Prop where
  h1 : ∀ j, 0 < j → j < d.length → (j - 1) / 2 ≠ i → wAt d ((j - 1) / 2) ≤ wAt d j
  h2 : 0 < i → ∀ j, j < d.length → (j - 1) / 2 = i → wAt d ((i - 1) / 2) ≤ wAt d j

theorem bubbleDownF_spec : ∀ fuel d i, d.length - i ≤ fuel → DownInv d i →
    (bubbleDownF fuel d i).length = d.length ∧
    (↑(bubbleDownF fuel d i) : Multiset HeapItem) = ↑d ∧
    IsHeap (bubbleDownF fuel d i) := by
  intro fuel
  induction fuel with
  | zero =>
    intro d i hif hinv
    have h0 : bubbleDownF 0 d i = d := rfl
    rw [h0]
    refine ⟨rfl, rfl, ?_⟩
    intro j hj hjlen
    exact hinv.h1 j hj hjlen (by omega)
  | succ fuel ih =>
    intro d i hif hinv
    rw [bubbleDownF_succ]
    obtain ⟨hstop, hgo⟩ := dSmall_spec d i
    by_cases hs : dSmall d i = i
    · rw [if_pos hs]
      refine ⟨rfl, rfl, ?_⟩
      intro j hj hjlen
      by_cases hpj : (j - 1) / 2 = i
      · rw [hpj]
        exact hstop hs j hjlen hpj hj
      · exact hinv.h1 j hj hjlen hpj
    · rw [if_neg hs]
      obtain ⟨hlt, hslen, hsw, hspar, hmin⟩ := hgo hs
      have hilen : i < d.length := by omega
      set s := dSmall d i with hsdef
      have hlen' : (swapIdx d i s).length = d.length := swapIdx_length d i s
      have hwi : wAt (swapIdx d i s) i = wAt d s := wAt_swap_left hilen hslen
      have hws : wAt (swapIdx d i s) s = wAt d i := wAt_swap_right hilen hslen
      have hwo : ∀ x, x ≠ i → x ≠ s → wAt (swapIdx d i s) x = wAt d x :=
        fun x hx1 hx2 => wAt_swap_other hx1 hx2
      have hinv' : DownInv (swapIdx d i s) s := by
        constructor
        · intro j hj hjlen hne
          rw [hlen'] at hjlen
          by_cases hjs : j = s
          · -- j = s: its parent is i
            subst hjs
            rw [hspar, hwi, hws]
            omega
          · by_cases hji : j = i
            · -- j = i: its parent is unchanged; use the grandparent bound
              subst hji
              have hppos : 0 < j := hj
              have hpne1 : (j - 1) / 2 ≠ j := by omega
              have hpne2 : (j - 1) / 2 ≠ s := by omega
              rw [hwi, hwo ((j - 1) / 2) hpne1 hpne2]
              exact hinv.h2 hj s hslen hspar
            · by_cases hpj : (j - 1) / 2 = i
              · -- j is the other child of i
                rw [hpj, hwi, hwo j hji hjs]
                exact hmin j hjlen hpj hj
              · have hpns : (j - 1) / 2 ≠ s := hne
                rw [hwo j hji hjs, hwo ((j - 1) / 2) hpj hpns]
                exact hinv.h1 j hj hjlen hpj
        · intro hspos j hjlen hpar
          rw [hlen'] at hjlen
          have hji : j ≠ i := by omega
          have hjs : j ≠ s := by omega
          rw [hspar, hwi, hwo j hji hjs]
          have h4 := hinv.h1 j (by omega) hjlen (by omega)
          rw [hpar] at h4
          exact h4
      obtain ⟨l1, l2, l3⟩ := ih (swapIdx d i s) s (by omega) hinv'
      exact ⟨by rw [l1, hlen'], by rw [l2, swapIdx_coe hilen hslen], l3⟩

theorem getD_dropLast {α : Type} [Inhabited α] {l : List α} {i : Nat}
    (h : i < l.length - 1) : l.dropLast.getD i default = l.getD i default := by
  rw [List.getD_eq_getElem?_getD, List.getD_eq_getElem?_getD,
    List.getElem?_eq_getElem (by simpa using h), List.getElem?_eq_getElem (by omega)]
  simp [List.getElem_dropLast]

theorem MinHeap.pop_cons (x : HeapItem) (rest : List HeapItem) :
    MinHeap.pop ⟨x :: rest⟩ =
      (if 0 < ((x :: rest).dropLast).length then
        (some ((x :: rest).getD 0 default),
          ⟨bubbleDownF ((x :: rest).dropLast.set 0 (x :: rest).getLast!).length
            ((x :: rest).dropLast.set 0 (x :: rest).getLast!) 0⟩)
      else (some ((x :: rest).getD 0 default), ⟨(x :: rest).dropLast⟩)) := rfl

/-- Full specification of `MinHeap.pop` on a non-empty heap. -/
theorem pop_spec {hp : MinHeap} (hh : IsHeap hp.data) (hne : hp.data ≠ []) :
    ∃ top h2, hp.pop = (some top, h2) ∧
      top = hp.data.getD 0 default ∧
      IsHeap h2.data ∧
      (↑hp.data : Multiset HeapItem) = top ::ₘ ↑h2.data ∧
      h2.data.length = hp.data.length - 1 := by
  obtain ⟨data⟩ := hp
  have hh2 : IsHeap data := hh
  have hne2 : data ≠ [] := hne
  clear hh hne
  match data, hne2, hh2 with
  | x :: rest, _, hh2 =>
  show ∃ top h2, MinHeap.pop ⟨x :: rest⟩ = (some top, h2) ∧
      top = (x :: rest).getD 0 default ∧ IsHeap h2.data ∧
      ((x :: rest : List HeapItem) : Multiset HeapItem) = top ::ₘ ↑h2.data ∧
      h2.data.length = (x :: rest).length - 1
  match rest with
  | [] =>
    rw [MinHeap.pop_cons]
    rw [if_neg (by simp)]
    refine ⟨x, ⟨[]⟩, rfl, rfl, ?_, ?_, by simp⟩
    · intro j hj hjlen
      simp at hjlen
    · show ({x} : Multiset HeapItem) = x ::ₘ ↑([] : List HeapItem)
      rfl
  | y :: rest2 =>
    set data := x :: y :: rest2 with hdata
    have hlen2 : 2 ≤ data.length := by simp [hdata]
    have hdne : data ≠ [] := by simp [hdata]
    have hlast : data.getLast! = data.getLast hdne :=
      List.getLast!_of_getLast? (List.getLast?_eq_getLast data hdne)
    set d0 := data.dropLast with hd0
    have hd0len : d0.length = data.length - 1 := by
      rw [hd0, List.length_dropLast]
    have hd0pos : 0 < d0.length := by omega
    set e := d0.set 0 data.getLast! with he
    have helen : e.length = data.length - 1 := by
      rw [he, List.length_set]
      exact hd0len
    have hcond : 0 < ((x :: y :: rest2).dropLast).length := by
      rw [← hdata, ← hd0]
      exact hd0pos
    have hgd : ∀ k, 0 < k → k < e.length → e.getD k default = data.getD k default := by
      intro k hk hke
      rw [he, getD_set_ne (by omega), hd0, getD_dropLast (by omega)]
    have hinv : DownInv e 0 := by
      constructor
      · intro j hj hjlen hpj
        have hp1 : 0 < (j - 1) / 2 := by omega
        unfold wAt
        rw [hgd j hj hjlen, hgd ((j - 1) / 2) hp1 (by omega)]
        exact hh2 j hj (by omega)
      · intro hc
        omega
    obtain ⟨l1, l2, l3⟩ := bubbleDownF_spec e.length e 0 (by omega) hinv
    have htop : d0.getD 0 default = data.getD 0 default := by
      rw [hd0, getD_dropLast (by omega)]
    have hsplit : d0 ++ [data.getLast hdne] = data := List.dropLast_append_getLast hdne
    have hmult : (↑data : Multiset HeapItem) =
        (data.getD 0 default) ::ₘ (↑e : Multiset HeapItem) := by
      have h1 : (↑data : Multiset HeapItem) = data.getLast! ::ₘ ↑d0 := by
        conv_lhs => rw [← hsplit]
        rw [coe_append_single, hlast]
      have h2 := coe_set_add d0 0 hd0pos data.getLast!
      rw [htop, ← he] at h2
      rw [h1, ← Multiset.singleton_add, ← Multiset.singleton_add,
        add_comm ({data.getLast!} : Multiset HeapItem) _,
        add_comm ({data.getD 0 default} : Multiset HeapItem) _, ← h2, add_comm]
    refine ⟨data.getD 0 default, ⟨bubbleDownF e.length e 0⟩, ?_, rfl, l3, ?_, ?_⟩
    · show MinHeap.pop ⟨data⟩ = _
      rw [hdata, MinHeap.pop_cons, if_pos hcond]
    · show (↑data : Multiset HeapItem) = _ ::ₘ ↑(bubbleDownF e.length e 0)
      rw [l2]
      exact hmult
    · show (bubbleDownF e.length e 0).length = data.length - 1
      rw [l1]
      exact helen

theorem isHeap_root_min {d : List HeapItem} (hh : IsHeap d) :
    ∀ j, j < d.length → wAt d 0 ≤ wAt d j := by
  intro j
  induction j using Nat.strong_induction_on with
  | _ j ih =>
    intro hjlen
    rcases Nat.eq_zero_or_pos j with rfl | hpos
    · exact Nat.le_refl _
    · have hpar : (j - 1) / 2 < j := by omega
      exact Nat.le_trans (ih _ hpar (by omega)) (hh j hpos hjlen)

/-- The root of a heap is a minimum-weight element. -/
theorem isHeap_min_mem {d : List HeapItem} (hh : IsHeap d) {y : HeapItem}
    (hy : y ∈ d) : (d.getD 0 default).w ≤ y.w := by
  obtain ⟨j, hj, rfl⟩ := List.mem_iff_getElem.1 hy
  have hmin := isHeap_root_min hh j hj
  unfold wAt at hmin
  rw [List.getD_eq_getElem d default hj] at hmin
  exact hmin

theorem pop_empty : MinHeap.pop ⟨[]⟩ = (none, ⟨[]⟩) := rfl

/-- Drain a heap by repeated `pop` until it returns the empty signal. -/
def popAllF : Nat → MinHeap → List HeapItem
  | 0, _ => []
  | fuel + 1, h =>
    match h.pop with
    | (none, _) => []
    | (some it, h2) => it :: popAllF fuel h2

/-- Popping repeatedly until `pop` signals empty. -/
def popAll (h : MinHeap) : List HeapItem := popAllF h.data.length h

theorem popAllF_succ (fuel : Nat) (h : MinHeap) :
    popAllF (fuel + 1) h =
      match h.pop with
      | (none, _) => []
      | (some it, h2) => it :: popAllF fuel h2 := rfl

theorem popAllF_spec : ∀ fuel (h : MinHeap), h.data.length ≤ fuel → IsHeap h.data →
    (↑(popAllF fuel h) : Multiset HeapItem) = ↑h.data ∧
    List.Pairwise (fun a b => a.w ≤ b.w) (popAllF fuel h) := by
  intro fuel
  induction fuel with
  | zero =>
    intro h hlen hh
    have hempty : h.data = [] := List.length_eq_zero.1 (by omega)
    refine ⟨?_, List.Pairwise.nil⟩
    show (↑([] : List HeapItem) : Multiset HeapItem) = ↑h.data
    rw [hempty]
  | succ fuel ih =>
    intro h hlen hh
    by_cases hne : h.data = []
    · have hpop : h.pop = (none, h) := by
        obtain ⟨d⟩ := h
        have hd : d = [] := hne
        subst hd
        rfl
      rw [popAllF_succ, hpop]
      exact ⟨by rw [hne], List.Pairwise.nil⟩
    · obtain ⟨top, h2, hpop, htop, hh2, hm, hl⟩ := pop_spec hh hne
      have hlen2 : h2.data.length ≤ fuel := by
        have hpos : 0 < h.data.length := by
          cases hd : h.data with
          | nil => exact absurd hd hne
          | cons a l => simp [hd]
        omega
      have hstep : popAllF (fuel + 1) h = top :: popAllF fuel h2 := by
        rw [popAllF_succ, hpop]
      obtain ⟨ih1, ih2⟩ := ih h2 hlen2 hh2
      constructor
      · rw [hstep]
        show (top ::ₘ (↑(popAllF fuel h2) : Multiset HeapItem)) = ↑h.data
        rw [ih1, hm]
      · rw [hstep]
        refine List.Pairwise.cons ?_ ih2
        intro y hy
        have hym : y ∈ (↑(popAllF fuel h2) : Multiset HeapItem) := Multiset.mem_coe.2 hy
        rw [ih1] at hym
        have hyh : y ∈ h.data := by
          have hin : y ∈ (↑h.data : Multiset HeapItem) := by
            rw [hm]
            exact Multiset.mem_cons_of_mem hym
          exact Multiset.mem_coe.1 hin
        rw [htop]
        exact isHeap_min_mem hh hyh

/-- Building a heap by a batch of pushes. -/
theorem foldl_push_spec (items : List HeapItem) :
    ∀ h : MinHeap, IsHeap h.data →
      IsHeap ((items.foldl MinHeap.push h).data) ∧
      (↑(items.foldl MinHeap.push h).data : Multiset HeapItem) = ↑h.data + ↑items := by
  induction items with
  | nil =>
    intro h hh
    exact ⟨hh, by simp⟩
  | cons x items ih =>
    intro h hh
    obtain ⟨p1, p2, p3⟩ := push_spec hh x
    obtain ⟨i1, i2⟩ := ih (h.push x) p3
    refine ⟨i1, ?_⟩
    show (↑(items.foldl MinHeap.push (h.push x)).data : Multiset HeapItem) = _
    rw [i2, p2, ← Multiset.cons_coe, ← Multiset.singleton_add, ← Multiset.singleton_add,
      ← add_assoc, add_comm ({x} : Multiset HeapItem) (↑h.data : Multiset HeapItem),
      add_assoc]

/-- The operations a client can perform on a `MinHeap`. -/
inductive HeapOp where
  | push (item : HeapItem)
  | pop

/-- Apply one operation; `pop` on an empty heap returns the null signal and
leaves the heap unchanged. -/
def applyOp (h : MinHeap) : HeapOp → MinHeap
  | HeapOp.push item => h.push item
  | HeapOp.pop => (h.pop).2

/-- Run a sequence of operations from a fresh empty heap. -/
def applyOps (ops : List HeapOp) : MinHeap := ops.foldl applyOp ⟨[]⟩

theorem applyOp_isHeap {h : MinHeap} (hh : IsHeap h.data) (op : HeapOp) :
    IsHeap (applyOp h op).data := by
  cases op with
  | push item => exact (push_spec hh item).2.2
  | pop =>
    by_cases hne : h.data = []
    · have hpop : h.pop = (none, h) := by
        obtain ⟨d⟩ := h
        have hd : d = [] := hne
        subst hd
        rfl
      show IsHeap (h.pop).2.data
      rw [hpop]
      exact hh
    · obtain ⟨top, h2, hpop, -, hh2, -, -⟩ := pop_spec hh hne
      show IsHeap (h.pop).2.data
      rw [hpop]
      exact hh2

theorem applyOps_isHeap (ops : List HeapOp) : IsHeap (applyOps ops).data := by
  suffices h : ∀ hp : MinHeap, IsHeap hp.data → IsHeap ((ops.foldl applyOp hp).data) by
    refine h ⟨[]⟩ ?_
    intro j hj hjlen
    simp at hjlen
  induction ops with
  | nil =>
    intro hp hh
    exact hh
  | cons op ops ih =>
    intro hp hh
    exact ih _ (applyOp_isHeap hh op)

/-! ## Prim correctness -/

/-- The edge value of the input list matching an oriented MST entry: `f`
itself if it occurs in `edges`, otherwise its flip. -/
def canon (edges : List Edge) (f : Edge) : Edge :=
  if f ∈ edges then f else ⟨f.v, f.u, f.w⟩

theorem canon_w (edges : List Edge) (f : Edge) : (canon edges f).w = f.w := by
  unfold canon
  split_ifs <;> rfl

theorem canon_or (edges : List Edge) (f : Edge) :
    ((canon edges f).u = f.u ∧ (canon edges f).v = f.v) ∨
    ((canon edges f).u = f.v ∧ (canon edges f).v = f.u) := by
  unfold canon
  split_ifs
  · exact Or.inl ⟨rfl, rfl⟩
  · exact Or.inr ⟨rfl, rfl⟩

theorem canon_mem {edges : List Edge} {f : Edge}
    (h : ∃ e ∈ edges, e.w = f.w ∧ ((e.u = f.u ∧ e.v = f.v) ∨ (e.v = f.u ∧ e.u = f.v))) :
    canon edges f ∈ edges := by
  unfold canon
  split_ifs with hf
  · exact hf
  · obtain ⟨e, he, hw, hor⟩ := h
    rcases hor with ⟨h1, h2⟩ | ⟨h1, h2⟩
    · have : e = f := by
        cases e
        cases f
        simp only [Edge.mk.injEq] at *
        exact ⟨h1, h2, hw⟩
      rw [this] at he
      exact absurd he hf
    · have : e = (⟨f.v, f.u, f.w⟩ : Edge) := by
        cases e
        cases f
        simp only [Edge.mk.injEq] at *
        exact ⟨h2, h1, hw⟩
      rw [← this]
      exact he

/-- A step through a canonicalized edge is a step through the original. -/
theorem estep_map_canon {edges mst : List Edge} {x y : Nat} :
    EStep (↑(mst.map (canon edges))) x y ↔ EStep (↑mst) x y := by
  constructor
  · rintro ⟨e, he, hor⟩
    rw [Multiset.mem_coe, List.mem_map] at he
    obtain ⟨f, hf, rfl⟩ := he
    refine ⟨f, Multiset.mem_coe.2 hf, ?_⟩
    rcases canon_or edges f with ⟨h1, h2⟩ | ⟨h1, h2⟩ <;> rw [h1, h2] at hor
    · exact hor
    · exact hor.symm.imp And.symm And.symm
  · rintro ⟨f, hf, hor⟩
    rw [Multiset.mem_coe] at hf
    refine ⟨canon edges f, Multiset.mem_coe.2 (List.mem_map_of_mem _ hf), ?_⟩
    rcases canon_or edges f with ⟨h1, h2⟩ | ⟨h1, h2⟩ <;> rw [h1, h2]
    · exact hor
    · exact hor.symm.imp And.symm And.symm

theorem reach_map_canon {edges mst : List Edge} {x y : Nat} :
    Reach (↑(mst.map (canon edges))) x y ↔ Reach (↑mst) x y := by
  constructor
  · intro h
    exact Relation.ReflTransGen.mono (fun a b hs => estep_map_canon.1 hs) h
  · intro h
    exact Relation.ReflTransGen.mono (fun a b hs => estep_map_canon.2 hs) h

theorem wsum_map_canon (edges mst : List Edge) :
    wsum (↑(mst.map (canon edges))) = wsum (↑mst : Multiset Edge) := by
  rw [wsum_coe, wsum_coe, List.map_map]
  congr 1
  apply List.map_congr_left
  intro f _
  exact canon_w edges f

/-- If a vertex is an endpoint of no edge, everything it reaches is itself. -/
theorem reach_isolated {m : Multiset Edge} {z : Nat}
    (hiso : ∀ f ∈ m, f.u ≠ z ∧ f.v ≠ z) {x : Nat} (h : Reach m x z) : x = z := by
  have key : ∀ a b, Reach m a b → (a = z ↔ b = z) := by
    intro a b hr
    induction hr with
    | refl => exact Iff.rfl
    | @tail p q hpq hstep ih =>
      obtain ⟨f, hf, hor⟩ := hstep
      have hne := hiso f hf
      have hp : p ≠ z := by
        rcases hor with ⟨h1, h2⟩ | ⟨h1, h2⟩
        · exact h1 ▸ hne.1
        · exact h2 ▸ hne.2
      have hq : q ≠ z := by
        rcases hor with ⟨h1, h2⟩ | ⟨h1, h2⟩
        · exact h2 ▸ hne.2
        · exact h1 ▸ hne.1
      constructor
      · intro ha
        exact absurd (ih.1 ha) hp
      · intro hq2
        exact absurd hq2 hq
  exact (key x z h).2 rfl

/-- What `primMST` needs from the adjacency structure of `edges`. -/
structure AdjOk (n : Nat) (edges : List Edge) (adj : List (List AdjEntry)) : Prop where
  hlen : adj.length = n
  sound : ∀ v, v < n → ∀ a ∈ adj.getD v [], a.toV < n ∧
    ∃ e ∈ edges, e.w = a.w ∧ ((e.u = v ∧ e.v = a.toV) ∨ (e.v = v ∧ e.u = a.toV))
  complete : ∀ e ∈ edges,
    (⟨e.v, e.w⟩ : AdjEntry) ∈ adj.getD e.u [] ∧ (⟨e.u, e.w⟩ : AdjEntry) ∈ adj.getD e.v []

theorem getD_replicate_nil {n i : Nat} :
    (List.replicate n ([] : List AdjEntry)).getD i [] = [] := by
  by_cases h : i < n
  · simp [List.getD_eq_getElem?_getD, List.getElem?_replicate, h]
  · have hnone : (List.replicate n ([] : List AdjEntry))[i]? = none := by
      rw [List.getElem?_eq_none_iff, List.length_replicate]
      omega
    simp [List.getD_eq_getElem?_getD, hnone]

/-- `buildAdj` produces a faithful adjacency structure. -/
theorem buildAdj_adjOk {n : Nat} (edges : List Edge)
    (hval : ValidEdges n edges) : AdjOk n edges (buildAdj n edges) := by
  suffices key : ∀ (rest processed : List Edge) (adj : List (List AdjEntry)),
      ValidEdges n (processed ++ rest) → AdjOk n processed adj →
      AdjOk n (processed ++ rest)
        (rest.foldl (fun adj e =>
          let adj1 := adj.set e.u (adj.getD e.u [] ++ [⟨e.v, e.w⟩])
          adj1.set e.v (adj1.getD e.v [] ++ [⟨e.u, e.w⟩])) adj) by
    have hinit : AdjOk n [] (List.replicate n []) := by
      refine ⟨List.length_replicate n [], ?_, ?_⟩
      · intro v hv a ha
        rw [getD_replicate_nil] at ha
        simp at ha
      · intro e he
        simp at he
    have h := key edges [] (List.replicate n []) (by simpa using hval) hinit
    simpa [buildAdj] using h
  intro rest
  induction rest with
  | nil =>
    intro processed adj hv hok
    simpa using hok
  | cons e rest ih =>
    intro processed adj hv hok
    have he : e.u < n ∧ e.v < n ∧ e.u ≠ e.v := hv e (by simp)
    have hulen : e.u < adj.length := by rw [hok.hlen]; exact he.1
    set adj1 := adj.set e.u (adj.getD e.u [] ++ [⟨e.v, e.w⟩]) with hadj1
    set adj2 := adj1.set e.v (adj1.getD e.v [] ++ [⟨e.u, e.w⟩]) with hadj2
    have hvlen : e.v < adj1.length := by
      rw [hadj1, List.length_set, hok.hlen]
      exact he.2.1
    have hg1u : adj1.getD e.u [] = adj.getD e.u [] ++ [⟨e.v, e.w⟩] :=
      getD_set_self hulen
    have hg1o : ∀ x, x ≠ e.u → adj1.getD x [] = adj.getD x [] :=
      fun x hx => getD_set_ne (Ne.symm hx)
    have hg2v : adj2.getD e.v [] = adj.getD e.v [] ++ [⟨e.u, e.w⟩] := by
      rw [hadj2]
      rw [show adj1.getD e.v [] ++ ([⟨e.u, e.w⟩] : List AdjEntry) =
        adj.getD e.v [] ++ [⟨e.u, e.w⟩] from by rw [hg1o e.v (Ne.symm he.2.2)]]
      exact getD_set_self hvlen
    have hg2u : adj2.getD e.u [] = adj.getD e.u [] ++ [⟨e.v, e.w⟩] := by
      have h1 : adj2.getD e.u [] = adj1.getD e.u [] := getD_set_ne (Ne.symm he.2.2)
      rw [h1, hg1u]
    have hg2o : ∀ x, x ≠ e.u → x ≠ e.v → adj2.getD x [] = adj.getD x [] := by
      intro x hx1 hx2
      have h1 : adj2.getD x [] = adj1.getD x [] := getD_set_ne (Ne.symm hx2)
      rw [h1, hg1o x hx1]
    have hok2 : AdjOk n (processed ++ [e]) adj2 := by
      refine ⟨?_, ?_, ?_⟩
      · rw [hadj2, List.length_set, hadj1, List.length_set, hok.hlen]
      · intro v hvn a ha
        by_cases hvu : v = e.u
        · subst hvu
          rw [hg2u, List.mem_append] at ha
          rcases ha with ha | ha
          · obtain ⟨h1, f, hf, h3⟩ := hok.sound e.u hvn a ha
            exact ⟨h1, f, by simp [hf], h3⟩
          · simp only [List.mem_singleton] at ha
            subst ha
            exact ⟨he.2.1, e, by simp, rfl, Or.inl ⟨rfl, rfl⟩⟩
        · by_cases hvv : v = e.v
          · subst hvv
            rw [hg2v, List.mem_append] at ha
            rcases ha with ha | ha
            · obtain ⟨h1, f, hf, h3⟩ := hok.sound e.v hvn a ha
              exact ⟨h1, f, by simp [hf], h3⟩
            · simp only [List.mem_singleton] at ha
              subst ha
              exact ⟨he.1, e, by simp, rfl, Or.inr ⟨rfl, rfl⟩⟩
          · rw [hg2o v hvu hvv] at ha
            obtain ⟨h1, f, hf, h3⟩ := hok.sound v hvn a ha
            exact ⟨h1, f, by simp [hf], h3⟩
      · intro f hf
        rw [List.mem_append] at hf
        rcases hf with hf | hf
        · obtain ⟨h1, h2⟩ := hok.complete f hf
          constructor
          · by_cases hfu : f.u = e.u
            · rw [hfu, hg2u]
              exact List.mem_append_left _ (hfu ▸ h1)
            · by_cases hfv : f.u = e.v
              · rw [hfv, hg2v]
                exact List.mem_append_left _ (hfv ▸ h1)
              · rw [hg2o f.u hfu hfv]
                exact h1
          · by_cases hfu : f.v = e.u
            · rw [hfu, hg2u]
              exact List.mem_append_left _ (hfu ▸ h2)
            · by_cases hfv : f.v = e.v
              · rw [hfv, hg2v]
                exact List.mem_append_left _ (hfv ▸ h2)
              · rw [hg2o f.v hfu hfv]
                exact h2
        · simp only [List.mem_singleton] at hf
          subst hf
          constructor
          · rw [hg2u]
            exact List.mem_append_right _ (by simp)
          · rw [hg2v]
            exact List.mem_append_right _ (by simp)
    have hv2 : ValidEdges n ((processed ++ [e]) ++ rest) := by
      intro f hf
      refine hv f ?_
      simp only [List.append_assoc, List.singleton_append] at hf ⊢
      exact hf
    have := ih (processed ++ [e]) adj2 hv2 hok2
    rw [List.append_assoc, List.singleton_append] at this
    exact this

/-- The set of visited vertices. -/
def visFin (n : Nat) (visited : List Bool) : Finset Nat :=
  (Finset.range n).filter (fun x => visited.getD x false = true)

theorem mem_visFin {n : Nat} {visited : List Bool} {x : Nat} :
    x ∈ visFin n visited ↔ x < n ∧ visited.getD x false = true := by
  unfold visFin
  rw [Finset.mem_filter, Finset.mem_range]

theorem visFin_set_true {n : Nat} {visited : List Bool} {v : Nat}
    (hlen : v < visited.length) :
    visFin n (visited.set v true) = if v < n then insert v (visFin n visited)
      else visFin n visited := by
  ext x
  rw [mem_visFin]
  by_cases hx : x = v
  · subst hx
    have hself : (visited.set x true).getD x false = true := getD_set_self hlen
    rw [hself]
    split_ifs with hvn
    · simp [hvn]
    · rw [mem_visFin]
      constructor
      · intro ⟨h1, _⟩
        exact absurd h1 hvn
      · intro ⟨h1, _⟩
        exact absurd h1 hvn
  · have hoth : (visited.set v true).getD x false = visited.getD x false :=
      getD_set_ne (Ne.symm hx)
    rw [hoth]
    split_ifs with hvn
    · rw [Finset.mem_insert, mem_visFin]
      constructor
      · intro h
        exact Or.inr h
      · intro h
        rcases h with h | h
        · exact absurd h hx
        · exact h
    · rw [mem_visFin]

/-- Total adjacency size over the unvisited vertices (the loop measure). -/
def sumUnvisited (visited : List Bool) (adj : List (List AdjEntry)) : Nat :=
  ∑ v ∈ Finset.range adj.length,
    if visited.getD v false = true then 0 else (adj.getD v []).length

theorem sumUnvisited_set {visited : List Bool} {adj : List (List AdjEntry)}
    {v : Nat} (hv : v < adj.length) (hlen : v < visited.length)
    (hunvis : visited.getD v false = false) :
    sumUnvisited (visited.set v true) adj + (adj.getD v []).length =
      sumUnvisited visited adj := by
  unfold sumUnvisited
  have hvmem : v ∈ Finset.range adj.length := Finset.mem_range.2 hv
  rw [← Finset.sum_erase_add _ _ hvmem, ← Finset.sum_erase_add _ _ hvmem]
  have hcongr : ∀ x ∈ (Finset.range adj.length).erase v,
      (if (visited.set v true).getD x false = true then 0 else (adj.getD x []).length) =
      (if visited.getD x false = true then 0 else (adj.getD x []).length) := by
    intro x hx
    have hxv : x ≠ v := (Finset.mem_erase.1 hx).1
    have hoth : (visited.set v true).getD x false = visited.getD x false :=
      getD_set_ne (Ne.symm hxv)
    rw [hoth]
  rw [Finset.sum_congr rfl hcongr]
  have hself : (visited.set v true).getD v false = true := getD_set_self hlen
  rw [hself, hunvis]
  simp

theorem sumUnvisited_le (visited : List Bool) (adj : List (List AdjEntry)) :
    sumUnvisited visited adj ≤ (adj.map List.length).sum := by
  have heq : (adj.map List.length).sum =
      ∑ v ∈ Finset.range adj.length, (adj.getD v []).length := by
    induction adj with
    | nil => simp
    | cons a adj ih =>
      rw [List.map_cons, List.sum_cons, List.length_cons, Finset.sum_range_succ']
      simp only [List.getD_cons_succ, List.getD_cons_zero]
      rw [← ih]
      omega
  rw [heq]
  apply Finset.sum_le_sum
  intro v _
  split_ifs
  · omega
  · exact Nat.le_refl _

theorem cons_le_of_count {f : Edge} {m M : Multiset Edge} (hm : m ≤ M)
    (hc : Multiset.count f m < Multiset.count f M) : f ::ₘ m ≤ M := by
  rw [Multiset.le_iff_count]
  intro a
  rw [Multiset.count_cons]
  split_ifs with haf
  · subst haf
    omega
  · have := Multiset.count_le_of_le a hm
    omega

theorem cons_left_le (f : Edge) (m1 m2 : Multiset Edge) :
    f ::ₘ m1 ≤ m1 + (f ::ₘ m2) := by
  rw [Multiset.le_iff_count]
  intro a
  rw [Multiset.count_cons, Multiset.count_add, Multiset.count_cons]
  split_ifs <;> omega

theorem add_cons_le_erase {m1 m2 T2 : Multiset Edge} {f : Edge}
    (h : m1 + (f ::ₘ m2) ≤ T2) : m1 + m2 ≤ T2.erase f := by
  rw [Multiset.le_iff_count]
  intro a
  have hc := Multiset.count_le_of_le a h
  rw [Multiset.count_add, Multiset.count_cons] at hc
  rw [Multiset.count_add]
  by_cases haf : a = f
  · subst haf
    rw [Multiset.count_erase_self]
    simp at hc
    omega
  · rw [Multiset.count_erase_of_ne haf]
    rw [if_neg haf] at hc
    omega

theorem wsum_erase {s : Multiset Edge} {f : Edge} (hf : f ∈ s) :
    wsum (s.erase f) + f.w = wsum s := by
  conv_rhs => rw [← Multiset.cons_erase hf]
  rw [wsum_cons]
  omega

/-- Every reachability witness can be realised by a trail inside the graph. -/
theorem reach_toTrail {M : Multiset Edge} {x y : Nat} (h : Reach M x y) :
    ∃ m, m ≤ M ∧ Trail m x y := by
  induction h with
  | refl => exact ⟨0, Multiset.zero_le M, Trail.nil x⟩
  | @tail b c hxb hbc ih =>
    obtain ⟨m, hm, ht⟩ := ih
    obtain ⟨f, hf, hor⟩ := hbc
    by_cases hcount : Multiset.count f m < Multiset.count f M
    · refine ⟨f ::ₘ m, cons_le_of_count hm hcount, ?_⟩
      have htrail2 : Trail (m + (f ::ₘ 0)) x c :=
        ht.append (Trail.cons f hor (Trail.nil c))
      have hms : m + (f ::ₘ 0) = f ::ₘ m := by
        rw [Multiset.cons_zero, add_comm, Multiset.singleton_add]
      exact hms ▸ htrail2
    · have hfm : f ∈ m := by
        rw [← Multiset.count_pos]
        have h1 : 0 < Multiset.count f M := Multiset.count_pos.2 hf
        omega
      obtain ⟨p, q, m1, m2, hmeq, h1, hpq, h2⟩ := ht.split f hfm
      have hm1M : m1 + (f ::ₘ m2) ≤ M := hmeq ▸ hm
      rcases hpq with ⟨hp, hq⟩ | ⟨hq, hp⟩ <;> rcases hor with ⟨hu, hv⟩ | ⟨hu, hv⟩
      · -- f.u = p = b, f.v = q = c
        refine ⟨f ::ₘ m1, (cons_left_le f m1 m2).trans hm1M, ?_⟩
        have hb : p = b := by rw [← hp, hu]
        have hpb : Trail (m1 + (f ::ₘ 0)) x c := by
          refine h1.append (Trail.cons f ?_ (Trail.nil c))
          exact Or.inl ⟨hu.trans hb.symm, hv⟩
        have hms : m1 + (f ::ₘ 0) = f ::ₘ m1 := by
          rw [Multiset.cons_zero, add_comm, Multiset.singleton_add]
        exact hms ▸ hpb
      · -- f.u = p = c
        have hpc : p = c := by rw [← hp, hu]
        refine ⟨m1, le_trans (Multiset.le_add_right m1 (f ::ₘ m2)) hm1M, ?_⟩
        exact hpc ▸ h1
      · -- f.v = p, f.u = q = b
        have hpc : p = c := by rw [← hp, hv]
        refine ⟨m1, le_trans (Multiset.le_add_right m1 (f ::ₘ m2)) hm1M, ?_⟩
        exact hpc ▸ h1
      · -- f.v = p = b, f.u = q = c
        have hb : p = b := by rw [← hp, hv]
        refine ⟨f ::ₘ m1, (cons_left_le f m1 m2).trans hm1M, ?_⟩
        have hpb : Trail (m1 + (f ::ₘ 0)) x c := by
          refine h1.append (Trail.cons f ?_ (Trail.nil c))
          exact Or.inr ⟨hu, hv.trans hb.symm⟩
        have hms : m1 + (f ::ₘ 0) = f ::ₘ m1 := by
          rw [Multiset.cons_zero, add_comm, Multiset.singleton_add]
        exact hms ▸ hpb

/-- A trail from inside `P` to outside `P` uses a crossing edge. -/
theorem trail_cross {m : Multiset Edge} {x y : Nat} (P : Nat → Prop)
    (h : Trail m x y) (hx : P x) (hy : ¬ P y) :
    ∃ f ∈ m, (P f.u ∧ ¬ P f.v) ∨ (P f.v ∧ ¬ P f.u) := by
  induction h with
  | nil => exact absurd hx hy
  | @cons m x2 y2 z e hstep ht ih =>
    by_cases hmid : P y2
    · obtain ⟨f, hfm, hcross⟩ := ih hmid hy
      exact ⟨f, Multiset.mem_cons_of_mem hfm, hcross⟩
    · refine ⟨e, Multiset.mem_cons_self e m, ?_⟩
      rcases hstep with ⟨hu, hv⟩ | ⟨hu, hv⟩
      · exact Or.inl ⟨hu ▸ hx, hv ▸ hmid⟩
      · exact Or.inr ⟨hv ▸ hx, hu ▸ hmid⟩

/-- Exchange step for Prim: a spanning multiset `T2` extending the partial
tree `M` (all of whose endpoints are visited) can be rearranged to also
contain the minimum crossing edge `c`, without increasing total weight. -/
theorem prim_swap {n : Nat} {E M T2 : Multiset Edge} (P : Nat → Prop)
    (c : Edge) (hcE : c ∈ E)
    (hcross0 : (P c.u ∧ ¬ P c.v) ∨ (P c.v ∧ ¬ P c.u))
    (hcun : c.u < n) (hcvn : c.v < n)
    (hM : ∀ e ∈ M, P e.u ∧ P e.v)
    (hmin : ∀ g ∈ E, (P g.u ∧ ¬ P g.v) ∨ (P g.v ∧ ¬ P g.u) → c.w ≤ g.w)
    (hMT2 : M ≤ T2) (hT2E : T2 ≤ E) (hspan : Spans n T2) :
    ∃ T3, T3 ≤ E ∧ Multiset.card T3 = Multiset.card T2 ∧ Spans n T3 ∧
      wsum T3 ≤ wsum T2 ∧ c ::ₘ M ≤ T3 := by
  have hcM : c ∉ M := by
    intro hc
    rcases hcross0 with ⟨h1, h2⟩ | ⟨h1, h2⟩
    · exact h2 (hM c hc).2
    · exact h2 (hM c hc).1
  have hcountM : Multiset.count c M = 0 := Multiset.count_eq_zero.2 hcM
  by_cases hcT2 : c ∈ T2
  · refine ⟨T2, hT2E, rfl, hspan, le_refl _, ?_⟩
    rw [Multiset.le_iff_count]
    intro a
    rw [Multiset.count_cons]
    split_ifs with hac
    · subst hac
      rw [hcountM]
      have := Multiset.count_pos.2 hcT2
      omega
    · have := Multiset.count_le_of_le a hMT2
      omega
  · obtain ⟨x0, y0, hxy, hPx, hPy⟩ :
        ∃ x0 y0, ((c.u = x0 ∧ c.v = y0) ∨ (c.u = y0 ∧ c.v = x0)) ∧ P x0 ∧ ¬ P y0 := by
      rcases hcross0 with ⟨h1, h2⟩ | ⟨h1, h2⟩
      · exact ⟨c.u, c.v, Or.inl ⟨rfl, rfl⟩, h1, h2⟩
      · exact ⟨c.v, c.u, Or.inr ⟨rfl, rfl⟩, h1, h2⟩
    have hx0n : x0 < n := by
      rcases hxy with ⟨h1, h2⟩ | ⟨h1, h2⟩
      · exact h1 ▸ hcun
      · exact h2 ▸ hcvn
    have hy0n : y0 < n := by
      rcases hxy with ⟨h1, h2⟩ | ⟨h1, h2⟩
      · exact h2 ▸ hcvn
      · exact h1 ▸ hcun
    have hreach : Reach T2 x0 y0 := (hspan x0 hx0n).symm.trans (hspan y0 hy0n)
    obtain ⟨m, hmT2, ht⟩ := reach_toTrail hreach
    obtain ⟨f, hfm, hcross⟩ := trail_cross P ht hPx hPy
    have hfT2 : f ∈ T2 := Multiset.mem_of_le hmT2 hfm
    have hfE : f ∈ E := Multiset.mem_of_le hT2E hfT2
    have hcw : c.w ≤ f.w := hmin f hfE hcross
    have hfM : f ∉ M := by
      intro hfMm
      obtain ⟨h1, h2⟩ := hM f hfMm
      rcases hcross with ⟨_, h3⟩ | ⟨_, h3⟩
      · exact h3 h2
      · exact h3 h1
    have hcountT2 : Multiset.count c T2 = 0 := Multiset.count_eq_zero.2 hcT2
    refine ⟨c ::ₘ T2.erase f, ?_, ?_, ?_, ?_, ?_⟩
    · -- T3 ≤ E
      rw [Multiset.le_iff_count]
      intro a
      rw [Multiset.count_cons]
      have herle : Multiset.count a (T2.erase f) ≤ Multiset.count a T2 :=
        Multiset.count_le_of_le a (Multiset.erase_le f T2)
      split_ifs with hac
      · subst hac
        have hE1 : 0 < Multiset.count a E := Multiset.count_pos.2 hcE
        omega
      · have := Multiset.count_le_of_le a hT2E
        omega
    · -- cardinality preserved
      rw [Multiset.card_cons, Multiset.card_erase_of_mem hfT2]
      have hpos : 0 < Multiset.card T2 := Multiset.card_pos_iff_exists_mem.2 ⟨f, hfT2⟩
      exact Nat.succ_pred_eq_of_pos hpos
    · -- still spanning
      have hsteps : ∀ e ∈ T2, Reach (c ::ₘ T2.erase f) e.u e.v := by
        intro e heT2
        by_cases hef : e = f
        · subst hef
          obtain ⟨p, q, m1, m2, hmeq, h1, hpq, h2⟩ := ht.split e hfm
          have hsub : m1 + m2 ≤ T2.erase e := add_cons_le_erase (hmeq ▸ hmT2)
          have hsub2 : ∀ g ∈ m1 + m2, g ∈ c ::ₘ T2.erase e := fun g hg =>
            Multiset.mem_cons_of_mem (Multiset.mem_of_le hsub hg)
          have hr1 : Reach (c ::ₘ T2.erase e) p x0 :=
            (h1.reverse.toReach.mono (fun g hg =>
              hsub2 g (Multiset.mem_of_le (Multiset.le_add_right m1 m2) hg)))
          have hr2 : Reach (c ::ₘ T2.erase e) y0 q :=
            ((h2.toReach.mono (fun g hg =>
              hsub2 g (Multiset.mem_of_le (Multiset.le_add_left m2 m1) hg))).symm)
          have hrc0 : Reach (c ::ₘ T2.erase e) c.u c.v :=
            reach_single (Multiset.mem_cons_self c _)
          have hrc : Reach (c ::ₘ T2.erase e) x0 y0 := by
            rcases hxy with ⟨hh1, hh2⟩ | ⟨hh1, hh2⟩
            · exact hh1 ▸ hh2 ▸ hrc0
            · exact hh1 ▸ hh2 ▸ hrc0.symm
          have hrpq : Reach (c ::ₘ T2.erase e) p q := (hr1.trans hrc).trans hr2
          rcases hpq with ⟨hp, hq⟩ | ⟨hq, hp⟩
          · rw [hp, hq]
            exact hrpq
          · rw [hq, hp]
            exact hrpq.symm
        · have heT3 : e ∈ c ::ₘ T2.erase f :=
            Multiset.mem_cons_of_mem ((Multiset.mem_erase_of_ne hef).2 heT2)
          exact reach_single heT3
      intro v hv
      exact reach_of_steps hsteps (hspan v hv)
    · -- weight does not increase
      rw [wsum_cons]
      have := wsum_erase hfT2
      omega
    · -- contains c ::ₘ M
      refine Multiset.cons_le_cons c ?_
      rw [Multiset.le_iff_count]
      intro a
      by_cases haf : a = f
      · subst haf
        rw [Multiset.count_eq_zero.2 hfM]
        omega
      · rw [Multiset.count_erase_of_ne haf]
        exact Multiset.count_le_of_le a hMT2

theorem getD_true_lt {visited : List Bool} {v : Nat}
    (h : visited.getD v false = true) : v < visited.length := by
  by_contra hge
  rw [List.getD_eq_getElem?_getD, List.getElem?_eq_none_iff.2 (by omega)] at h
  simp at h

theorem getD_set_true_mono {visited : List Bool} {u v : Nat}
    (h : visited.getD u false = true) :
    (visited.set v true).getD u false = true := by
  by_cases huv : u = v
  · subst huv
    exact getD_set_self (getD_true_lt h)
  · have h2 : (visited.set v true).getD u false = visited.getD u false :=
      getD_set_ne (Ne.symm huv)
    rw [h2]
    exact h

theorem getD_replicate_false {n i : Nat} :
    (List.replicate n (false : Bool)).getD i false = false := by
  by_cases h : i < n
  · simp [List.getD_eq_getElem?_getD, List.getElem?_replicate, h]
  · have hnone : (List.replicate n (false : Bool))[i]? = none := by
      rw [List.getElem?_eq_none_iff, List.length_replicate]
      omega
    simp [List.getD_eq_getElem?_getD, hnone]

/-- The inner `for (const e of adj[v]) if (!visited[e.to]) heap.push(...)` of
`primMST` (also matching the initial fill, whose guard is vacuous). -/
def primPush (vis : List Bool) (v : Nat) (entries : List AdjEntry) (h : MinHeap) : MinHeap :=
  entries.foldl (fun hp e => if vis.getD e.toV false then hp else hp.push ⟨e.w, v, e.toV⟩) h

theorem primPush_spec (vis : List Bool) (v : Nat) :
    ∀ (entries : List AdjEntry) (h : MinHeap), IsHeap h.data →
      IsHeap (primPush vis v entries h).data ∧
      (primPush vis v entries h).data.length ≤ h.data.length + entries.length ∧
      ∀ it : HeapItem, (it ∈ (primPush vis v entries h).data ↔
        it ∈ h.data ∨ ∃ e ∈ entries, vis.getD e.toV false = false ∧ it = ⟨e.w, v, e.toV⟩) := by
  intro entries
  induction entries with
  | nil =>
    intro h hh
    refine ⟨hh, by simp [primPush], ?_⟩
    intro it
    simp [primPush]
  | cons a entries ih =>
    intro h hh
    by_cases hc : vis.getD a.toV false = true
    · have hfold : primPush vis v (a :: entries) h = primPush vis v entries h := by
        unfold primPush
        rw [List.foldl_cons, if_pos hc]
      rw [hfold]
      obtain ⟨i1, i2, i3⟩ := ih h hh
      refine ⟨i1, by rw [List.length_cons]; omega, ?_⟩
      intro it
      rw [i3 it]
      constructor
      · rintro (hin | ⟨e, he, hcond, heq⟩)
        · exact Or.inl hin
        · exact Or.inr ⟨e, List.mem_cons_of_mem a he, hcond, heq⟩
      · rintro (hin | ⟨e, he, hcond, heq⟩)
        · exact Or.inl hin
        · rcases List.mem_cons.1 he with rfl | he2
          · rw [hcond] at hc
            exact absurd hc (by simp)
          · exact Or.inr ⟨e, he2, hcond, heq⟩
    · have hcF : vis.getD a.toV false = false := by
        cases hb : vis.getD a.toV false
        · rfl
        · exact absurd hb hc
      have hfold : primPush vis v (a :: entries) h =
          primPush vis v entries (h.push ⟨a.w, v, a.toV⟩) := by
        unfold primPush
        rw [List.foldl_cons, if_neg hc]
      rw [hfold]
      obtain ⟨p1, p2, p3⟩ := push_spec hh (⟨a.w, v, a.toV⟩ : HeapItem)
      obtain ⟨i1, i2, i3⟩ := ih (h.push ⟨a.w, v, a.toV⟩) p3
      have hmem : ∀ it : HeapItem, it ∈ (h.push ⟨a.w, v, a.toV⟩).data ↔
          it = ⟨a.w, v, a.toV⟩ ∨ it ∈ h.data := by
        intro it
        rw [← Multiset.mem_coe, p2, Multiset.mem_cons, Multiset.mem_coe]
      refine ⟨i1, by rw [List.length_cons]; omega, ?_⟩
      intro it
      rw [i3 it]
      constructor
      · rintro (hin | ⟨e, he, hcond, heq⟩)
        · rcases (hmem it).1 hin with heq | hin2
          · exact Or.inr ⟨a, List.mem_cons_self a entries, hcF, heq⟩
          · exact Or.inl hin2
        · exact Or.inr ⟨e, List.mem_cons_of_mem a he, hcond, heq⟩
      · rintro (hin | ⟨e, he, hcond, heq⟩)
        · exact Or.inl ((hmem it).2 (Or.inr hin))
        · rcases List.mem_cons.1 he with rfl | he2
          · exact Or.inl ((hmem it).2 (Or.inl heq))
          · exact Or.inr ⟨e, he2, hcond, heq⟩

theorem map_canon_append (edges mst : List Edge) (e0 : Edge) :
    (↑((mst ++ [e0]).map (canon edges)) : Multiset Edge) =
      (canon edges e0) ::ₘ ↑(mst.map (canon edges)) := by
  rw [List.map_append, List.map_singleton]
  exact coe_append_single _ _

theorem wsum_append_single (mst : List Edge) (e0 : Edge) :
    wsum (↑(mst ++ [e0]) : Multiset Edge) = wsum (↑mst : Multiset Edge) + e0.w := by
  rw [coe_append_single, wsum_cons]
  omega

/-- Loop invariant of `primMST`: `visited`/`heap`/`mst`/`total` are mutually
consistent, the chosen edges (canonicalized back to input orientation) form a
tree on the visited set reaching all of it from `start`, every input edge
leaving the visited set has a live heap entry, and the chosen edges extend to
a minimum spanning multiset (the exchange-argument optimality invariant). -/
structure PrimInv (n : Nat) (edges : List Edge) (start : Nat)
    (visited : List Bool) (heap : MinHeap) (mst : List Edge) (total : Nat) : Prop where
  hvlen : visited.length = n
  hstart : visited.getD start false = true
  hheap : IsHeap heap.data
  hitems : ∀ it ∈ heap.data, visited.getD it.u false = true ∧
    ∃ e ∈ edges, e.w = it.w ∧ ((e.u = it.u ∧ e.v = it.v) ∨ (e.v = it.u ∧ e.u = it.v))
  hcover : ∀ e ∈ edges,
    (visited.getD e.u false = true →
      visited.getD e.v false = true ∨ (⟨e.w, e.u, e.v⟩ : HeapItem) ∈ heap.data) ∧
    (visited.getD e.v false = true →
      visited.getD e.u false = true ∨ (⟨e.w, e.v, e.u⟩ : HeapItem) ∈ heap.data)
  hmend : ∀ f ∈ mst, visited.getD f.u false = true ∧ visited.getD f.v false = true
  hcard : (visFin n visited).card = mst.length + 1
  hconn : ∀ v, visited.getD v false = true →
    Reach (↑(mst.map (canon edges)) : Multiset Edge) start v
  htot : total = wsum (↑mst : Multiset Edge)
  hmE : (↑(mst.map (canon edges)) : Multiset Edge) ≤ (↑edges : Multiset Edge)
  hopt : ∀ T : Multiset Edge, T ≤ ↑edges → Multiset.card T = n - 1 → Spans n T →
    ∃ T2 : Multiset Edge, T2 ≤ ↑edges ∧ Multiset.card T2 = n - 1 ∧ Spans n T2 ∧
      wsum T2 ≤ wsum T ∧ (↑(mst.map (canon edges)) : Multiset Edge) ≤ T2

/-- What a successful `primMST` run returns: a spanning tree of the input
graph of minimum total weight. -/
def PrimSuccess (n : Nat) (edges : List Edge) (r : MSTResult) : Prop :=
  r.mst.length = n - 1 ∧
  (↑(r.mst.map (canon edges)) : Multiset Edge) ≤ (↑edges : Multiset Edge) ∧
  EdgeBdd n (↑r.mst : Multiset Edge) ∧
  ¬ HasCycle (↑r.mst : Multiset Edge) ∧
  (∀ x y, x < n → y < n → Reach (↑r.mst : Multiset Edge) x y) ∧
  r.total = wsum (↑r.mst : Multiset Edge) ∧
  ∀ T, IsSpanningTree n (↑edges : Multiset Edge) T → r.total ≤ wsum T

/-- Exit analysis for `primMST`: when the loop guard is false, the post-loop
length check either certifies a minimum spanning tree or correctly reports a
vertex unreachable from `start`. -/
theorem prim_exit_spec {n : Nat} {edges : List Edge} {start : Nat}
    {visited : List Bool} {heap : MinHeap} {mst : List Edge} {total : Nat}
    (hval : ValidEdges n edges) (hn : 0 < n)
    (hinv : PrimInv n edges start visited heap mst total)
    (hguard : ¬ (0 < heap.size ∧ (mst.length : Int) < (n : Int) - 1)) :
    (∃ r, primExit n mst total = Except.ok r ∧ PrimSuccess n edges r) ∨
    (primExit n mst total = Except.error notConnectedMsg ∧
      ∃ v, v < n ∧ ¬ Reach (↑edges : Multiset Edge) start v) := by
  have hSsub : visFin n visited ⊆ Finset.range n :=
    fun x hx => Finset.mem_range.2 (mem_visFin.1 hx).1
  have hcardle : mst.length + 1 ≤ n := by
    have h1 := Finset.card_le_card hSsub
    rw [hinv.hcard, Finset.card_range] at h1
    exact h1
  by_cases hlen : (mst.length : Int) = (n : Int) - 1
  · left
    have hlenN : mst.length = n - 1 := by omega
    refine ⟨⟨mst, total⟩, ?_, ?_⟩
    · unfold primExit
      rw [if_pos hlen]
    · have hall : ∀ v, v < n → visited.getD v false = true := by
        have hcardeq : (visFin n visited).card = n := by
          rw [hinv.hcard]
          omega
        have hSeq : visFin n visited = Finset.range n :=
          Finset.eq_of_subset_of_card_le hSsub (by rw [hcardeq, Finset.card_range])
        intro v hv
        have hvm : v ∈ visFin n visited := by
          rw [hSeq]
          exact Finset.mem_range.2 hv
        exact (mem_visFin.1 hvm).2
      have hreachmst : ∀ v, v < n → Reach (↑mst : Multiset Edge) start v :=
        fun v hv => reach_map_canon.1 (hinv.hconn v (hall v hv))
      have hbdd : EdgeBdd n (↑mst : Multiset Edge) := by
        intro f hf
        obtain ⟨h1, h2⟩ := hinv.hmend f (Multiset.mem_coe.1 hf)
        have hv := hinv.hvlen
        constructor
        · have := getD_true_lt h1
          omega
        · have := getD_true_lt h2
          omega
      have hxy : ∀ x y, x < n → y < n → Reach (↑mst : Multiset Edge) x y :=
        fun x y hx hy => (hreachmst x hx).symm.trans (hreachmst y hy)
      have hcardmst : Multiset.card (↑mst : Multiset Edge) = n - 1 := by
        rw [Multiset.coe_card, hlenN]
      have hspansmst : Spans n (↑mst : Multiset Edge) := fun v hv => hxy 0 v hn hv
      have hcardM : Multiset.card (↑(mst.map (canon edges)) : Multiset Edge) = n - 1 := by
        rw [Multiset.coe_card, List.length_map, hlenN]
      refine ⟨hlenN, hinv.hmE, hbdd, spanning_no_cycle hn hbdd hcardmst hspansmst, hxy, hinv.htot, ?_⟩
      intro T hT
      obtain ⟨T2, hT2E, hT2c, hT2s, hT2w, hMT2⟩ := hinv.hopt T hT.1 hT.2.1 hT.2.2
      have hT2eq : (↑(mst.map (canon edges)) : Multiset Edge) = T2 :=
        Multiset.eq_of_le_of_card_le hMT2 (by rw [hT2c, hcardM])
      have hw2 : wsum T2 = wsum (↑mst : Multiset Edge) := by
        rw [← hT2eq, wsum_map_canon]
      rw [hinv.htot, ← hw2]
      exact hT2w
  · right
    constructor
    · unfold primExit
      rw [if_neg hlen]
    · have hheapnil : heap.data = [] := by
        rcases Decidable.not_and_iff_or_not.1 hguard with h | h
        · have : heap.size = 0 := by omega
          exact List.length_eq_zero.1 this
        · exact absurd (by omega : (mst.length : Int) = (n : Int) - 1) hlen
      have hlt : mst.length + 1 < n := by omega
      have hclosed : ∀ e ∈ edges,
          (visited.getD e.u false = true ↔ visited.getD e.v false = true) := by
        intro e he
        obtain ⟨h1, h2⟩ := hinv.hcover e he
        constructor
        · intro h
          rcases h1 h with h | h
          · exact h
          · rw [hheapnil] at h
            simp at h
        · intro h
          rcases h2 h with h | h
          · exact h
          · rw [hheapnil] at h
            simp at h
      have hne : visFin n visited ≠ Finset.range n := by
        intro heq
        have h1 := congrArg Finset.card heq
        rw [hinv.hcard, Finset.card_range] at h1
        omega
      obtain ⟨v0, hv0r, hv0n⟩ :=
        Finset.exists_of_ssubset (Finset.ssubset_iff_subset_ne.2 ⟨hSsub, hne⟩)
      have hv0lt : v0 < n := Finset.mem_range.1 hv0r
      have hkey : ∀ b, Reach (↑edges : Multiset Edge) start b →
          visited.getD b false = true := by
        intro b hb
        induction hb with
        | refl => exact hinv.hstart
        | @tail p q hsp hstep ih =>
          obtain ⟨e, he, hor⟩ := hstep
          have hcl := hclosed e (Multiset.mem_coe.1 he)
          rcases hor with ⟨h1, h2⟩ | ⟨h1, h2⟩
          · exact h2 ▸ (hcl.1 (h1 ▸ ih))
          · exact h1 ▸ (hcl.2 (h2 ▸ ih))
      refine ⟨v0, hv0lt, fun hr => ?_⟩
      exact hv0n (mem_visFin.2 ⟨hv0lt, hkey v0 hr⟩)

theorem primLoop_succ (n : Nat) (adj : List (List AdjEntry)) (fuel : Nat)
    (visited : List Bool) (heap : MinHeap) (mst : List Edge) (total : Nat) :
    primLoop n adj (fuel + 1) visited heap mst total =
      if 0 < heap.size ∧ (mst.length : Int) < (n : Int) - 1 then
        match heap.pop with
        | (none, _) => primExit n mst total
        | (some it, h') =>
          if visited.getD it.v false then
            primLoop n adj fuel visited h' mst total
          else
            let visited' := visited.set it.v true
            let heap'' := (adj.getD it.v []).foldl
              (fun hp e => if visited'.getD e.toV false then hp else hp.push ⟨e.w, it.v, e.toV⟩) h'
            primLoop n adj fuel visited' heap'' (mst ++ [⟨it.u, it.v, it.w⟩]) (total + it.w)
      else primExit n mst total := rfl

/-- Master lemma for the `primMST` loop: under the invariant and with fuel at
least the loop measure, the loop either returns a minimum spanning tree or
reports a vertex unreachable from `start`. -/
theorem primLoop_spec {n : Nat} {edges : List Edge} {adj : List (List AdjEntry)} {start : Nat}
    (hval : ValidEdges n edges) (hadj : AdjOk n edges adj)
    (hn : 0 < n) :
    ∀ (fuel : Nat) (visited : List Bool) (heap : MinHeap) (mst : List Edge) (total : Nat),
      heap.data.length + sumUnvisited visited adj + 1 ≤ fuel →
      PrimInv n edges start visited heap mst total →
      (∃ r, primLoop n adj fuel visited heap mst total = Except.ok r ∧ PrimSuccess n edges r) ∨
      (primLoop n adj fuel visited heap mst total = Except.error notConnectedMsg ∧
        ∃ v, v < n ∧ ¬ Reach (↑edges : Multiset Edge) start v) := by
  intro fuel
  induction fuel with
  | zero =>
    intro visited heap mst total hfuel hinv
    exact absurd hfuel (by omega)
  | succ fuel ih =>
    intro visited heap mst total hfuel hinv
    by_cases hg : 0 < heap.size ∧ (mst.length : Int) < (n : Int) - 1
    · -- loop body runs
      have hne : heap.data ≠ [] := by
        intro h0
        have hpos : 0 < heap.data.length := hg.1
        rw [h0] at hpos
        simp at hpos
      obtain ⟨top, h2, hpop, htop, hh2, hm2, hl2⟩ := pop_spec hinv.hheap hne
      have hitmem : top ∈ heap.data := by
        rw [← Multiset.mem_coe, hm2]
        exact Multiset.mem_cons_self _ _
      obtain ⟨htopu, e0, he0, he0w, he0or⟩ := hinv.hitems top hitmem
      obtain ⟨hb1, hb2, hb3⟩ := hval e0 he0
      have htopun : top.u < n := by
        rcases he0or with ⟨ha, hb⟩ | ⟨ha, hb⟩ <;> omega
      have htopvn : top.v < n := by
        rcases he0or with ⟨ha, hb⟩ | ⟨ha, hb⟩ <;> omega
      by_cases hvis : visited.getD top.v false = true
      · -- stale entry: skip
        have hstep : primLoop n adj (fuel + 1) visited heap mst total =
            primLoop n adj fuel visited h2 mst total := by
          rw [primLoop_succ, if_pos hg, hpop]
          exact if_pos hvis
        rw [hstep]
        refine ih visited h2 mst total ?_ ?_
        · have hpos : 0 < heap.data.length := hg.1
          omega
        · refine ⟨hinv.hvlen, hinv.hstart, hh2, ?_, ?_, hinv.hmend, hinv.hcard,
            hinv.hconn, hinv.htot, hinv.hmE, hinv.hopt⟩
          · intro x hx
            have hx2 : x ∈ heap.data := by
              rw [← Multiset.mem_coe, hm2]
              exact Multiset.mem_cons_of_mem (Multiset.mem_coe.2 hx)
            exact hinv.hitems x hx2
          · intro e he
            obtain ⟨hc1, hc2⟩ := hinv.hcover e he
            have hsplit : ∀ it : HeapItem, it ∈ heap.data → it = top ∨ it ∈ h2.data := by
              intro it hit
              have hin : it ∈ (↑heap.data : Multiset HeapItem) := Multiset.mem_coe.2 hit
              rw [hm2, Multiset.mem_cons] at hin
              rcases hin with h | h
              · exact Or.inl h
              · exact Or.inr (Multiset.mem_coe.1 h)
            constructor
            · intro hPu
              rcases hc1 hPu with h | h
              · exact Or.inl h
              · rcases hsplit _ h with heq | hin
                · left
                  have hev : e.v = top.v := congrArg HeapItem.v heq
                  rw [hev]
                  exact hvis
                · exact Or.inr hin
            · intro hPv
              rcases hc2 hPv with h | h
              · exact Or.inl h
              · rcases hsplit _ h with heq | hin
                · left
                  have heu : e.u = top.v := congrArg HeapItem.v heq
                  rw [heu]
                  exact hvis
                · exact Or.inr hin
      · -- fresh vertex: accept the edge
        have hvisF : visited.getD top.v false = false := by
          cases hb : visited.getD top.v false
          · rfl
          · exact absurd hb hvis
        have htopvlen : top.v < visited.length := by
          rw [hinv.hvlen]
          exact htopvn
        set visited2 := visited.set top.v true with hvisited2
        set heap3 := primPush visited2 top.v (adj.getD top.v []) h2 with hheap3
        set mst2 := mst ++ [(⟨top.u, top.v, top.w⟩ : Edge)] with hmst2
        set c0 := canon edges (⟨top.u, top.v, top.w⟩ : Edge) with hc0
        have hstep : primLoop n adj (fuel + 1) visited heap mst total =
            primLoop n adj fuel visited2 heap3 mst2 (total + top.w) := by
          rw [primLoop_succ, if_pos hg, hpop]
          exact if_neg hvis
        rw [hstep]
        obtain ⟨hH3, hlen3, hmem3⟩ := primPush_spec visited2 top.v (adj.getD top.v []) h2 hh2
        have hstartvis2 : visited2.getD start false = true := getD_set_true_mono hinv.hstart
        have hvset : ∀ u, visited2.getD u false = true ↔
            (u = top.v ∨ visited.getD u false = true) := by
          intro u
          constructor
          · intro h
            by_cases huv : u = top.v
            · exact Or.inl huv
            · right
              have heqv : visited2.getD u false = visited.getD u false :=
                getD_set_ne (Ne.symm huv)
              rw [← heqv]
              exact h
          · intro h
            rcases h with rfl | h
            · exact getD_set_self htopvlen
            · exact getD_set_true_mono h
        have hcmem : c0 ∈ edges := canon_mem ⟨e0, he0, he0w, he0or⟩
        have hcor2 : (c0.u = top.u ∧ c0.v = top.v) ∨ (c0.u = top.v ∧ c0.v = top.u) :=
          canon_or edges (⟨top.u, top.v, top.w⟩ : Edge)
        have hcw : c0.w = top.w := canon_w edges (⟨top.u, top.v, top.w⟩ : Edge)
        have hmapeq : (↑(mst2.map (canon edges)) : Multiset Edge) =
            c0 ::ₘ ↑(mst.map (canon edges)) := map_canon_append edges mst _
        have hcnotM : c0 ∉ (↑(mst.map (canon edges)) : Multiset Edge) := by
          intro hcm
          rw [Multiset.mem_coe, List.mem_map] at hcm
          obtain ⟨f, hfmst, hfc⟩ := hcm
          obtain ⟨hfu, hfv⟩ := hinv.hmend f hfmst
          have hforc : (c0.u = f.u ∧ c0.v = f.v) ∨ (c0.u = f.v ∧ c0.v = f.u) := by
            have h := canon_or edges f
            rw [hfc] at h
            exact h
          rcases hcor2 with ⟨h1, h2⟩ | ⟨h1, h2⟩ <;> rcases hforc with ⟨h3, h4⟩ | ⟨h3, h4⟩
          · have hfvt : f.v = top.v := by omega
            rw [hfvt, hvisF] at hfv
            exact Bool.false_ne_true hfv
          · have hfut : f.u = top.v := by omega
            rw [hfut, hvisF] at hfu
            exact Bool.false_ne_true hfu
          · have hfut : f.u = top.v := by omega
            rw [hfut, hvisF] at hfu
            exact Bool.false_ne_true hfu
          · have hfvt : f.v = top.v := by omega
            rw [hfvt, hvisF] at hfv
            exact Bool.false_ne_true hfv
        have hmend2 : ∀ f ∈ mst2, visited2.getD f.u false = true ∧
            visited2.getD f.v false = true := by
          intro f hf
          rcases List.mem_append.1 hf with hf | hf
          · obtain ⟨ha, hb⟩ := hinv.hmend f hf
            exact ⟨getD_set_true_mono ha, getD_set_true_mono hb⟩
          · rw [List.mem_singleton] at hf
            subst hf
            exact ⟨getD_set_true_mono htopu, getD_set_self htopvlen⟩
        have htopvnotvis : top.v ∉ visFin n visited := by
          intro hm
          rw [mem_visFin] at hm
          rw [hvisF] at hm
          exact Bool.false_ne_true hm.2
        have hvisfin2 : visFin n visited2 = insert top.v (visFin n visited) := by
          rw [hvisited2, visFin_set_true htopvlen, if_pos htopvn]
        have hcard2 : (visFin n visited2).card = mst2.length + 1 := by
          rw [hvisfin2, Finset.card_insert_of_not_mem htopvnotvis, hinv.hcard,
            hmst2, List.length_append]
          simp
        have hMle : (↑(mst.map (canon edges)) : Multiset Edge) ≤
            ↑(mst2.map (canon edges)) := by
          rw [hmapeq]
          exact Multiset.le_cons_self _ _
        have hconn2 : ∀ v, visited2.getD v false = true →
            Reach (↑(mst2.map (canon edges)) : Multiset Edge) start v := by
          intro v hv
          rcases (hvset v).1 hv with rfl | hv2
          · have h1 : Reach (↑(mst2.map (canon edges)) : Multiset Edge) start top.u :=
              (hinv.hconn top.u htopu).mono_le hMle
            refine h1.tail ⟨c0, ?_, ?_⟩
            · rw [hmapeq]
              exact Multiset.mem_cons_self _ _
            · rcases hcor2 with ⟨h1', h2'⟩ | ⟨h1', h2'⟩
              · exact Or.inl ⟨h1', h2'⟩
              · exact Or.inr ⟨h1', h2'⟩
          · exact (hinv.hconn v hv2).mono_le hMle
        have htot2 : total + top.w = wsum (↑mst2 : Multiset Edge) := by
          rw [hmst2, wsum_append_single, ← hinv.htot]
        have hmE2 : (↑(mst2.map (canon edges)) : Multiset Edge) ≤ ↑edges := by
          rw [hmapeq]
          refine cons_le_of_count hinv.hmE ?_
          rw [Multiset.count_eq_zero.2 hcnotM]
          exact Multiset.count_pos.2 (Multiset.mem_coe.2 hcmem)
        have hitems2 : ∀ it ∈ heap3.data, visited2.getD it.u false = true ∧
            ∃ e ∈ edges, e.w = it.w ∧
              ((e.u = it.u ∧ e.v = it.v) ∨ (e.v = it.u ∧ e.u = it.v)) := by
          intro it hit
          rcases (hmem3 it).1 hit with hin | ⟨a, ha, hcond, rfl⟩
          · have hin0 : it ∈ heap.data := by
              rw [← Multiset.mem_coe, hm2]
              exact Multiset.mem_cons_of_mem (Multiset.mem_coe.2 hin)
            obtain ⟨hva, hrest⟩ := hinv.hitems it hin0
            exact ⟨getD_set_true_mono hva, hrest⟩
          · obtain ⟨hlt, e, he, hw, hor⟩ := hadj.sound top.v htopvn a ha
            exact ⟨getD_set_self htopvlen, e, he, hw, hor⟩
        have hcover2 : ∀ e ∈ edges,
            (visited2.getD e.u false = true →
              visited2.getD e.v false = true ∨ (⟨e.w, e.u, e.v⟩ : HeapItem) ∈ heap3.data) ∧
            (visited2.getD e.v false = true →
              visited2.getD e.u false = true ∨ (⟨e.w, e.v, e.u⟩ : HeapItem) ∈ heap3.data) := by
          intro e he
          obtain ⟨hc1, hc2⟩ := hinv.hcover e he
          obtain ⟨hcompl1, hcompl2⟩ := hadj.complete e he
          have key : ∀ x y : Nat, (⟨y, e.w⟩ : AdjEntry) ∈ adj.getD x [] →
              (visited.getD x false = true →
                visited.getD y false = true ∨ (⟨e.w, x, y⟩ : HeapItem) ∈ heap.data) →
              visited2.getD x false = true →
              visited2.getD y false = true ∨ (⟨e.w, x, y⟩ : HeapItem) ∈ heap3.data := by
            intro x y hadjxy hcold hx2
            by_cases hy2 : visited2.getD y false = true
            · exact Or.inl hy2
            · right
              have hyF : visited2.getD y false = false := by
                cases hb : visited2.getD y false
                · rfl
                · exact absurd hb hy2
              rcases (hvset x).1 hx2 with rfl | hxold
              · exact (hmem3 _).2 (Or.inr ⟨⟨y, e.w⟩, hadjxy, hyF, rfl⟩)
              · rcases hcold hxold with hyold | hitem
                · exact absurd (getD_set_true_mono hyold) hy2
                · have hsplit : (⟨e.w, x, y⟩ : HeapItem) = top ∨
                      (⟨e.w, x, y⟩ : HeapItem) ∈ h2.data := by
                    have hin : (⟨e.w, x, y⟩ : HeapItem) ∈ (↑heap.data : Multiset HeapItem) :=
                      Multiset.mem_coe.2 hitem
                    rw [hm2, Multiset.mem_cons] at hin
                    rcases hin with h | h
                    · exact Or.inl h
                    · exact Or.inr (Multiset.mem_coe.1 h)
                  rcases hsplit with heq | hin2
                  · have hyv : y = top.v := congrArg HeapItem.v heq
                    refine absurd ?_ hy2
                    rw [hyv]
                    exact getD_set_self htopvlen
                  · exact (hmem3 _).2 (Or.inl hin2)
          exact ⟨key e.u e.v hcompl1 hc1, key e.v e.u hcompl2 hc2⟩
        have hopt2 : ∀ T : Multiset Edge, T ≤ ↑edges → Multiset.card T = n - 1 →
            Spans n T →
            ∃ T2, T2 ≤ (↑edges : Multiset Edge) ∧ Multiset.card T2 = n - 1 ∧ Spans n T2 ∧
              wsum T2 ≤ wsum T ∧ (↑(mst2.map (canon edges)) : Multiset Edge) ≤ T2 := by
          intro T hTE hTc hTs
          obtain ⟨T2, hT2E, hT2c, hT2s, hT2w, hMT2⟩ := hinv.hopt T hTE hTc hTs
          have hcross0 : ((visited.getD c0.u false = true) ∧
              ¬ (visited.getD c0.v false = true)) ∨
              ((visited.getD c0.v false = true) ∧
              ¬ (visited.getD c0.u false = true)) := by
            rcases hcor2 with ⟨h1, h2⟩ | ⟨h1, h2⟩
            · left
              rw [h1, h2]
              refine ⟨htopu, ?_⟩
              rw [hvisF]
              simp
            · right
              rw [h1, h2]
              refine ⟨htopu, ?_⟩
              rw [hvisF]
              simp
          have hcun : c0.u < n := by
            rcases hcor2 with ⟨h1, _⟩ | ⟨h1, _⟩ <;> omega
          have hcvn : c0.v < n := by
            rcases hcor2 with ⟨_, h2⟩ | ⟨_, h2⟩ <;> omega
          have hMvis : ∀ g ∈ (↑(mst.map (canon edges)) : Multiset Edge),
              (visited.getD g.u false = true) ∧ (visited.getD g.v false = true) := by
            intro g hgm
            rw [Multiset.mem_coe, List.mem_map] at hgm
            obtain ⟨f, hfm, rfl⟩ := hgm
            obtain ⟨ha, hb⟩ := hinv.hmend f hfm
            rcases canon_or edges f with ⟨h1, h2⟩ | ⟨h1, h2⟩ <;> rw [h1, h2]
            · exact ⟨ha, hb⟩
            · exact ⟨hb, ha⟩
          have hmin : ∀ g ∈ (↑edges : Multiset Edge),
              ((visited.getD g.u false = true) ∧ ¬ (visited.getD g.v false = true)) ∨
              ((visited.getD g.v false = true) ∧ ¬ (visited.getD g.u false = true)) →
              c0.w ≤ g.w := by
            intro g hgE hgcross
            have hitem : (⟨g.w, g.u, g.v⟩ : HeapItem) ∈ heap.data ∨
                (⟨g.w, g.v, g.u⟩ : HeapItem) ∈ heap.data := by
              obtain ⟨hcg1, hcg2⟩ := hinv.hcover g (Multiset.mem_coe.1 hgE)
              rcases hgcross with ⟨hP1, hP2⟩ | ⟨hP1, hP2⟩
              · rcases hcg1 hP1 with h | h
                · exact absurd h hP2
                · exact Or.inl h
              · rcases hcg2 hP1 with h | h
                · exact absurd h hP2
                · exact Or.inr h
            have htopmin : ∀ x : HeapItem, x ∈ heap.data → top.w ≤ x.w := by
              intro x hx
              have h1 := isHeap_min_mem hinv.hheap hx
              rw [← htop] at h1
              exact h1
            rw [hcw]
            rcases hitem with h | h
            · exact htopmin _ h
            · exact htopmin _ h
          obtain ⟨T3, hT3E, hT3c, hT3s, hT3w, hT3M⟩ :=
            prim_swap (fun x => visited.getD x false = true) c0 (Multiset.mem_coe.2 hcmem)
              hcross0 hcun hcvn hMvis hmin hMT2 hT2E hT2s
          refine ⟨T3, hT3E, by rw [hT3c, hT2c], hT3s, le_trans hT3w hT2w, ?_⟩
          rw [hmapeq]
          exact hT3M
        have hfuel2 : heap3.data.length + sumUnvisited visited2 adj + 1 ≤ fuel := by
          have hadjlen : top.v < adj.length := by
            rw [hadj.hlen]
            exact htopvn
          have hsum := sumUnvisited_set hadjlen htopvlen hvisF
          rw [← hvisited2] at hsum
          have hlen3b := hlen3
          rw [← hheap3] at hlen3b
          have hpos : 0 < heap.data.length := hg.1
          omega
        refine ih visited2 heap3 mst2 (total + top.w) hfuel2 ?_
        refine ⟨?_, hstartvis2, hH3, hitems2, hcover2, hmend2, hcard2, hconn2,
          htot2, hmE2, hopt2⟩
        rw [hvisited2, List.length_set]
        exact hinv.hvlen
    · -- loop guard false: exit
      have hstep : primLoop n adj (fuel + 1) visited heap mst total =
          primExit n mst total := by
        rw [primLoop_succ]
        exact if_neg hg
      rw [hstep]
      exact prim_exit_spec hval hn hinv hg

/-- Top-level correctness of `primMST`: on validated input it either returns
a minimum spanning tree or reports the graph disconnected from `start`. -/
theorem primMST_main {n : Nat} (edges : List Edge) (adj : List (List AdjEntry)) (start : Nat)
    (hval : ValidEdges n edges) (hadj : AdjOk n edges adj)
    (hn : 0 < n) (hstartn : start < n) :
    (∃ r, primMST n adj start = Except.ok r ∧ PrimSuccess n edges r) ∨
    (primMST n adj start = Except.error notConnectedMsg ∧
      ∃ v, v < n ∧ ¬ Reach (↑edges : Multiset Edge) start v) := by
  set visited0 := (List.replicate n false).set start true with hv0
  set heap0 := (adj.getD start []).foldl
    (fun hp e => hp.push ⟨e.w, start, e.toV⟩) (⟨[]⟩ : MinHeap) with hh0
  have hdef : primMST n adj start =
      primLoop n adj (heap0.size + (adj.map List.length).sum + 1) visited0 heap0 [] 0 := rfl
  have hE : IsHeap (⟨[]⟩ : MinHeap).data := by
    intro j hj hjl
    simp at hjl
  have hfold : ((adj.getD start []).map
      (fun e => (⟨e.w, start, e.toV⟩ : HeapItem))).foldl MinHeap.push (⟨[]⟩ : MinHeap) =
      heap0 := by
    rw [List.foldl_map]
  obtain ⟨hH0, hC0⟩ := foldl_push_spec
    ((adj.getD start []).map (fun e => (⟨e.w, start, e.toV⟩ : HeapItem))) ⟨[]⟩ hE
  rw [hfold] at hH0 hC0
  have hC0b : (↑heap0.data : Multiset HeapItem) =
      ↑((adj.getD start []).map (fun e => (⟨e.w, start, e.toV⟩ : HeapItem))) := by
    simpa using hC0
  have hmem0 : ∀ it : HeapItem, it ∈ heap0.data ↔
      it ∈ (adj.getD start []).map (fun e => (⟨e.w, start, e.toV⟩ : HeapItem)) := by
    intro it
    rw [← Multiset.mem_coe, hC0b, Multiset.mem_coe]
  have hvchar : ∀ u, visited0.getD u false = true ↔ u = start := by
    intro u
    constructor
    · intro h
      by_contra hne
      have heq2 : visited0.getD u false = (List.replicate n false).getD u false := by
        rw [hv0]
        exact getD_set_ne (Ne.symm hne)
      rw [heq2, getD_replicate_false] at h
      exact Bool.false_ne_true h
    · intro h
      subst h
      rw [hv0]
      refine getD_set_self ?_
      rw [List.length_replicate]
      exact hstartn
  have hvf0 : visFin n visited0 = {start} := by
    ext x
    rw [mem_visFin, Finset.mem_singleton]
    constructor
    · intro h
      exact (hvchar x).1 h.2
    · intro h
      subst h
      exact ⟨hstartn, (hvchar x).2 rfl⟩
  have hinv0 : PrimInv n edges start visited0 heap0 [] 0 := by
    refine ⟨?_, (hvchar start).2 rfl, hH0, ?_, ?_, ?_, ?_, ?_, rfl, ?_, ?_⟩
    · rw [hv0, List.length_set, List.length_replicate]
    · intro it hit
      rw [hmem0] at hit
      rw [List.mem_map] at hit
      obtain ⟨a, ha, rfl⟩ := hit
      refine ⟨(hvchar start).2 rfl, ?_⟩
      obtain ⟨hlt, e, he, hw, hor⟩ := hadj.sound start hstartn a ha
      exact ⟨e, he, hw, hor⟩
    · intro e he
      obtain ⟨hcompl1, hcompl2⟩ := hadj.complete e he
      constructor
      · intro hPu
        have heu : e.u = start := (hvchar e.u).1 hPu
        right
        rw [hmem0, List.mem_map]
        refine ⟨⟨e.v, e.w⟩, ?_, ?_⟩
        · rw [← heu]
          exact hcompl1
        · rw [heu]
      · intro hPv
        have hev : e.v = start := (hvchar e.v).1 hPv
        right
        rw [hmem0, List.mem_map]
        refine ⟨⟨e.u, e.w⟩, ?_, ?_⟩
        · rw [← hev]
          exact hcompl2
        · rw [hev]
    · intro f hf
      exact absurd hf (List.not_mem_nil f)
    · rw [hvf0]
      simp
    · intro v hv
      have hveq : v = start := (hvchar v).1 hv
      rw [hveq]
      exact Relation.ReflTransGen.refl
    · exact Multiset.zero_le _
    · intro T h1 h2 h3
      exact ⟨T, h1, h2, h3, le_refl _, Multiset.zero_le T⟩
  have hfuel : heap0.data.length + sumUnvisited visited0 adj + 1 ≤
      heap0.size + (adj.map List.length).sum + 1 := by
    have hle := sumUnvisited_le visited0 adj
    have hsz : heap0.size = heap0.data.length := rfl
    omega
  rw [hdef]
  exact primLoop_spec hval hadj hn _ visited0 heap0 [] 0 hfuel hinv0

instance validEdgesDecidable (n : Nat) (edges : List Edge) :
    Decidable (ValidEdges n edges) :=
  inferInstanceAs (Decidable (∀ e ∈ edges, e.u < n ∧ e.v < n ∧ e.u ≠ e.v))

/-! ## The claims -/

/-- Claim C1: for every `n > 0` and valid edge list that connects all `n`
vertices, `kruskalMST` returns exactly `n - 1` edges forming a spanning tree
whose total weight is minimum among all spanning trees of the graph. -/
theorem kruskal_returns_mst {n : Nat} {edges : List Edge} (hn : 0 < n)
    (hval : ValidEdges n edges)
    (hconn : ∀ v, v < n → Reach (↑edges : Multiset Edge) 0 v) :
    ∃ r, kruskalMST n edges = Except.ok r ∧ r.mst.length = n - 1 ∧
      r.total = wsum (↑r.mst : Multiset Edge) ∧
      IsSpanningTree n (↑edges : Multiset Edge) (↑r.mst) ∧
      (∀ T, IsSpanningTree n (↑edges : Multiset Edge) T → r.total ≤ wsum T) := by
  have hval2 : ∀ e ∈ edges, e.u < n ∧ e.v < n :=
    fun e he => ⟨(hval e he).1, (hval e he).2.1⟩
  rcases kruskalMST_main hn hval2 with
    ⟨r, hok, hlen, hsub, hnc, hxy, htot, hopt⟩ | ⟨herr, hncn⟩
  · refine ⟨r, hok, hlen, htot, ⟨hsub, ?_, ?_⟩, hopt⟩
    · rw [Multiset.coe_card]
      exact hlen
    · exact fun v hv => hxy 0 v hn hv
  · exact absurd hconn hncn

theorem kruskal_returns_mst_witness :
    (0 < 2 ∧ ValidEdges 2 [⟨0, 1, 5⟩]) ∧
    ∃ r, kruskalMST 2 [⟨0, 1, 5⟩] = Except.ok r ∧ r.mst.length = 2 - 1 ∧
      r.total = wsum (↑r.mst : Multiset Edge) ∧
      IsSpanningTree 2 (↑([⟨0, 1, 5⟩] : List Edge) : Multiset Edge) (↑r.mst) ∧
      (∀ T, IsSpanningTree 2 (↑([⟨0, 1, 5⟩] : List Edge) : Multiset Edge) T →
        r.total ≤ wsum T) :=
  ⟨⟨by decide, by decide⟩,
    kruskal_returns_mst (by decide) (by decide) (by
      intro v hv
      interval_cases v
      · exact Relation.ReflTransGen.refl
      · exact Relation.ReflTransGen.single
          ⟨⟨0, 1, 5⟩, by decide, Or.inl ⟨rfl, rfl⟩⟩)⟩

/-- Claim C2: on every connected valid input, both `kruskalMST` and `primMST`
(from any valid start vertex, over the built adjacency) return exactly `n - 1`
edges forming a spanning tree: no cycle, and every vertex reachable using
only the selected edges. -/
theorem both_return_spanning_tree {n : Nat} {edges : List Edge} {start : Nat}
    (hn : 0 < n) (hval : ValidEdges n edges) (hstart : start < n)
    (hconn : ∀ v, v < n → Reach (↑edges : Multiset Edge) 0 v) :
    (∃ r, kruskalMST n edges = Except.ok r ∧ r.mst.length = n - 1 ∧
      ¬ HasCycle (↑r.mst : Multiset Edge) ∧
      ∀ v, v < n → Reach (↑r.mst : Multiset Edge) 0 v) ∧
    (∃ r, primMST n (buildAdj n edges) start = Except.ok r ∧ r.mst.length = n - 1 ∧
      ¬ HasCycle (↑r.mst : Multiset Edge) ∧
      ∀ v, v < n → Reach (↑r.mst : Multiset Edge) 0 v) := by
  constructor
  · rcases kruskalMST_main hn (fun e he => ⟨(hval e he).1, (hval e he).2.1⟩) with
      ⟨r, hok, hlen, hsub, hnc, hxy, htot, hopt⟩ | ⟨herr, hncn⟩
    · exact ⟨r, hok, hlen, hnc, fun v hv => hxy 0 v hn hv⟩
    · exact absurd hconn hncn
  · have hadj := buildAdj_adjOk edges hval
    rcases primMST_main edges (buildAdj n edges) start hval hadj hn hstart with
      ⟨r, hok, hps⟩ | ⟨herr, v, hv, hnr⟩
    · obtain ⟨hlen, hsubC, hbdd, hnc, hxy, htot, hopt⟩ := hps
      exact ⟨r, hok, hlen, hnc, fun v hv => hxy 0 v hn hv⟩
    · exact absurd ((hconn start hstart).symm.trans (hconn v hv)) hnr

theorem both_return_spanning_tree_witness :
    (0 < 2 ∧ ValidEdges 2 [⟨0, 1, 5⟩] ∧ 1 < 2) ∧
    ((∃ r, kruskalMST 2 [⟨0, 1, 5⟩] = Except.ok r ∧ r.mst.length = 2 - 1 ∧
      ¬ HasCycle (↑r.mst : Multiset Edge) ∧
      ∀ v, v < 2 → Reach (↑r.mst : Multiset Edge) 0 v) ∧
    (∃ r, primMST 2 (buildAdj 2 [⟨0, 1, 5⟩]) 1 = Except.ok r ∧ r.mst.length = 2 - 1 ∧
      ¬ HasCycle (↑r.mst : Multiset Edge) ∧
      ∀ v, v < 2 → Reach (↑r.mst : Multiset Edge) 0 v)) :=
  ⟨⟨by decide, by decide, by decide⟩,
    both_return_spanning_tree (by decide) (by decide) (by decide) (by
      intro v hv
      interval_cases v
      · exact Relation.ReflTransGen.refl
      · exact Relation.ReflTransGen.single
          ⟨⟨0, 1, 5⟩, by decide, Or.inl ⟨rfl, rfl⟩⟩)⟩

/-- Claim C3: on every connected valid input and for every valid start
vertex, `kruskalMST` and `primMST` (over the built adjacency) both succeed
and return the same total weight. -/
theorem totals_agree {n : Nat} {edges : List Edge} {start : Nat}
    (hn : 0 < n) (hval : ValidEdges n edges) (hstart : start < n)
    (hconn : ∀ v, v < n → Reach (↑edges : Multiset Edge) 0 v) :
    ∃ rk rp, kruskalMST n edges = Except.ok rk ∧
      primMST n (buildAdj n edges) start = Except.ok rp ∧ rk.total = rp.total := by
  rcases kruskalMST_main hn (fun e he => ⟨(hval e he).1, (hval e he).2.1⟩) with
    ⟨rk, hokk, hlenk, hsubk, hnck, hxyk, htotk, hoptk⟩ | ⟨herr, hncn⟩
  · have hadj := buildAdj_adjOk edges hval
    rcases primMST_main edges (buildAdj n edges) start hval hadj hn hstart with
      ⟨rp, hokp, hps⟩ | ⟨herr, v, hv, hnr⟩
    · obtain ⟨hlenp, hsubp, hbddp, hncp, hxyp, htotp, hoptp⟩ := hps
      have hTk : IsSpanningTree n (↑edges : Multiset Edge) (↑rk.mst) := by
        refine ⟨hsubk, ?_, fun v hv => hxyk 0 v hn hv⟩
        rw [Multiset.coe_card]
        exact hlenk
      have hTp : IsSpanningTree n (↑edges : Multiset Edge)
          (↑(rp.mst.map (canon edges))) := by
        refine ⟨hsubp, ?_, fun v hv => reach_map_canon.2 (hxyp 0 v hn hv)⟩
        rw [Multiset.coe_card, List.length_map]
        exact hlenp
      have h1 : rk.total ≤ wsum (↑(rp.mst.map (canon edges)) : Multiset Edge) :=
        hoptk _ hTp
      have h2 : rp.total ≤ wsum (↑rk.mst : Multiset Edge) := hoptp _ hTk
      rw [wsum_map_canon] at h1
      refine ⟨rk, rp, hokk, hokp, ?_⟩
      omega
    · exact absurd ((hconn start hstart).symm.trans (hconn v hv)) hnr
  · exact absurd hconn hncn

theorem totals_agree_witness :
    (0 < 2 ∧ ValidEdges 2 [⟨0, 1, 5⟩] ∧ 1 < 2) ∧
    ∃ rk rp, kruskalMST 2 [⟨0, 1, 5⟩] = Except.ok rk ∧
      primMST 2 (buildAdj 2 [⟨0, 1, 5⟩]) 1 = Except.ok rp ∧ rk.total = rp.total :=
  ⟨⟨by decide, by decide, by decide⟩,
    totals_agree (by decide) (by decide) (by decide) (by
      intro v hv
      interval_cases v
      · exact Relation.ReflTransGen.refl
      · exact Relation.ReflTransGen.single
          ⟨⟨0, 1, 5⟩, by decide, Or.inl ⟨rfl, rfl⟩⟩)⟩

/-- Claim C4: each algorithm raises the disconnected-graph error exactly when
its reachable component misses a vertex (Kruskal from vertex `0`, Prim from
`start`), and on connected inputs neither raises; in particular `n = 4`,
`edges = [(0,1,5)]` makes both fail (see the witness). -/
theorem error_iff_disconnected {n : Nat} {edges : List Edge} {start : Nat}
    (hn : 0 < n) (hval : ValidEdges n edges) (hstart : start < n) :
    (kruskalMST n edges = Except.error notConnectedMsg ↔
      ¬ ∀ v, v < n → Reach (↑edges : Multiset Edge) 0 v) ∧
    (primMST n (buildAdj n edges) start = Except.error notConnectedMsg ↔
      ¬ ∀ v, v < n → Reach (↑edges : Multiset Edge) start v) := by
  constructor
  · rcases kruskalMST_main hn (fun e he => ⟨(hval e he).1, (hval e he).2.1⟩) with
      ⟨r, hok, hlen, hsub, hnc, hxy, htot, hopt⟩ | ⟨herr, hncn⟩
    · constructor
      · intro herr
        rw [hok] at herr
        exact Except.noConfusion herr
      · intro hncn
        exact absurd (fun v hv => (hxy 0 v hn hv).mono_le hsub) hncn
    · exact ⟨fun _ => hncn, fun _ => herr⟩
  · have hadj := buildAdj_adjOk edges hval
    rcases primMST_main edges (buildAdj n edges) start hval hadj hn hstart with
      ⟨r, hok, hps⟩ | ⟨herr, v, hv, hnr⟩
    · obtain ⟨hlen, hsubC, hbdd, hnc, hxy, htot, hopt⟩ := hps
      constructor
      · intro herr
        rw [hok] at herr
        exact Except.noConfusion herr
      · intro hncn
        refine absurd (fun v hv => ?_) hncn
        exact (reach_map_canon.2 (hxy start v hstart hv)).mono_le hsubC
    · constructor
      · intro _
        intro hall
        exact hnr (hall v hv)
      · exact fun _ => herr

theorem error_iff_disconnected_witness :
    (0 < 4 ∧ ValidEdges 4 [⟨0, 1, 5⟩] ∧ 0 < 4) ∧
    kruskalMST 4 [⟨0, 1, 5⟩] = Except.error notConnectedMsg ∧
    primMST 4 (buildAdj 4 [⟨0, 1, 5⟩]) 0 = Except.error notConnectedMsg := by
  obtain ⟨h1, h2⟩ :=
    @error_iff_disconnected 4 [⟨0, 1, 5⟩] 0 (by decide) (by decide) (by decide)
  have hdisc : ¬ ∀ v, v < 4 →
      Reach (↑([⟨0, 1, 5⟩] : List Edge) : Multiset Edge) 0 v := by
    intro hall
    have hr := hall 2 (by decide)
    have hiso : ∀ f ∈ (↑([⟨0, 1, 5⟩] : List Edge) : Multiset Edge),
        f.u ≠ 2 ∧ f.v ≠ 2 := by decide
    exact absurd (reach_isolated hiso hr) (by decide)
  exact ⟨⟨by decide, by decide, by decide⟩, h1.2 hdisc, h2.2 hdisc⟩

/-- Claim C5: draining a freshly filled `MinHeap` by repeated `pop` yields
exactly the pushed items, in non-decreasing weight order, and `pop` on the
empty heap returns the null signal instead of failing. -/
theorem heap_drain_sorted (items : List HeapItem) :
    List.Pairwise (fun a b => a.w ≤ b.w) (popAll (items.foldl MinHeap.push ⟨[]⟩)) ∧
    (↑(popAll (items.foldl MinHeap.push ⟨[]⟩)) : Multiset HeapItem) = ↑items ∧
    MinHeap.pop ⟨[]⟩ = (none, ⟨[]⟩) := by
  have hE : IsHeap (⟨[]⟩ : MinHeap).data := by
    intro j hj hjl
    simp at hjl
  obtain ⟨h1, h2⟩ := foldl_push_spec items ⟨[]⟩ hE
  obtain ⟨h3, h4⟩ := popAllF_spec (items.foldl MinHeap.push ⟨[]⟩).data.length
    (items.foldl MinHeap.push ⟨[]⟩) (le_refl _) h1
  refine ⟨h4, ?_, pop_empty⟩
  show (↑(popAllF (items.foldl MinHeap.push ⟨[]⟩).data.length
    (items.foldl MinHeap.push ⟨[]⟩)) : Multiset HeapItem) = ↑items
  rw [h3, h2]
  simp

/-- Claim C6 (amended): on a well-formed `DisjointSet`, `union(a,b)` followed
immediately by `union(a,b)` returns `true` then `false` provided `a` and `b`
start in distinct sets; when they are already in the same set (in particular
when `a = b`), the first call already returns `false`, refuting the original
unconditional claim. -/
theorem union_twice_true_false {n : Nat} {s : DisjointSet} (h : DSUWF n s)
    {a b : Nat} (ha : a < n) (hb : b < n)
    (hroots : rootOf s.parent a ≠ rootOf s.parent b) :
    (s.union a b).1 = true ∧ ((s.union a b).2.union a b).1 = false := by
  obtain ⟨hwf2, hiff, hsame, hdiff⟩ := union_spec h ha hb
  have h1 : (s.union a b).1 = true := hiff.2 hroots
  obtain ⟨rkeep, rdrop, hkd, hroot2, hroots2⟩ := hdiff hroots
  have hra : rootOf (s.union a b).2.parent a = rkeep := by
    rcases hkd with ⟨hk, hd⟩ | ⟨hk, hd⟩
    · have hcond : ¬ (rootOf s.parent a = rdrop) := fun hc => hroots (by rw [hc, hd])
      rw [hroot2 a ha, if_neg hcond, hk]
    · rw [hroot2 a ha, if_pos hd.symm]
  have hrb : rootOf (s.union a b).2.parent b = rkeep := by
    rcases hkd with ⟨hk, hd⟩ | ⟨hk, hd⟩
    · rw [hroot2 b hb, if_pos hd.symm]
    · have hcond : ¬ (rootOf s.parent b = rdrop) := fun hc => hroots (by rw [← hd, ← hc])
      rw [hroot2 b hb, if_neg hcond, hk]
  obtain ⟨hwf3, hiff2, hsame2, hdiff2⟩ := union_spec hwf2 ha hb
  have h2 : ¬ (((s.union a b).2.union a b).1 = true) := by
    intro ht
    refine (hiff2.1 ht) ?_
    rw [hra, hrb]
  refine ⟨h1, ?_⟩
  cases hres : ((s.union a b).2.union a b).1
  · rfl
  · exact absurd hres h2

theorem union_twice_true_false_witness :
    (0 < 2 ∧ 1 < 2 ∧
      rootOf (DisjointSet.init 2).parent 0 ≠ rootOf (DisjointSet.init 2).parent 1) ∧
    ((DisjointSet.init 2).union 0 1).1 = true ∧
    (((DisjointSet.init 2).union 0 1).2.union 0 1).1 = false :=
  ⟨⟨by decide, by decide, by decide⟩,
    union_twice_true_false (init_DSUWF 2) (by decide) (by decide) (by decide)⟩

/-- Claim C6, counterexample to the original statement: on a fresh
`DisjointSet`, calling `union(0,0)` returns `false` already on the first
call, not `true` as claimed for arbitrary vertex pairs. -/
theorem union_twice_counterexample :
    ((DisjointSet.init 1).union 0 0).1 = false := by decide

/-- Claim C7: on the concrete input `n = 4`,
`edges = [(0,1,1),(1,2,2),(2,3,3),(0,3,10)]`, both algorithms return the
edges `(0,1,1),(1,2,2),(2,3,3)` with total weight `6`. -/
theorem concrete_example_mst :
    kruskalMST 4 [⟨0, 1, 1⟩, ⟨1, 2, 2⟩, ⟨2, 3, 3⟩, ⟨0, 3, 10⟩] =
      Except.ok ⟨[⟨0, 1, 1⟩, ⟨1, 2, 2⟩, ⟨2, 3, 3⟩], 6⟩ ∧
    primMST 4 (buildAdj 4 [⟨0, 1, 1⟩, ⟨1, 2, 2⟩, ⟨2, 3, 3⟩, ⟨0, 3, 10⟩]) 0 =
      Except.ok ⟨[⟨0, 1, 1⟩, ⟨1, 2, 2⟩, ⟨2, 3, 3⟩], 6⟩ := by
  constructor
  · rw [kruskalMST_def, List.mergeSort_of_sorted (by decide)]
    rfl
  · rfl

/-- Claim C8: neither algorithm mutates its inputs: the store-passing
variants return the caller's `edges` array and adjacency array unchanged,
alongside exactly the plain function results. -/
theorem no_input_mutation (n : Nat) (edges : List Edge)
    (adj : List (List AdjEntry)) (start : Nat) :
    kruskalMSTMut n edges = (kruskalMST n edges, edges) ∧
    primMSTMut n adj start = (primMST n adj start, adj) := by
  constructor
  · have hcopy : edges.foldr (fun e acc => e :: acc) [] = edges := by
      induction edges with
      | nil => rfl
      | cons e es ih => rw [List.foldr_cons, ih]
    unfold kruskalMSTMut kruskalMST
    rw [hcopy]
  · rfl

/-- Claim C9: after any sequence of `push`/`pop` operations from the empty
heap, the backing array satisfies the heap-order invariant (every element at
index `i > 0` weighs at least its parent at `(i-1)/2`), and the element at
index `0` is a minimum-weight element. -/
theorem heap_invariant_ops (ops : List HeapOp) :
    IsHeap (applyOps ops).data ∧
    ∀ y ∈ (applyOps ops).data, ((applyOps ops).data.getD 0 default).w ≤ y.w := by
  have h1 : IsHeap (applyOps ops).data := applyOps_isHeap ops
  exact ⟨h1, fun y hy => isHeap_min_mem h1 hy⟩

/-- Claim C10 (amended): for `n = 1`, `primMST` succeeds with the empty MST
and total `0` for every adjacency input that carries an entry for the start
vertex `0` (so that the `adj[start]` read of the source is in range — on a
shorter adjacency array, e.g. the empty one, the source instead fails
iterating `undefined`), and `kruskalMST` does so for every valid edge list;
the original claim's "every edge list" fails for `kruskalMST` on edge lists
with out-of-range endpoints. -/
theorem n_one_trivial (edges : List Edge) (adj : List (List AdjEntry))
    (hval : ValidEdges 1 edges) (hadj : 0 < adj.length) :
    kruskalMST 1 edges = Except.ok ⟨[], 0⟩ ∧ primMST 1 adj 0 = Except.ok ⟨[], 0⟩ := by
  constructor
  · have hnil : edges = [] := by
      refine List.eq_nil_iff_forall_not_mem.2 (fun e he => ?_)
      obtain ⟨h1, h2, h3⟩ := hval e he
      omega
    rw [hnil, kruskalMST_def, List.mergeSort_nil]
    rfl
  · have hguard : ¬ (0 < ((adj.getD 0 []).foldl
        (fun hp e => hp.push ⟨e.w, 0, e.toV⟩) (⟨[]⟩ : MinHeap)).size ∧
        ((([] : List Edge).length : Int) < ((1 : Nat) : Int) - 1)) := by
      intro h
      have h2 := h.2
      norm_num at h2
    have hstep : primMST 1 adj 0 = primExit 1 [] 0 := by
      rw [show primMST 1 adj 0 = primLoop 1 adj
        (((adj.getD 0 []).foldl (fun hp e => hp.push ⟨e.w, 0, e.toV⟩)
            (⟨[]⟩ : MinHeap)).size + (adj.map List.length).sum + 1)
        ((List.replicate 1 false).set 0 true)
        ((adj.getD 0 []).foldl (fun hp e => hp.push ⟨e.w, 0, e.toV⟩)
          (⟨[]⟩ : MinHeap)) [] 0 from rfl]
      rw [primLoop_succ]
      exact if_neg hguard
    exact hstep.trans rfl

theorem n_one_trivial_witness :
    (ValidEdges 1 ([] : List Edge) ∧ 0 < ([[⟨0, 7⟩]] : List (List AdjEntry)).length) ∧
    kruskalMST 1 [] = Except.ok ⟨[], 0⟩ ∧
    primMST 1 [[⟨0, 7⟩]] 0 = Except.ok ⟨[], 0⟩ :=
  ⟨⟨by decide, by decide⟩, n_one_trivial [] [[⟨0, 7⟩]] (by decide) (by decide)⟩

/-- Claim C10, counterexample to the original statement: for `n = 1` the
out-of-range edge list `[(0,5,3)]` makes `kruskalMST` raise the
disconnected-graph error instead of returning the empty MST (the union on
the out-of-range vertex succeeds, so one edge is selected and the final
length check fails), matching the JavaScript behaviour. -/
theorem n_one_counterexample :
    kruskalMST 1 [⟨0, 5, 3⟩] = Except.error notConnectedMsg := by
  rw [kruskalMST_def, List.mergeSort_singleton]
  rfl
